import Mathlib

/-! cpp-oop-review: resources, executables and process orchestration

A shallow embedding of the C++ sources (`Resource`, `ConsumableResource`,
`UsableResource`, `Executable`, `Task`, `Process`) followed by theorems about them.

Conventions of the embedding.

* A `void` method that mutates its object becomes a function returning an outcome
  record: the state after the call, the notices written to `std::cout` / `std::cerr`
  (as structured `Event`s, in emission order), and the exception that left the call,
  if any.  A call that throws still returns the state it had reached when it threw.
* `int` is `Int`: the only arithmetic is `remainingCapacity--` under the guard
  `remainingCapacity > 0`, which cannot wrap.
* `assignedResources` is a `std::vector<Resource*>` of pointers into the pool the
  resources were assigned from; a pointer is the index of the entry in that pool.
  An index outside the pool stands for a dangling pointer and is skipped.
-/

namespace CppOopReview

/-! ## Exceptions and notices -/

/-- The exceptions of the program, one constructor per `throw` site. -/
inductive Error where
  /-- Thrown by both resource constructors: "Capacity for resource ... must be positive". -/
  | capacityNotPositive (resource : String)
  /-- Thrown by the Executable constructor: "Executable name cannot be empty". -/
  | emptyName
  /-- Thrown by the Executable constructor: "Duration for ... must be positive". -/
  | durationNotPositive (name : String)
  /-- Thrown by ConsumableResource::allocate: "No remaining capacity for consumable resource". -/
  | noRemainingCapacity (resource : String)
  /-- Thrown by UsableResource::allocate: "Usable resource ... is already allocated". -/
  | alreadyAllocated (resource : String)
  /-- Thrown by Executable::assignResources: "Resource ... not available for ...". -/
  | resourceNotAvailable (resourceName : String) (name : String)
  /-- Thrown by Task::execute: "Resources not properly assigned for task ...". -/
  | taskNotAssigned (name : String)
  /-- Thrown by Process::execute: "Resources not properly assigned for process ...". -/
  | processNotAssigned (name : String)
  /-- Thrown by Process::run: "Insufficient resources in pool to start ...". -/
  | insufficientResources (name : String)
  deriving DecidableEq, Repr

/-- The lines written to `std::cout` and `std::cerr`, one constructor per output statement. -/
inductive Event where
  /-- ConsumableResource::release, cerr: the resource is depleted and cannot be reused. -/
  | depletedWarning (resource : String)
  /-- UsableResource::release, cerr: attempted to release an already free resource. -/
  | alreadyFreeWarning (resource : String)
  /-- ConsumableResource::use, cout: "Using consumable resource (remaining: r/t MB)". -/
  | usingConsumable (resource : String) (remaining : Int) (total : Int)
  /-- UsableResource::use, cout: "Using usable resource (capacity: c GHz)". -/
  | usingUsable (resource : String) (capacity : Int)
  /-- Executable::releaseResources, cerr: "Warning: Failed to release resource". -/
  | releaseFailed (resource : String) (name : String) (e : Error)
  /-- Executable::canExecute, cout: "No resources required for task". -/
  | noResourcesRequired (name : String)
  /-- Task::execute, cout: "Executing task". -/
  | executingTask (name : String) (description : String) (duration : Int)
  /-- Process::execute, cout: "Executing process". -/
  | executingProcess (name : String) (description : String) (duration : Int)
  /-- Process::execute, cout: the two blanks written before task->execute(). -/
  | indent
  /-- Process::execute, cout: "Task ... skipped: insufficient resources". -/
  | taskSkipped (name : String)
  /-- Process::execute, cerr: "Error in ...", from the catch around one sub-unit. -/
  | errorInTask (name : String) (e : Error)
  /-- Process::run, cout: "Process ... completed." -/
  | processCompleted (name : String)
  /-- Process::run, cerr: "Error in process ...", from the catch around the whole run. -/
  | errorInProcess (name : String) (e : Error)
  deriving DecidableEq, Repr

/-! ## Resources -/

/-- A resource object.  The constructor is the dynamic type (`Resource::Type` is fixed by
it); `name` and `isAvailable` are the fields of the base class. -/
inductive Resource where
  | ConsumableResource (name : String) (isAvailable : Bool)
      (totalCapacity : Int) (remainingCapacity : Int)
  | UsableResource (name : String) (isAvailable : Bool) (capacity : Int)
  deriving DecidableEq, Repr

/-- The state after a call on one resource. -/
structure ResourceOutcome where
  resource : Resource
  log : List Event
  error : Option Error
  deriving DecidableEq, Repr

/-- Modelled from the spec: the base constructor `Resource::Resource(name, type)` lives in
Resource.cpp, which is not among the sources.  The data model says an Occupying resource
is available iff it is not held, and a new resource is held by nobody, so the base flag
`isAvailable` starts out true. -/
def Resource.initialIsAvailable : Bool := true

/-- The constructor ConsumableResource::ConsumableResource(name, capacity); `flag` is the
value the base constructor gives to `isAvailable`. -/
def ConsumableResource.new (name : String) (capacity : Int) (flag : Bool) :
    Except Error Resource :=
  if capacity ≤ 0 then .error (.capacityNotPositive name)
  else .ok (.ConsumableResource name flag capacity capacity)

/-- The constructor UsableResource::UsableResource(name, capacity); `flag` is the value the
base constructor gives to `isAvailable`. -/
def UsableResource.new (name : String) (capacity : Int) (flag : Bool) :
    Except Error Resource :=
  if capacity ≤ 0 then .error (.capacityNotPositive name)
  else .ok (.UsableResource name flag capacity)

/-- Resource::getName (declared in Resource.h): the `name` field. -/
def Resource.getName : Resource → String
  | .ConsumableResource name _ _ _ => name
  | .UsableResource name _ _ => name

/-- ConsumableResource::getRemainingCapacity; a UsableResource has no such member, for it
the function gives 0. -/
def Resource.getRemainingCapacity : Resource → Int
  | .ConsumableResource _ _ _ remainingCapacity => remainingCapacity
  | .UsableResource _ _ _ => 0

/-- The test "the dynamic type is UsableResource". -/
def Resource.isUsable : Resource → Bool
  | .ConsumableResource _ _ _ _ => false
  | .UsableResource _ _ _ => true

/-- The virtual isAvailableForUse: `remainingCapacity > 0` for a ConsumableResource, the
flag `isAvailable` for a UsableResource. -/
def Resource.isAvailableForUse : Resource → Bool
  | .ConsumableResource _ _ _ remainingCapacity => decide (remainingCapacity > 0)
  | .UsableResource _ isAvailable _ => isAvailable

/-- The virtual allocate. -/
def Resource.allocate : Resource → ResourceOutcome
  | .ConsumableResource name isAvailable totalCapacity remainingCapacity =>
    if remainingCapacity ≤ 0 then
      ⟨.ConsumableResource name isAvailable totalCapacity remainingCapacity, [],
        some (.noRemainingCapacity name)⟩
    else
      ⟨.ConsumableResource name (decide (remainingCapacity - 1 > 0)) totalCapacity
        (remainingCapacity - 1), [], none⟩
  | .UsableResource name isAvailable capacity =>
    if isAvailable = false then
      ⟨.UsableResource name isAvailable capacity, [], some (.alreadyAllocated name)⟩
    else
      ⟨.UsableResource name false capacity, [], none⟩

/-- The virtual release. -/
def Resource.release : Resource → ResourceOutcome
  | .ConsumableResource name isAvailable totalCapacity remainingCapacity =>
    ⟨.ConsumableResource name (decide (remainingCapacity > 0)) totalCapacity remainingCapacity,
      if remainingCapacity = 0 ∧ isAvailable = false then [.depletedWarning name] else [],
      none⟩
  | .UsableResource name isAvailable capacity =>
    ⟨.UsableResource name true capacity,
      if isAvailable = true then [.alreadyFreeWarning name] else [],
      none⟩

/-- The virtual use: a const method that writes one line. -/
def Resource.use : Resource → Event
  | .ConsumableResource name _ totalCapacity remainingCapacity =>
    .usingConsumable name remainingCapacity totalCapacity
  | .UsableResource name _ capacity => .usingUsable name capacity

/-- The state of a resource after `n` calls of allocate, failed calls included. -/
def Resource.allocateTimes : Nat → Resource → Resource
  | 0, r => r
  | n + 1, r => Resource.allocateTimes n r.allocate.resource

/-- The state of a resource after `n` calls of release. -/
def Resource.releaseTimes : Nat → Resource → Resource
  | 0, r => r
  | n + 1, r => Resource.releaseTimes n r.release.resource

/-! ## The Executable base class -/

/-- The fields of the base class Executable. -/
structure Executable where
  name : String
  description : String
  requiredResourcesNames : List String
  durationInUnits : Int
  assignedResources : List Nat
  deriving DecidableEq, Repr

/-- The constructor Executable::Executable (also that of Task and Process, which only
forward to it). -/
def Executable.new (name : String) (description : String)
    (requiredResourcesNames : List String) (durationInUnits : Int) : Except Error Executable :=
  if name = "" then .error .emptyName
  else if durationInUnits ≤ 0 then .error (.durationNotPositive name)
  else .ok ⟨name, description, requiredResourcesNames, durationInUnits, []⟩

/-- The state after a call of a base-class method: the object, the pool it was called
with (or, for releaseResources, the pool its pointers lead into), output and exception. -/
structure ExecOutcome where
  self : Executable
  pool : List Resource
  log : List Event
  error : Option Error
  deriving DecidableEq, Repr

/-- The state after canExecute, and its return value. -/
structure CheckOutcome where
  self : Executable
  pool : List Resource
  result : Bool
  log : List Event
  deriving DecidableEq, Repr

/-- The test of the inner loop of assignResources and of the lambda in canExecute. -/
def Resource.matchesAvailable (resourceName : String) (r : Resource) : Bool :=
  decide (r.getName = resourceName) && r.isAvailableForUse

/-- The inner loop of assignResources up to its `break`: the position of the first pool
entry with the wanted name that is available, if there is one. -/
def findAvailable (resourceName : String) : List Resource → Option Nat
  | [] => none
  | r :: rest =>
    if r.matchesAvailable resourceName = true then some 0
    else (findAvailable resourceName rest).map (· + 1)

/-- The state of a pool after a call on one of its entries. -/
structure PoolOutcome where
  pool : List Resource
  log : List Event
  error : Option Error
  deriving DecidableEq, Repr

/-- The call `resource->allocate()` on the pool entry at position `i`. -/
def allocateAt (i : Nat) (pool : List Resource) : PoolOutcome :=
  match pool[i]? with
  | none => ⟨pool, [], none⟩
  | some r => ⟨pool.set i r.allocate.resource, r.allocate.log, r.allocate.error⟩

/-- One iteration of the loop of releaseResources on the pointer `i`: `resource->release()`
inside its try/catch, which turns an exception into a warning on cerr. -/
def releaseAt (name : String) (i : Nat) (pool : List Resource) : PoolOutcome :=
  match pool[i]? with
  | none => ⟨pool, [], none⟩
  | some r =>
    ⟨pool.set i r.release.resource,
      r.release.log ++
        (match r.release.error with
          | some e => [.releaseFailed r.getName name e]
          | none => []),
      none⟩

/-- The loop of Executable::releaseResources over the assigned pointers, in list order. -/
def Executable.releaseLoop (name : String) : List Nat → List Resource → PoolOutcome
  | [], pool => ⟨pool, [], none⟩
  | i :: rest, pool =>
    let o := releaseAt name i pool
    let r := Executable.releaseLoop name rest o.pool
    ⟨r.pool, o.log ++ r.log, none⟩

/-- Executable::releaseResources; `pool` is the pool the assigned pointers lead into. -/
def Executable.releaseResources (self : Executable) (pool : List Resource) : ExecOutcome :=
  let r := Executable.releaseLoop self.name self.assignedResources pool
  ⟨{ self with assignedResources := [] }, r.pool, r.log, none⟩

/-- The outer loop of Executable::assignResources over the names still to be served. -/
def Executable.assignLoop : List String → Executable → List Resource → ExecOutcome
  | [], self, pool => ⟨self, pool, [], none⟩
  | resourceName :: rest, self, pool =>
    match findAvailable resourceName pool with
    | some i =>
      let a := allocateAt i pool
      match a.error with
      | some e => ⟨self, a.pool, a.log, some e⟩
      | none =>
        let r := Executable.assignLoop rest
          { self with assignedResources := self.assignedResources ++ [i] } a.pool
        ⟨r.self, r.pool, a.log ++ r.log, r.error⟩
    | none =>
      let r := self.releaseResources pool
      ⟨r.self, r.pool, r.log, some (.resourceNotAvailable resourceName self.name)⟩

/-- Executable::assignResources. -/
def Executable.assignResources (self : Executable) (pool : List Resource) : ExecOutcome :=
  if self.requiredResourcesNames.isEmpty = true then
    ⟨{ self with assignedResources := [] }, pool, [], none⟩
  else
    Executable.assignLoop self.requiredResourcesNames { self with assignedResources := [] } pool

/-- The call std::none_of(pool.begin(), pool.end(), pred). -/
def noneOf (pred : Resource → Bool) (pool : List Resource) : Bool :=
  pool.all (fun r => !pred r)

/-- The loop of Executable::canExecute over the required names. -/
def Executable.canExecuteLoop : List String → List Resource → Bool
  | [], _ => true
  | resourceName :: rest, pool =>
    if noneOf (Resource.matchesAvailable resourceName) pool = true then false
    else Executable.canExecuteLoop rest pool

/-- Executable::canExecute. -/
def Executable.canExecute (self : Executable) (pool : List Resource) : CheckOutcome :=
  if self.requiredResourcesNames.isEmpty = true then
    ⟨self, pool, true, [.noResourcesRequired self.name]⟩
  else
    ⟨self, pool, Executable.canExecuteLoop self.requiredResourcesNames pool, []⟩

/-- The loop `for (resource : assignedResources) resource->use()`: the lines written. -/
def useAll (assigned : List Nat) (held : List Resource) : List Event :=
  assigned.filterMap (fun i => (held[i]?).map Resource.use)

/-! ## Task and Process -/

/-- Task::execute; `held` is the pool the assigned pointers lead into. -/
def Task.execute (self : Executable) (held : List Resource) : ExecOutcome :=
  if self.assignedResources.length ≠ self.requiredResourcesNames.length then
    ⟨self, held, [], some (.taskNotAssigned self.name)⟩
  else
    ⟨self, held,
      .executingTask self.name self.description self.durationInUnits ::
        useAll self.assignedResources held,
      none⟩

/-- An object behind a `std::unique_ptr<Executable>`: a Task, or a Process with its own
resource pool and its own sequence of sub-units. -/
inductive Exec where
  | Task (base : Executable)
  | Process (base : Executable) (resourcePool : List Resource) (tasks : List Exec)
  deriving Repr

/-- The constructor Task::Task, which only forwards to the Executable constructor. -/
def Task.new (name : String) (description : String) (requiredResourcesNames : List String)
    (durationInUnits : Int) : Except Error Exec :=
  match Executable.new name description requiredResourcesNames durationInUnits with
  | .error e => .error e
  | .ok base => .ok (.Task base)

/-- The constructor Process::Process, which only forwards to the Executable constructor; the
resource pool and the sequence of sub-units start out empty. -/
def Process.new (name : String) (description : String) (requiredResourcesNames : List String)
    (durationInUnits : Int) : Except Error Exec :=
  match Executable.new name description requiredResourcesNames durationInUnits with
  | .error e => .error e
  | .ok base => .ok (.Process base [] [])

/-- The base-class part of an object. -/
def Exec.base : Exec → Executable
  | .Task base => base
  | .Process base _ _ => base

/-- The object with its base-class part replaced. -/
def Exec.setBase : Exec → Executable → Exec
  | .Task _, base => .Task base
  | .Process _ resourcePool tasks, base => .Process base resourcePool tasks

/-- The member `resourcePool` of a Process (a Task has none). -/
def Exec.resourcePool : Exec → List Resource
  | .Task _ => []
  | .Process _ resourcePool _ => resourcePool

/-- The member `tasks` of a Process (a Task has none). -/
def Exec.tasks : Exec → List Exec
  | .Task _ => []
  | .Process _ _ tasks => tasks

/-- Executable::getName on an object. -/
def Exec.getName (e : Exec) : String := e.base.name

/-- The state after the virtual execute(): the object, the pool its assigned pointers lead
into, output and exception. -/
structure ExecuteOutcome where
  self : Exec
  held : List Resource
  log : List Event
  error : Option Error

/-- The state after one iteration of the loop of Process::execute. -/
structure VisitOutcome where
  task : Exec
  pool : List Resource
  log : List Event

/-- The state after the loop of Process::execute. -/
structure TasksOutcome where
  tasks : List Exec
  pool : List Resource
  log : List Event

/-- One iteration of the loop of Process::execute: the try/catch around one sub-unit.
`execute` is the virtual call `task->execute()`, given the base-class state of the
sub-unit at the time of the call and the pool of the calling Process. -/
def Process.visit (execute : Executable → List Resource → ExecuteOutcome)
    (task : Exec) (pool : List Resource) : VisitOutcome :=
  let c := task.base.canExecute pool
  if c.result = true then
    let a := c.self.assignResources c.pool
    match a.error with
    | some e => ⟨task.setBase a.self, a.pool, c.log ++ a.log ++ [.errorInTask a.self.name e]⟩
    | none =>
      let x := execute a.self a.pool
      match x.error with
      | some e =>
        ⟨x.self, x.held, c.log ++ a.log ++ [.indent] ++ x.log ++ [.errorInTask x.self.getName e]⟩
      | none =>
        let r := x.self.base.releaseResources x.held
        ⟨x.self.setBase r.self, r.pool, c.log ++ a.log ++ [.indent] ++ x.log ++ r.log⟩
  else
    ⟨task.setBase c.self, c.pool, c.log ++ [.taskSkipped c.self.name]⟩

mutual
/-- The virtual execute() of the object `e`, whose base-class state at the time of the call
is `self` (the one stored in `e` is not read); `held` is the pool the assigned pointers
lead into.  The Task case is Task::execute, the Process case is Process::execute. -/
def Exec.execute : Exec → Executable → List Resource → ExecuteOutcome
  | .Task _, self, held =>
    let r := Task.execute self held
    ⟨.Task r.self, r.pool, r.log, r.error⟩
  | .Process _ resourcePool tasks, self, held =>
    if self.requiredResourcesNames.isEmpty = false ∧
        self.assignedResources.length ≠ self.requiredResourcesNames.length then
      ⟨.Process self resourcePool tasks, held, [], some (.processNotAssigned self.name)⟩
    else
      let r := Process.executeTasks tasks resourcePool
      ⟨.Process self r.pool r.tasks, held,
        .executingProcess self.name self.description self.durationInUnits ::
          (if self.assignedResources.isEmpty = false then useAll self.assignedResources held
            else []) ++ r.log,
        none⟩
/-- The loop `for (task : tasks)` of Process::execute over the pool of the Process. -/
def Process.executeTasks : List Exec → List Resource → TasksOutcome
  | [], pool => ⟨[], pool, []⟩
  | task :: rest, pool =>
    let v := Process.visit (Exec.execute task) task pool
    let r := Process.executeTasks rest v.pool
    ⟨v.task :: r.tasks, r.pool, v.log ++ r.log⟩
end

/-- The state after Process::run: the Process object, its output, and the exception that
left the call. -/
structure RunOutcome where
  self : Exec
  log : List Event
  error : Option Error

/-- Process::run on the Process with base-class part `self`, pool `resourcePool` and
sub-units `tasks`.  Its own assigned pointers lead into its own pool. -/
def Process.run (self : Executable) (resourcePool : List Resource) (tasks : List Exec) :
    RunOutcome :=
  let c : CheckOutcome :=
    if self.requiredResourcesNames.isEmpty = true then ⟨self, resourcePool, true, []⟩
    else self.canExecute resourcePool
  if c.result = true then
    let a : ExecOutcome :=
      if c.self.requiredResourcesNames.isEmpty = false then c.self.assignResources c.pool
      else ⟨c.self, c.pool, [], none⟩
    match a.error with
    | some e =>
      ⟨.Process a.self a.pool tasks, c.log ++ a.log ++ [.errorInProcess a.self.name e], none⟩
    | none =>
      let x := Exec.execute (.Process a.self a.pool tasks) a.self a.pool
      match x.error with
      | some e =>
        ⟨x.self, c.log ++ a.log ++ x.log ++ [.errorInProcess x.self.getName e], none⟩
      | none =>
        let r := x.self.base.releaseResources x.self.resourcePool
        ⟨.Process r.self r.pool x.self.tasks,
          c.log ++ a.log ++ x.log ++ r.log ++ [.processCompleted r.self.name], none⟩
  else
    ⟨.Process c.self c.pool tasks,
      c.log ++ [.errorInProcess c.self.name (.insufficientResources c.self.name)], none⟩

/-- Process::addResource: the resource is appended to the pool of the Process (a Task has
no such member). -/
def Process.addResource : Exec → Resource → Exec
  | .Process base resourcePool tasks, resource => .Process base (resourcePool ++ [resource]) tasks
  | .Task base, _ => .Task base

/-- Process::addTask: the sub-unit is appended to the sequence of the Process (a Task has
no such member). -/
def Process.addTask : Exec → Exec → Exec
  | .Process base resourcePool tasks, task => .Process base resourcePool (tasks ++ [task])
  | .Task base, _ => .Task base

/-- The call `process->run()` through a pointer to a Process (a Task has no run). -/
def Exec.run : Exec → RunOutcome
  | .Process base resourcePool tasks => Process.run base resourcePool tasks
  | .Task base => ⟨.Task base, [], none⟩

/-- The first process of main, as main builds it: the Process "CompileMain", its two
resources and its five Tasks, each constructor in the order of the source.  The resources
start with the flag the base constructor gives them, `Resource.initialIsAvailable`. -/
def main.compilationProcess : Except Error Exec := do
  let p0 ← Process.new "CompileMain" "Compile main.c to main.exe"
    ["CentralProcessingUnit", "Memory"] 15
  let cpu ← UsableResource.new "CentralProcessingUnit" 3 Resource.initialIsAvailable
  let p1 := Process.addResource p0 cpu
  let memory ← ConsumableResource.new "Memory" 4096 Resource.initialIsAvailable
  let p2 := Process.addResource p1 memory
  let scan ← Task.new "ScanSourceCode" "Tokenize main.c" ["CentralProcessingUnit", "Memory"] 2
  let p3 := Process.addTask p2 scan
  let parse ← Task.new "ParseSyntax" "Build syntax tree from tokens"
    ["CentralProcessingUnit", "Memory"] 3
  let p4 := Process.addTask p3 parse
  let analysis ← Task.new "PerformStaticAnalysis" "Check syntax tree for errors"
    ["CentralProcessingUnit", "Memory"] 4
  let p5 := Process.addTask p4 analysis
  let generate ← Task.new "GenerateCode" "Generate machine code"
    ["CentralProcessingUnit", "Memory"] 3
  let p6 := Process.addTask p5 generate
  let link ← Task.new "LinkBinary" "Link object files into main.exe"
    ["CentralProcessingUnit", "Memory"] 2
  pure (Process.addTask p6 link)

/-- The output of `compilationProcess->run()` in main, when all constructors succeed. -/
def main.compilationLog : Except Error (List Event) := do
  let p ← main.compilationProcess
  pure p.run.log

mutual
/-- The object holds no assigned resource, and neither does any of the sub-units below it,
at whatever depth. -/
def Exec.holdsNothing : Exec → Bool
  | .Task base => base.assignedResources.isEmpty
  | .Process base _ tasks => base.assignedResources.isEmpty && Exec.allHoldNothing tasks
/-- Every object of the list holds nothing, in the sense of `Exec.holdsNothing`. -/
def Exec.allHoldNothing : List Exec → Bool
  | [] => true
  | task :: rest => task.holdsNothing && Exec.allHoldNothing rest
end

/-! ## Vocabulary of the statements -/

/-- The pool after `resource->allocate()` has been called on the entries at the listed
positions, one call per list element, in list order. -/
def allocateAll : List Nat → List Resource → List Resource
  | [], pool => pool
  | i :: rest, pool => allocateAll rest (allocateAt i pool).pool

/-- Position `j` holds the first entry of `pool`, in pool order, that has the name `n` and
is available. -/
def IsFirstAvailable (n : String) (pool : List Resource) (j : Nat) : Prop :=
  (∃ r, pool[j]? = some r ∧ r.getName = n ∧ r.isAvailableForUse = true) ∧
  ∀ k r, k < j → pool[k]? = some r → ¬ (r.getName = n ∧ r.isAvailableForUse = true)

/-- The positions `chosen` serve the names `names` in declared order: the i-th position is
the first available entry with the i-th name in the pool as the allocations made for the
names before it have left it. -/
def ServedInOrder (names : List String) (chosen : List Nat) (pool : List Resource) : Prop :=
  ∀ i n, names[i]? = some n →
    ∃ j, chosen[i]? = some j ∧ IsFirstAvailable n (allocateAll (chosen.take i) pool) j

/-- The line is the completion notice of Process::run. -/
def Event.isCompletion : Event → Bool
  | .processCompleted _ => true
  | _ => false

/-- The line is the failure notice of Process::run (the catch around the whole run). -/
def Event.isTopLevelFailure : Event → Bool
  | .errorInProcess _ _ => true
  | _ => false

/-- The line is written by Process::run itself and by nothing it calls. -/
def Event.isTopLevel (ev : Event) : Bool := ev.isCompletion || ev.isTopLevelFailure

/-- The first line the virtual execute() of the object `e` writes once its assignment
check has passed, `self` being its base-class state: "Executing task" for a Task,
"Executing process" for a Process. -/
def Exec.startNotice : Exec → Executable → Event
  | .Task _, self => .executingTask self.name self.description self.durationInUnits
  | .Process _ _ _, self => .executingProcess self.name self.description self.durationInUnits

/-- The line is one of the three with which the loop of Process::execute accounts for a
sub-unit that is a Task: it was executed, skipped, or ended in a caught error. -/
def Event.isTaskNotice : Event → Bool
  | .executingTask _ _ _ => true
  | .taskSkipped _ => true
  | .errorInTask _ _ => true
  | _ => false

/-! ### Several Executables on one pool

The Executables that assign from one and the same pool (an orchestrator run standalone and
its sub-units) together with that pool.  A call of canExecute, assignResources, execute or
releaseResources on one of them is a step of the system.  Process::run and the loop of
Process::execute are sequences of such calls on the orchestrator and on its sub-units; the
only part of Process::execute that reads the shared pool itself is the one it has in common
with Task::execute (the assignment check and the calls of use), which is the step `execute`. -/

/-- A pool and the Executables that assign from it. -/
structure System where
  pool : List Resource
  units : List Executable
  deriving DecidableEq, Repr

/-- A call of a base-class method, or of execute, on the unit at position `u`. -/
inductive Call where
  | canExecute (u : Nat)
  | assignResources (u : Nat)
  | execute (u : Nat)
  | releaseResources (u : Nat)
  deriving DecidableEq, Repr

/-- The unit the call is made on. -/
def Call.unit : Call → Nat
  | .canExecute u => u
  | .assignResources u => u
  | .execute u => u
  | .releaseResources u => u

/-- The effect of a call on the unit `e` and the pool: the unit and the pool afterwards. -/
def Call.effect (e : Executable) (pool : List Resource) : Call → Executable × List Resource
  | .canExecute _ => ((e.canExecute pool).self, (e.canExecute pool).pool)
  | .assignResources _ => ((e.assignResources pool).self, (e.assignResources pool).pool)
  | .execute _ => ((Task.execute e pool).self, (Task.execute e pool).pool)
  | .releaseResources _ => ((e.releaseResources pool).self, (e.releaseResources pool).pool)

/-- One call; a call on a position that holds no unit does nothing. -/
def System.step (s : System) (call : Call) : System :=
  match s.units[call.unit]? with
  | none => s
  | some e => ⟨(call.effect e s.pool).2, s.units.set call.unit (call.effect e s.pool).1⟩

/-- The system after a sequence of calls. -/
def System.after (s : System) (calls : List Call) : System :=
  calls.foldl System.step s

/-- How many times the pool entry at position `j` occurs in the assigned lists of the
units, all lists taken together. -/
def System.holders (s : System) (j : Nat) : Nat :=
  (s.units.map (fun e => e.assignedResources.count j)).sum

/-- The bound of the exclusion invariant: a UsableResource that is free is in no assigned
list, one that is held is in at most one, once. -/
def holdBound (r : Resource) : Nat := if r.isAvailableForUse = true then 0 else 1

/-- The exclusion invariant seen from one unit: `others j` counts the occurrences of `j` in the
assigned lists of the other units, `assigned` is the list of this one. -/
def Good (others : Nat → Nat) (assigned : List Nat) (pool : List Resource) : Prop :=
  ∀ j r, pool[j]? = some r → r.isUsable = true → others j + assigned.count j ≤ holdBound r

/-- The exclusion invariant of a system: every UsableResource of the pool occurs in the
assigned lists, all taken together, at most once, and not at all while it is free. -/
def System.Exclusive (s : System) : Prop :=
  ∀ j r, s.pool[j]? = some r → r.isUsable = true → s.holders j ≤ holdBound r

/-- The pool of the limited-memory scenario: a free UsableResource "CPU" and a
ConsumableResource "Memory" with remaining capacity `rem`, in either order. -/
def cpuMemoryPool (memoryFirst : Bool) (c tot : Int) (f : Bool) (rem : Int) : List Resource :=
  if memoryFirst = true then
    [.ConsumableResource "Memory" f tot rem, .UsableResource "CPU" true c]
  else
    [.UsableResource "CPU" true c, .ConsumableResource "Memory" f tot rem]

/-! ### Sequences of calls on one resource and on one Executable -/

/-- A call of one of the three virtual methods of a resource that a caller can make after
construction, whatever its outcome. -/
inductive ResourceCall where
  | allocate
  | release
  | use
  deriving DecidableEq, Repr

/-- The resource after one call; a call of allocate that throws leaves the state it had
reached, and use is a const method. -/
def Resource.call (r : Resource) : ResourceCall → Resource
  | .allocate => r.allocate.resource
  | .release => r.release.resource
  | .use => r

/-- The resource after a sequence of calls. -/
def Resource.afterCalls (r : Resource) (calls : List ResourceCall) : Resource :=
  calls.foldl Resource.call r

/-- A call on one Executable: assignResources with the pool passed to it;
releaseResources, with the pool its pointers lead into; the virtual execute of the object
`object` the Executable is the base-class part of; and, for a Process, run with the state
of its own pool and of its sub-units at that time.  The pools are arbitrary: whatever
other callers did to them in between is allowed. -/
inductive ExecCall where
  | assignResources (pool : List Resource)
  | releaseResources (pool : List Resource)
  | execute (object : Exec) (held : List Resource)
  | run (resourcePool : List Resource) (tasks : List Exec)

/-- The base-class part of the Executable after one call, whether the call threw or not. -/
def Executable.call (e : Executable) : ExecCall → Executable
  | .assignResources pool => (e.assignResources pool).self
  | .releaseResources pool => (e.releaseResources pool).self
  | .execute object held => (Exec.execute object e held).self.base
  | .run resourcePool tasks => (Process.run e resourcePool tasks).self.base

/-- The base-class part of the Executable after a sequence of calls. -/
def Executable.afterCalls (e : Executable) (calls : List ExecCall) : Executable :=
  calls.foldl Executable.call e

/-- The call, made on the Executable in state `e`, calls neither assignResources nor
releaseResources: it is an execute, or a run that is rejected because the Executable
requires something and canExecute on the pool is false. -/
def ExecCall.keepsAssignment (e : Executable) : ExecCall → Bool
  | .assignResources _ => false
  | .releaseResources _ => false
  | .execute _ _ => true
  | .run resourcePool _ =>
    !e.requiredResourcesNames.isEmpty && !(e.canExecute resourcePool).result

/-! ### Comparing a pool before and after -/

/-- The resource itself when it is a UsableResource, nothing when it is a
ConsumableResource: what two pools are compared on when only the Occupying resources
matter. -/
def Resource.usableView : Resource → Option Resource
  | .UsableResource name isAvailable capacity => some (.UsableResource name isAvailable capacity)
  | .ConsumableResource _ _ _ _ => none

/-- The pools `before` and `after` have the same entries as far as `view` can tell,
position by position (and so the same number of entries). -/
def SameView {α : Type} (view : Resource → α) (before after : List Resource) : Prop :=
  ∀ j : Nat, (after[j]?).map view = (before[j]?).map view

/-- The pool `now` is the pool `before` except that the entries at the positions `held`
have been allocated since: releasing those gives back every UsableResource of `before`
as it was, and the other positions hold the same UsableResources as in `before`. -/
def HeldFrom (before now : List Resource) (held : List Nat) : Prop :=
  ∀ j : Nat,
    (now[j]?).map (fun r => Resource.usableView (if j ∈ held then r.release.resource else r))
    = (before[j]?).map Resource.usableView

/-! ## Lemmas on single resources -/

theorem Resource.allocate_of_available (r : Resource) (h : r.isAvailableForUse = true) :
    r.allocate.error = none ∧ r.allocate.log = [] := by
  cases r with
  | ConsumableResource n f t rem =>
    simp only [Resource.isAvailableForUse, decide_eq_true_eq] at h
    have h2 : ¬ rem ≤ 0 := by omega
    simp [Resource.allocate, h2]
  | UsableResource n f c =>
    simp only [Resource.isAvailableForUse] at h
    simp [Resource.allocate, h]

theorem Resource.allocate_getName (r : Resource) : r.allocate.resource.getName = r.getName := by
  cases r with
  | ConsumableResource n f t rem =>
    by_cases h : rem ≤ 0 <;> simp [Resource.allocate, h, Resource.getName]
  | UsableResource n f c =>
    cases f <;> simp [Resource.allocate, Resource.getName]

theorem Resource.release_getName (r : Resource) : r.release.resource.getName = r.getName := by
  cases r <;> simp [Resource.release, Resource.getName]

theorem Resource.release_error (r : Resource) : r.release.error = none := by
  cases r <;> simp [Resource.release]

theorem Resource.allocateTimes_consumable (n : String) (t : Int) :
    ∀ (k : Nat) (f : Bool) (rem : Int), (k : Int) ≤ rem →
      ∃ f', Resource.allocateTimes k (.ConsumableResource n f t rem) =
        .ConsumableResource n f' t (rem - k) := by
  intro k
  induction k with
  | zero => intro f rem _; exact ⟨f, by simp [Resource.allocateTimes]⟩
  | succ k ih =>
    intro f rem h
    have h2 : ¬ rem ≤ 0 := by push_cast at h; omega
    obtain ⟨f', hf'⟩ := ih (decide (rem - 1 > 0)) (rem - 1) (by push_cast at h; omega)
    refine ⟨f', ?_⟩
    simp only [Resource.allocateTimes, Resource.allocate, h2, if_false, hf']
    congr 1
    push_cast
    ring

theorem Resource.releaseTimes_depleted (n : String) (t : Int) :
    ∀ (m : Nat) (f : Bool), ∃ f',
      Resource.releaseTimes m (.ConsumableResource n f t 0) = .ConsumableResource n f' t 0 := by
  intro m
  induction m with
  | zero => intro f; exact ⟨f, by simp [Resource.releaseTimes]⟩
  | succ m ih =>
    intro f
    obtain ⟨f', hf'⟩ := ih (decide ((0 : Int) > 0))
    exact ⟨f', by simp only [Resource.releaseTimes, Resource.release, hf']⟩

/-! ## Theorems on single resources -/

/-- C2. A ConsumableResource constructed with capacity C >= 1 is created with remaining
capacity C; each of the first C calls of allocate succeeds and lowers the remaining
capacity by exactly 1; after them the resource is unavailable with remaining capacity 0;
the next allocate throws and leaves the capacity at 0; and however many times release is
called after depletion, the resource stays unavailable. -/
theorem consumable_depletes_after_capacity_allocations (name : String) (flag : Bool) (C : Nat)
    (hC : 1 ≤ C) :
    ∃ r, ConsumableResource.new name (C : Int) flag = .ok r ∧
      r.getRemainingCapacity = C ∧
      (∀ k : Nat, k < C →
        (r.allocateTimes k).getRemainingCapacity = (C : Int) - k ∧
        (r.allocateTimes k).isAvailableForUse = true ∧
        (r.allocateTimes k).allocate.error = none ∧
        (r.allocateTimes k).allocate.resource.getRemainingCapacity =
          (r.allocateTimes k).getRemainingCapacity - 1) ∧
      (r.allocateTimes C).isAvailableForUse = false ∧
      (r.allocateTimes C).getRemainingCapacity = 0 ∧
      (r.allocateTimes C).allocate.error = some (.noRemainingCapacity name) ∧
      (r.allocateTimes C).allocate.resource.getRemainingCapacity = 0 ∧
      (∀ m : Nat, ((r.allocateTimes C).releaseTimes m).isAvailableForUse = false ∧
        ((r.allocateTimes C).releaseTimes m).getRemainingCapacity = 0) ∧
      (∀ m : Nat,
        ((r.allocateTimes C).allocate.resource.releaseTimes m).isAvailableForUse = false) := by
  have hpos : ¬ ((C : Int) ≤ 0) := by omega
  refine ⟨.ConsumableResource name flag C C, by simp [ConsumableResource.new, hpos],
    by simp [Resource.getRemainingCapacity], ?_, ?_⟩
  · intro k hk
    obtain ⟨f', hf'⟩ := Resource.allocateTimes_consumable name C k flag C (by omega)
    have h2 : ¬ ((C : Int) - k ≤ 0) := by omega
    have h3 : (k : Int) < C := by omega
    simp [hf', Resource.getRemainingCapacity, Resource.isAvailableForUse, Resource.allocate, h2,
      h3]
  · obtain ⟨f', hf'⟩ := Resource.allocateTimes_consumable name C C flag C (by omega)
    simp only [sub_self] at hf'
    have hrel : ∀ (g : Bool) (m : Nat),
        (Resource.releaseTimes m (.ConsumableResource name g C 0)).isAvailableForUse = false ∧
        (Resource.releaseTimes m (.ConsumableResource name g C 0)).getRemainingCapacity = 0 := by
      intro g m
      obtain ⟨f'', hf''⟩ := Resource.releaseTimes_depleted name C m g
      simp [hf'', Resource.isAvailableForUse, Resource.getRemainingCapacity]
    refine ⟨by simp [hf', Resource.isAvailableForUse],
      by simp [hf', Resource.getRemainingCapacity],
      by simp [hf', Resource.allocate],
      by simp [hf', Resource.allocate, Resource.getRemainingCapacity], ?_, ?_⟩
    · intro m
      rw [hf']
      exact hrel f' m
    · intro m
      rw [hf']
      simp only [Resource.allocate, le_refl, if_true]
      exact (hrel f' m).1

/-- Witness for C2 at capacity 2. -/
theorem consumable_depletes_after_capacity_allocations_witness :
    ∃ r, ConsumableResource.new "Memory" ((2 : Nat) : Int) true = .ok r ∧
      r.getRemainingCapacity = (2 : Nat) ∧
      (∀ k : Nat, k < 2 →
        (r.allocateTimes k).getRemainingCapacity = ((2 : Nat) : Int) - k ∧
        (r.allocateTimes k).isAvailableForUse = true ∧
        (r.allocateTimes k).allocate.error = none ∧
        (r.allocateTimes k).allocate.resource.getRemainingCapacity =
          (r.allocateTimes k).getRemainingCapacity - 1) ∧
      (r.allocateTimes 2).isAvailableForUse = false ∧
      (r.allocateTimes 2).getRemainingCapacity = 0 ∧
      (r.allocateTimes 2).allocate.error = some (.noRemainingCapacity "Memory") ∧
      (r.allocateTimes 2).allocate.resource.getRemainingCapacity = 0 ∧
      (∀ m : Nat, ((r.allocateTimes 2).releaseTimes m).isAvailableForUse = false ∧
        ((r.allocateTimes 2).releaseTimes m).getRemainingCapacity = 0) ∧
      (∀ m : Nat,
        ((r.allocateTimes 2).allocate.resource.releaseTimes m).isAvailableForUse = false) :=
  consumable_depletes_after_capacity_allocations "Memory" true 2 (by decide)

/-- C3. For a UsableResource, allocate succeeds exactly when the resource is free at the
time of the call.  Starting from a free one: allocate succeeds and makes it unavailable;
a second allocate without a release in between throws and leaves it held; release frees
it; and allocate after that release succeeds again. -/
theorem usable_allocate_succeeds_iff_free (name : String) (capacity : Int) :
    (∀ flag : Bool,
      ((Resource.UsableResource name flag capacity).allocate.error = none ↔
        (Resource.UsableResource name flag capacity).isAvailableForUse = true)) ∧
    (Resource.UsableResource name true capacity).allocate.error = none ∧
    (Resource.UsableResource name true capacity).allocate.resource.isAvailableForUse = false ∧
    (Resource.UsableResource name true capacity).allocate.resource.allocate.error =
      some (.alreadyAllocated name) ∧
    (Resource.UsableResource name true capacity).allocate.resource.allocate.resource =
      (Resource.UsableResource name true capacity).allocate.resource ∧
    (Resource.UsableResource name true capacity).allocate.resource.release.error = none ∧
    (Resource.UsableResource name true capacity).allocate.resource.release.resource.isAvailableForUse
      = true ∧
    (Resource.UsableResource name true capacity).allocate.resource.release.resource.allocate.error
      = none := by
  refine ⟨?_, ?_⟩
  · intro flag
    cases flag <;> simp [Resource.allocate, Resource.isAvailableForUse]
  · simp [Resource.allocate, Resource.release, Resource.isAvailableForUse]

/-- C4. release never throws, on any resource in any state; a second release in a row
does not throw either and leaves the state the first one produced; after one or two
releases a UsableResource is available, and a ConsumableResource has the remaining
capacity it had before the calls. -/
theorem release_total_and_idempotent :
    (∀ r : Resource, r.release.error = none ∧
      r.release.resource.release.error = none ∧
      r.release.resource.release.resource = r.release.resource ∧
      r.release.resource.isUsable = r.isUsable) ∧
    (∀ (name : String) (flag : Bool) (capacity : Int),
      (Resource.UsableResource name flag capacity).release.resource.isAvailableForUse = true ∧
      (Resource.UsableResource name flag capacity).release.resource.release.resource.isAvailableForUse
        = true) ∧
    (∀ (name : String) (flag : Bool) (total remaining : Int),
      (Resource.ConsumableResource name flag total remaining).release.resource.getRemainingCapacity
        = remaining ∧
      (Resource.ConsumableResource name flag total
        remaining).release.resource.release.resource.getRemainingCapacity = remaining) := by
  refine ⟨?_, ?_, ?_⟩
  · intro r
    cases r <;> simp [Resource.release, Resource.isUsable]
  · intro name flag capacity
    simp [Resource.release, Resource.isAvailableForUse]
  · intro name flag total remaining
    simp [Resource.release, Resource.getRemainingCapacity]

/-! ## Lemmas on pools -/

theorem Resource.matchesAvailable_iff (n : String) (r : Resource) :
    r.matchesAvailable n = true ↔ r.getName = n ∧ r.isAvailableForUse = true := by
  simp [Resource.matchesAvailable]

theorem findAvailable_eq_none_iff (n : String) (pool : List Resource) :
    findAvailable n pool = none ↔ ∀ r ∈ pool, r.matchesAvailable n = false := by
  induction pool with
  | nil => simp [findAvailable]
  | cons r rest ih =>
    by_cases h : r.matchesAvailable n = true
    · simp [findAvailable, h]
    · simp [findAvailable, h, ih]

theorem findAvailable_eq_some_iff (n : String) (pool : List Resource) (i : Nat) :
    findAvailable n pool = some i ↔
      (∃ r, pool[i]? = some r ∧ r.matchesAvailable n = true) ∧
      ∀ j r, j < i → pool[j]? = some r → r.matchesAvailable n = false := by
  induction pool generalizing i with
  | nil => simp [findAvailable]
  | cons r rest ih =>
    by_cases h : r.matchesAvailable n = true
    · simp only [findAvailable, h, if_true, Option.some.injEq]
      constructor
      · intro hi
        subst hi
        exact ⟨⟨r, by simp, h⟩, by intro j r' hj; omega⟩
      · rintro ⟨_, hfirst⟩
        by_contra hne
        have := hfirst 0 r (by omega) (by simp)
        simp [h] at this
    · simp only [findAvailable, h, if_false, Option.map_eq_some', Bool.false_eq_true]
      constructor
      · rintro ⟨k, hk, rfl⟩
        obtain ⟨⟨r', hr', hm⟩, hfirst⟩ := (ih k).1 hk
        refine ⟨⟨r', by simpa using hr', hm⟩, ?_⟩
        intro j r'' hj hget
        cases j with
        | zero => simp at hget; subst hget; simpa using h
        | succ j => exact hfirst j r'' (by omega) (by simpa using hget)
      · rintro ⟨⟨r', hr', hm⟩, hfirst⟩
        cases i with
        | zero => simp at hr'; subst hr'; exact absurd hm h
        | succ k =>
          refine ⟨k, (ih k).2 ⟨⟨r', by simpa using hr', hm⟩, ?_⟩, rfl⟩
          intro j r'' hj hget
          exact hfirst (j + 1) r'' (by omega) (by simpa using hget)

theorem canExecuteLoop_iff (names : List String) (pool : List Resource) :
    Executable.canExecuteLoop names pool = true ↔
      ∀ n ∈ names, ∃ r ∈ pool, r.getName = n ∧ r.isAvailableForUse = true := by
  induction names with
  | nil => simp [Executable.canExecuteLoop]
  | cons n rest ih =>
    by_cases h : noneOf (Resource.matchesAvailable n) pool = true
    · simp only [Executable.canExecuteLoop, h, if_true, Bool.false_eq_true, false_iff]
      intro hall
      obtain ⟨r, hr, hn, ha⟩ := hall n (by simp)
      simp only [noneOf, List.all_eq_true, Bool.not_eq_true'] at h
      have := h r hr
      simp [Resource.matchesAvailable, hn, ha] at this
    · simp only [Executable.canExecuteLoop, h, Bool.false_eq_true, if_false, ih, List.mem_cons,
        forall_eq_or_imp]
      simp only [noneOf, List.all_eq_true, Bool.not_eq_true', not_forall] at h
      obtain ⟨r, hr, hm⟩ := h
      have hm' : r.matchesAvailable n = true := by simpa using hm
      constructor
      · intro hrest
        exact ⟨⟨r, hr, (Resource.matchesAvailable_iff n r).1 hm'⟩, hrest⟩
      · exact fun h => h.2

theorem allocateAt_of_found (n : String) (pool : List Resource) (i : Nat)
    (h : findAvailable n pool = some i) :
    ∃ r, pool[i]? = some r ∧ r.getName = n ∧ r.isAvailableForUse = true ∧
      allocateAt i pool = ⟨pool.set i r.allocate.resource, [], none⟩ := by
  obtain ⟨⟨r, hr, hm⟩, _⟩ := (findAvailable_eq_some_iff n pool i).1 h
  obtain ⟨hn, ha⟩ := (Resource.matchesAvailable_iff n r).1 hm
  obtain ⟨he, hl⟩ := Resource.allocate_of_available r ha
  exact ⟨r, hr, hn, ha, by simp [allocateAt, hr, he, hl]⟩

theorem releaseAt_of_get (name : String) (pool : List Resource) (i : Nat) (r : Resource)
    (h : pool[i]? = some r) :
    releaseAt name i pool = ⟨pool.set i r.release.resource, r.release.log, none⟩ := by
  simp [releaseAt, h, Resource.release_error]

/-! ## Theorems on Executable -/

/-- C5. canExecute returns true exactly when every required name has, in the pool, at
least one entry with exactly that name whose isAvailableForUse is true; for an empty
required list it returns true whatever the pool; and the call leaves the pool and the
Executable (its assigned list included) as they were. -/
theorem canExecute_iff_every_name_available (self : Executable) (pool : List Resource) :
    ((self.canExecute pool).result = true ↔
      ∀ n ∈ self.requiredResourcesNames,
        ∃ r ∈ pool, r.getName = n ∧ r.isAvailableForUse = true) ∧
    (∀ (name description : String) (duration : Int) (assigned : List Nat),
      (Executable.canExecute ⟨name, description, [], duration, assigned⟩ pool).result = true) ∧
    (self.canExecute pool).pool = pool ∧
    (self.canExecute pool).self = self ∧
    (self.canExecute pool).self.assignedResources = self.assignedResources := by
  refine ⟨?_, ?_, ?_, ?_, ?_⟩
  · by_cases h : self.requiredResourcesNames.isEmpty = true
    · have h' : self.requiredResourcesNames = [] := by simpa using h
      simp [Executable.canExecute, h']
    · simp only [Executable.canExecute, h, if_false]
      exact canExecuteLoop_iff _ _
  · intro name description duration assigned
    simp [Executable.canExecute]
  all_goals
    by_cases h : self.requiredResourcesNames.isEmpty = true <;>
      simp [Executable.canExecute, h]

/-- C1 (amended). If an Executable requires [A, B], an available resource named A is
found (at pool position i) and assignResources fails for want of an available B, then
afterwards the assigned list is empty and the entry allocated for A has been allocated
once and released once; it is available again exactly when it is a UsableResource or a
ConsumableResource that had remaining capacity at least 2 before the call. -/
theorem assign_failure_on_second_name_rolls_back (self : Executable) (pool : List Resource)
    (A B : String) (i : Nat)
    (hreq : self.requiredResourcesNames = [A, B])
    (hA : findAvailable A pool = some i)
    (hfail : (self.assignResources pool).error = some (.resourceNotAvailable B self.name)) :
    (self.assignResources pool).self.assignedResources = [] ∧
    ∃ r r', pool[i]? = some r ∧ (self.assignResources pool).pool[i]? = some r' ∧
      r.isAvailableForUse = true ∧
      r' = r.allocate.resource.release.resource ∧
      (r'.isAvailableForUse = true ↔ (r.isUsable = true ∨ 2 ≤ r.getRemainingCapacity)) := by
  obtain ⟨r, hr, hn, ha, hal⟩ := allocateAt_of_found A pool i hA
  have hi : i < pool.length := by
    rcases Nat.lt_or_ge i pool.length with h | h
    · exact h
    · rw [List.getElem?_eq_none h] at hr; cases hr
  have hget : (pool.set i r.allocate.resource)[i]? = some r.allocate.resource := by
    simp [hi]
  have hav : (r.allocate.resource.release.resource.isAvailableForUse = true ↔
      (r.isUsable = true ∨ 2 ≤ r.getRemainingCapacity)) := by
    cases r with
    | ConsumableResource n f t rem =>
      simp only [Resource.isAvailableForUse, decide_eq_true_eq] at ha
      have h2 : ¬ rem ≤ 0 := by omega
      simp only [Resource.allocate, h2, if_false, Resource.release, Resource.isAvailableForUse,
        Resource.isUsable, Resource.getRemainingCapacity, decide_eq_true_eq]
      constructor
      · intro h; right; omega
      · rintro (h | h)
        · cases h
        · omega
    | UsableResource n f c =>
      simp only [Resource.isAvailableForUse] at ha
      simp [Resource.allocate, ha, Resource.release, Resource.isAvailableForUse,
        Resource.isUsable]
  cases hB : findAvailable B (pool.set i r.allocate.resource) with
  | some j =>
    obtain ⟨r2, _, _, _, hal2⟩ := allocateAt_of_found B _ j hB
    simp [Executable.assignResources, hreq, Executable.assignLoop, hA, hal, hB, hal2] at hfail
  | none =>
    have hpost : self.assignResources pool =
        ⟨{ self with assignedResources := [] },
          (pool.set i r.allocate.resource).set i r.allocate.resource.release.resource,
          r.allocate.resource.release.log,
          some (.resourceNotAvailable B self.name)⟩ := by
      simp [Executable.assignResources, hreq, Executable.assignLoop, hA, hal, hB,
        Executable.releaseResources, Executable.releaseLoop,
        releaseAt_of_get self.name _ i _ hget]
    refine ⟨by rw [hpost], r, r.allocate.resource.release.resource, hr, ?_, ha, rfl, hav⟩
    rw [hpost]
    simp [hi]

/-- Witness for C1 (amended): a free UsableResource "A" and no "B" in the pool. -/
theorem assign_failure_on_second_name_rolls_back_witness :
    (Executable.assignResources ⟨"E", "", ["A", "B"], 1, []⟩
      [.UsableResource "A" true 1]).self.assignedResources = [] ∧
    ∃ r r', [Resource.UsableResource "A" true 1][0]? = some r ∧
      (Executable.assignResources ⟨"E", "", ["A", "B"], 1, []⟩
        [.UsableResource "A" true 1]).pool[0]? = some r' ∧
      r.isAvailableForUse = true ∧
      r' = r.allocate.resource.release.resource ∧
      (r'.isAvailableForUse = true ↔ (r.isUsable = true ∨ 2 ≤ r.getRemainingCapacity)) :=
  assign_failure_on_second_name_rolls_back ⟨"E", "", ["A", "B"], 1, []⟩
    [.UsableResource "A" true 1] "A" "B" 0 rfl (by decide) (by decide)

/-- C1 as stated fails: with the single pool entry a ConsumableResource "A" of remaining
capacity 1 and required names ["A", "B"], assignResources fails for want of "B"; the
entry allocated for "A" was available before the call and is unavailable after it. -/
theorem assign_failure_leaves_last_unit_consumed :
    (Executable.assignResources ⟨"E", "", ["A", "B"], 1, []⟩
      [.ConsumableResource "A" true 1 1]).error = some (.resourceNotAvailable "B" "E") ∧
    findAvailable "A" [.ConsumableResource "A" true 1 1] = some 0 ∧
    ([Resource.ConsumableResource "A" true 1 1][0]?).map Resource.isAvailableForUse
      = some true ∧
    ((Executable.assignResources ⟨"E", "", ["A", "B"], 1, []⟩
      [.ConsumableResource "A" true 1 1]).pool[0]?).map Resource.isAvailableForUse
      = some false ∧
    (Executable.assignResources ⟨"E", "", ["A", "B"], 1, []⟩
      [.ConsumableResource "A" true 1 1]).self.assignedResources = [] := by
  decide

/-! ## The assignment loop -/

theorem isFirstAvailable_of_found (n : String) (pool : List Resource) (i : Nat)
    (h : findAvailable n pool = some i) : IsFirstAvailable n pool i := by
  obtain ⟨⟨r, hr, hm⟩, hfirst⟩ := (findAvailable_eq_some_iff n pool i).1 h
  refine ⟨⟨r, hr, (Resource.matchesAvailable_iff n r).1 hm⟩, ?_⟩
  intro k r' hk hget hboth
  have := hfirst k r' hk hget
  rw [(Resource.matchesAvailable_iff n r').2 hboth] at this
  cases this

theorem Executable.assignLoop_cons_found (n : String) (rest : List String) (self : Executable)
    (pool : List Resource) (i : Nat) (h : findAvailable n pool = some i) :
    Executable.assignLoop (n :: rest) self pool =
      Executable.assignLoop rest { self with assignedResources := self.assignedResources ++ [i] }
        (allocateAt i pool).pool := by
  obtain ⟨r, _, _, _, hal⟩ := allocateAt_of_found n pool i h
  simp [Executable.assignLoop, h, hal]

theorem Executable.assignLoop_cons_missing (n : String) (rest : List String)
    (self : Executable) (pool : List Resource) (h : findAvailable n pool = none) :
    Executable.assignLoop (n :: rest) self pool =
      ⟨{ self with assignedResources := [] },
        (Executable.releaseLoop self.name self.assignedResources pool).pool,
        (Executable.releaseLoop self.name self.assignedResources pool).log,
        some (.resourceNotAvailable n self.name)⟩ := by
  simp [Executable.assignLoop, h, Executable.releaseResources]

theorem servedInOrder_cons (n : String) (rest : List String) (i : Nat) (chosen : List Nat)
    (pool : List Resource) (h0 : IsFirstAvailable n pool i)
    (h : ServedInOrder rest chosen (allocateAt i pool).pool) :
    ServedInOrder (n :: rest) (i :: chosen) pool := by
  intro k m hk
  cases k with
  | zero =>
    simp only [List.getElem?_cons_zero, Option.some.injEq] at hk
    subst hk
    exact ⟨i, by simp, by simpa [allocateAll] using h0⟩
  | succ k =>
    simp only [List.getElem?_cons_succ] at hk
    obtain ⟨j, hj, hfirst⟩ := h k m hk
    exact ⟨j, by simpa using hj, by simpa [allocateAll] using hfirst⟩

/-- What the loop of assignResources has done when it ends without an exception. -/
theorem Executable.assignLoop_ok (names : List String) :
    ∀ (self : Executable) (pool : List Resource),
      (Executable.assignLoop names self pool).error = none →
        ∃ chosen, (Executable.assignLoop names self pool).self =
            { self with assignedResources := self.assignedResources ++ chosen } ∧
          chosen.length = names.length ∧
          (Executable.assignLoop names self pool).pool = allocateAll chosen pool ∧
          (Executable.assignLoop names self pool).log = [] ∧
          ServedInOrder names chosen pool := by
  induction names with
  | nil =>
    intro self pool _
    refine ⟨[], by simp [Executable.assignLoop], rfl, rfl, rfl, ?_⟩
    intro i n h
    simp at h
  | cons n rest ih =>
    intro self pool herr
    cases hf : findAvailable n pool with
    | none =>
      rw [Executable.assignLoop_cons_missing n rest self pool hf] at herr
      cases herr
    | some i =>
      rw [Executable.assignLoop_cons_found n rest self pool i hf] at herr ⊢
      have h0 := isFirstAvailable_of_found n pool i hf
      obtain ⟨chosen, hself, hlen, hpool, hlog, hserved⟩ := ih _ _ herr
      exact ⟨i :: chosen, by simp [hself], by simp [hlen], by simp [hpool, allocateAll],
        hlog, servedInOrder_cons n rest i chosen pool h0 hserved⟩

/-- What the loop of assignResources has done when it ends with an exception. -/
theorem Executable.assignLoop_error (names : List String) :
    ∀ (self : Executable) (pool : List Resource) (e : Error),
      (Executable.assignLoop names self pool).error = some e →
        ∃ (k : Nat) (n : String) (chosen : List Nat),
          names[k]? = some n ∧ chosen.length = k ∧
          ServedInOrder (names.take k) chosen pool ∧
          (∀ r ∈ allocateAll chosen pool, ¬ (r.getName = n ∧ r.isAvailableForUse = true)) ∧
          e = .resourceNotAvailable n self.name ∧
          (Executable.assignLoop names self pool).self = { self with assignedResources := [] } ∧
          (Executable.assignLoop names self pool).pool =
            (Executable.releaseLoop self.name (self.assignedResources ++ chosen)
              (allocateAll chosen pool)).pool ∧
          (Executable.assignLoop names self pool).log =
            (Executable.releaseLoop self.name (self.assignedResources ++ chosen)
              (allocateAll chosen pool)).log := by
  induction names with
  | nil =>
    intro self pool e herr
    simp [Executable.assignLoop] at herr
  | cons n rest ih =>
    intro self pool e herr
    cases hf : findAvailable n pool with
    | none =>
      rw [Executable.assignLoop_cons_missing n rest self pool hf] at herr ⊢
      simp only [Option.some.injEq] at herr
      refine ⟨0, n, [], by simp, rfl, by intro i m h; simp at h, ?_, herr.symm, rfl, by
        simp [allocateAll], by simp [allocateAll]⟩
      intro r hr hboth
      have := (findAvailable_eq_none_iff n pool).1 hf r (by simpa [allocateAll] using hr)
      rw [(Resource.matchesAvailable_iff n r).2 hboth] at this
      cases this
    | some i =>
      rw [Executable.assignLoop_cons_found n rest self pool i hf] at herr ⊢
      have h0 := isFirstAvailable_of_found n pool i hf
      obtain ⟨k, m, chosen, hk, hlen, hserved, hnone, he, hself, hpool, hlog⟩ := ih _ _ e herr
      refine ⟨k + 1, m, i :: chosen, by simpa using hk, by simp [hlen], ?_,
        by simpa [allocateAll] using hnone, he, by simp [hself], by
          simp [hpool, allocateAll], by simp [hlog, allocateAll]⟩
      simpa using servedInOrder_cons n (rest.take k) i chosen pool h0 hserved

theorem allocateAt_getElem? (i : Nat) (pool : List Resource) (j : Nat) :
    (allocateAt i pool).pool[j]? =
      (pool[j]?).map (fun r => if j = i then r.allocate.resource else r) := by
  unfold allocateAt
  cases hi : pool[i]? with
  | none =>
    by_cases hji : j = i
    · subst hji; simp [hi]
    · simp [hji]
  | some r =>
    by_cases hji : j = i
    · subst hji
      have hlt : j < pool.length := by
        rcases Nat.lt_or_ge j pool.length with h | h
        · exact h
        · rw [List.getElem?_eq_none h] at hi; cases hi
      simp [hi, hlt]
    · have hij : i ≠ j := fun h => hji h.symm
      simp [hji, List.getElem?_set_ne hij]

theorem allocateAll_getElem? (chosen : List Nat) :
    ∀ (pool : List Resource) (j : Nat),
      (allocateAll chosen pool)[j]? =
        (pool[j]?).map (Resource.allocateTimes (chosen.count j)) := by
  induction chosen with
  | nil =>
    intro pool j
    cases h : pool[j]? <;> simp [allocateAll, Resource.allocateTimes, h]
  | cons i rest ih =>
    intro pool j
    rw [allocateAll, ih, allocateAt_getElem?]
    cases h : pool[j]? with
    | none => simp
    | some r =>
      by_cases hji : j = i
      · subst hji
        simp [Resource.allocateTimes]
      · have hij : i ≠ j := fun h => hji h.symm
        simp [hji, List.count_cons_of_ne hij]

/-- C6. When assignResources succeeds, the assigned list is as long as the list of
required names; its i-th entry is the first pool entry, in pool order, that has the i-th
required name and is available in the pool as the allocations for the names before it
have left it; and every pool entry has had allocate applied once for each time it occurs
in the assigned list, and not otherwise.  When it fails, the exception names a required
name at some position k such that the names before it were all served in that way and
no available entry of that name was left for it. -/
theorem assignResources_serves_names_in_declared_order (self : Executable)
    (pool : List Resource) :
    ((self.assignResources pool).error = none →
      (self.assignResources pool).self.assignedResources.length =
        self.requiredResourcesNames.length ∧
      ServedInOrder self.requiredResourcesNames
        (self.assignResources pool).self.assignedResources pool ∧
      (self.assignResources pool).pool =
        allocateAll (self.assignResources pool).self.assignedResources pool ∧
      ∀ j, (self.assignResources pool).pool[j]? =
        (pool[j]?).map
          (Resource.allocateTimes ((self.assignResources pool).self.assignedResources.count j))) ∧
    (∀ e, (self.assignResources pool).error = some e →
      ∃ (k : Nat) (n : String) (chosen : List Nat),
        self.requiredResourcesNames[k]? = some n ∧ chosen.length = k ∧
        ServedInOrder (self.requiredResourcesNames.take k) chosen pool ∧
        (∀ r ∈ allocateAll chosen pool, ¬ (r.getName = n ∧ r.isAvailableForUse = true)) ∧
        e = .resourceNotAvailable n self.name) := by
  by_cases hempty : self.requiredResourcesNames.isEmpty = true
  · have hnil : self.requiredResourcesNames = [] := by simpa using hempty
    simp only [Executable.assignResources, hempty, if_true]
    refine ⟨fun _ => ⟨by simp [hnil], ?_, by simp [allocateAll], ?_⟩, ?_⟩
    · intro i n h
      simp [hnil] at h
    · intro j
      cases h : pool[j]? <;> simp [Resource.allocateTimes, h]
    · intro e he
      cases he
  · simp only [Executable.assignResources, hempty]
    refine ⟨?_, ?_⟩
    · intro herr
      obtain ⟨chosen, hself, hlen, hpool, _, hserved⟩ :=
        Executable.assignLoop_ok self.requiredResourcesNames _ pool herr
      simp only [Bool.false_eq_true, if_false] at hself hpool ⊢
      rw [hself, hpool]
      simp only [List.nil_append]
      exact ⟨hlen, hserved, trivial, allocateAll_getElem? chosen pool⟩
    · intro e herr
      obtain ⟨k, n, chosen, hk, hlen, hserved, hnone, he, _, _, _⟩ :=
        Executable.assignLoop_error self.requiredResourcesNames _ pool e herr
      exact ⟨k, n, chosen, hk, hlen, hserved, hnone, he⟩

/-! ## Lemmas on assignResources, releaseResources and execute -/

theorem Executable.assignResources_ok (self : Executable) (pool : List Resource)
    (h : (self.assignResources pool).error = none) :
    ∃ chosen, (self.assignResources pool).self = { self with assignedResources := chosen } ∧
      chosen.length = self.requiredResourcesNames.length ∧
      (self.assignResources pool).pool = allocateAll chosen pool ∧
      (self.assignResources pool).log = [] ∧
      ServedInOrder self.requiredResourcesNames chosen pool := by
  by_cases hempty : self.requiredResourcesNames.isEmpty = true
  · have hnil : self.requiredResourcesNames = [] := by simpa using hempty
    refine ⟨[], by simp [Executable.assignResources, hempty], by simp [hnil],
      by simp [Executable.assignResources, hempty, allocateAll],
      by simp [Executable.assignResources, hempty], ?_⟩
    intro i n hi
    simp [hnil] at hi
  · simp only [Executable.assignResources, hempty] at h ⊢
    obtain ⟨chosen, hself, hlen, hpool, hlog, hserved⟩ :=
      Executable.assignLoop_ok self.requiredResourcesNames _ pool h
    exact ⟨chosen, by simpa using hself, hlen, hpool, hlog, hserved⟩

theorem Executable.assignResources_error (self : Executable) (pool : List Resource) (e : Error)
    (h : (self.assignResources pool).error = some e) :
    ∃ (k : Nat) (n : String) (chosen : List Nat),
      self.requiredResourcesNames[k]? = some n ∧ chosen.length = k ∧
      ServedInOrder (self.requiredResourcesNames.take k) chosen pool ∧
      (∀ r ∈ allocateAll chosen pool, ¬ (r.getName = n ∧ r.isAvailableForUse = true)) ∧
      e = .resourceNotAvailable n self.name ∧
      (self.assignResources pool).self = { self with assignedResources := [] } ∧
      (self.assignResources pool).pool =
        (Executable.releaseLoop self.name chosen (allocateAll chosen pool)).pool ∧
      (self.assignResources pool).log =
        (Executable.releaseLoop self.name chosen (allocateAll chosen pool)).log := by
  by_cases hempty : self.requiredResourcesNames.isEmpty = true
  · simp [Executable.assignResources, hempty] at h
  · simp only [Executable.assignResources, hempty] at h ⊢
    obtain ⟨k, n, chosen, hk, hlen, hserved, hnone, he, hself, hpool, hlog⟩ :=
      Executable.assignLoop_error self.requiredResourcesNames _ pool e h
    exact ⟨k, n, chosen, hk, hlen, hserved, hnone, he, by simpa using hself, by
      simpa using hpool, by simpa using hlog⟩

theorem Executable.assignResources_self (self : Executable) (pool : List Resource) :
    (self.assignResources pool).self =
      { self with assignedResources := (self.assignResources pool).self.assignedResources } := by
  cases h : (self.assignResources pool).error with
  | none =>
    obtain ⟨chosen, hself, _⟩ := Executable.assignResources_ok self pool h
    rw [hself]
  | some e =>
    obtain ⟨_, _, _, _, _, _, _, _, hself, _, _⟩ :=
      Executable.assignResources_error self pool e h
    rw [hself]

theorem Executable.assignResources_name (self : Executable) (pool : List Resource) :
    (self.assignResources pool).self.name = self.name := by
  rw [Executable.assignResources_self]

theorem Executable.assignResources_required (self : Executable) (pool : List Resource) :
    (self.assignResources pool).self.requiredResourcesNames = self.requiredResourcesNames := by
  rw [Executable.assignResources_self]

theorem Executable.releaseLoop_log_not_topLevel (name : String) (assigned : List Nat) :
    ∀ (pool : List Resource), ∀ ev ∈ (Executable.releaseLoop name assigned pool).log,
      ev.isTopLevel = false := by
  induction assigned with
  | nil => intro pool ev h; simp [Executable.releaseLoop] at h
  | cons i rest ih =>
    intro pool ev h
    simp only [Executable.releaseLoop, List.mem_append] at h
    rcases h with h | h
    · unfold releaseAt at h
      cases hi : pool[i]? with
      | none => simp [hi] at h
      | some r =>
        simp only [hi, Resource.release_error, List.append_nil] at h
        cases r with
        | ConsumableResource n f t rem =>
          simp only [Resource.release] at h
          split at h
          · simp only [List.mem_singleton] at h; subst h; rfl
          · simp at h
        | UsableResource n f c =>
          simp only [Resource.release] at h
          split at h
          · simp only [List.mem_singleton] at h; subst h; rfl
          · simp at h
    · exact ih _ ev h

theorem useAll_not_topLevel (assigned : List Nat) (held : List Resource) :
    ∀ ev ∈ useAll assigned held, ev.isTopLevel = false := by
  intro ev h
  simp only [useAll, List.mem_filterMap, Option.map_eq_some'] at h
  obtain ⟨i, _, r, _, hr⟩ := h
  subst hr
  cases r <;> rfl

theorem Executable.assignResources_log_not_topLevel (self : Executable) (pool : List Resource) :
    ∀ ev ∈ (self.assignResources pool).log, ev.isTopLevel = false := by
  intro ev h
  cases herr : (self.assignResources pool).error with
  | none =>
    obtain ⟨_, _, _, _, hlog, _⟩ := Executable.assignResources_ok self pool herr
    rw [hlog] at h
    cases h
  | some e =>
    obtain ⟨_, _, chosen, _, _, _, _, _, _, _, hlog⟩ :=
      Executable.assignResources_error self pool e herr
    rw [hlog] at h
    exact Executable.releaseLoop_log_not_topLevel _ _ _ ev h

theorem Executable.canExecute_log_not_topLevel (self : Executable) (pool : List Resource) :
    ∀ ev ∈ (self.canExecute pool).log, ev.isTopLevel = false := by
  intro ev h
  by_cases hempty : self.requiredResourcesNames.isEmpty = true
  · simp only [Executable.canExecute, hempty, if_true, List.mem_singleton] at h
    subst h
    rfl
  · simp [Executable.canExecute, hempty] at h

theorem Executable.canExecute_pool (self : Executable) (pool : List Resource) :
    (self.canExecute pool).pool = pool := by
  by_cases h : self.requiredResourcesNames.isEmpty = true <;> simp [Executable.canExecute, h]

theorem Executable.canExecute_self (self : Executable) (pool : List Resource) :
    (self.canExecute pool).self = self := by
  by_cases h : self.requiredResourcesNames.isEmpty = true <;> simp [Executable.canExecute, h]

theorem Exec.setBase_base (e : Exec) : e.setBase e.base = e := by
  cases e <;> rfl

theorem Exec.base_setBase (e : Exec) (b : Executable) : (e.setBase b).base = b := by
  cases e <;> rfl

theorem Process.visit_log_not_topLevel
    (execute : Executable → List Resource → ExecuteOutcome)
    (hexec : ∀ self held, ∀ ev ∈ (execute self held).log, ev.isTopLevel = false)
    (task : Exec) (pool : List Resource) :
    ∀ ev ∈ (Process.visit execute task pool).log, ev.isTopLevel = false := by
  intro ev h
  unfold Process.visit at h
  simp only [Executable.canExecute_pool, Executable.canExecute_self] at h
  split at h
  · split at h
    · simp only [List.mem_append, List.mem_singleton] at h
      rcases h with (h | h) | h
      · exact Executable.canExecute_log_not_topLevel _ _ ev h
      · exact Executable.assignResources_log_not_topLevel _ _ ev h
      · subst h; rfl
    · split at h
      · simp only [List.mem_append, List.mem_singleton] at h
        rcases h with (((h | h) | h) | h) | h
        · exact Executable.canExecute_log_not_topLevel _ _ ev h
        · exact Executable.assignResources_log_not_topLevel _ _ ev h
        · subst h; rfl
        · exact hexec _ _ ev h
        · subst h; rfl
      · simp only [List.mem_append, List.mem_singleton] at h
        rcases h with (((h | h) | h) | h) | h
        · exact Executable.canExecute_log_not_topLevel _ _ ev h
        · exact Executable.assignResources_log_not_topLevel _ _ ev h
        · subst h; rfl
        · exact hexec _ _ ev h
        · exact Executable.releaseLoop_log_not_topLevel _ _ _ ev h
  · simp only [List.mem_append, List.mem_singleton] at h
    rcases h with h | h
    · exact Executable.canExecute_log_not_topLevel _ _ ev h
    · subst h; rfl

mutual
theorem Exec.execute_log_not_topLevel :
    ∀ (e : Exec) (self : Executable) (held : List Resource),
      ∀ ev ∈ (Exec.execute e self held).log, ev.isTopLevel = false
  | .Task _, self, held => by
    intro ev h
    simp only [Exec.execute, Task.execute] at h
    split at h
    · simp at h
    · simp only [List.mem_cons] at h
      rcases h with h | h
      · subst h; rfl
      · exact useAll_not_topLevel _ _ ev h
  | .Process _ resourcePool tasks, self, held => by
    intro ev h
    by_cases hpre : self.requiredResourcesNames.isEmpty = false ∧
        self.assignedResources.length ≠ self.requiredResourcesNames.length
    · simp [Exec.execute, hpre] at h
    · simp only [Exec.execute, hpre, if_false, List.mem_cons, List.mem_append] at h
      rcases h with (h | h) | h
      · subst h; rfl
      · by_cases hne : self.assignedResources.isEmpty = false
        · rw [if_pos hne] at h
          exact useAll_not_topLevel _ _ ev h
        · rw [if_neg hne] at h
          cases h
      · exact Process.executeTasks_log_not_topLevel tasks resourcePool ev h
theorem Process.executeTasks_log_not_topLevel :
    ∀ (tasks : List Exec) (pool : List Resource),
      ∀ ev ∈ (Process.executeTasks tasks pool).log, ev.isTopLevel = false
  | [], pool => by
    intro ev h
    simp [Process.executeTasks] at h
  | task :: rest, pool => by
    intro ev h
    simp only [Process.executeTasks, List.mem_append] at h
    rcases h with h | h
    · exact Process.visit_log_not_topLevel (Exec.execute task)
        (Exec.execute_log_not_topLevel task) task pool ev h
    · exact Process.executeTasks_log_not_topLevel rest _ ev h
end

/-! ## Process::run -/

theorem filter_isTopLevel_eq_nil (l : List Event) (h : ∀ ev ∈ l, ev.isTopLevel = false) :
    l.filter Event.isTopLevel = [] := by
  rw [List.filter_eq_nil_iff]
  intro ev hev
  simp [h ev hev]

/-- The outcome of run when the orchestrator cannot start: canExecute is false. -/
theorem Process.run_rejected (self : Executable) (pool : List Resource) (tasks : List Exec)
    (hne : self.requiredResourcesNames.isEmpty = false)
    (hc : (self.canExecute pool).result = false) :
    Process.run self pool tasks =
      ⟨.Process self pool tasks,
        [.errorInProcess self.name (.insufficientResources self.name)], none⟩ := by
  have hlog : (self.canExecute pool).log = [] := by simp [Executable.canExecute, hne]
  simp [Process.run, hne, hc, Executable.canExecute_pool, Executable.canExecute_self, hlog]

/-- The outcome of run when the orchestrator's own assignResources fails. -/
theorem Process.run_assign_failed (self : Executable) (pool : List Resource)
    (tasks : List Exec) (e : Error)
    (hne : self.requiredResourcesNames.isEmpty = false)
    (hc : (self.canExecute pool).result = true)
    (ha : (self.assignResources pool).error = some e) :
    Process.run self pool tasks =
      ⟨.Process (self.assignResources pool).self (self.assignResources pool).pool tasks,
        (self.assignResources pool).log ++ [.errorInProcess self.name e], none⟩ := by
  have hlog : (self.canExecute pool).log = [] := by simp [Executable.canExecute, hne]
  simp [Process.run, hne, hc, Executable.canExecute_pool, Executable.canExecute_self, hlog, ha,
    Executable.assignResources_name]

/-- The outcome of run when Process::execute is reached with its own check passing:
`base` is the base-class state of the orchestrator at that time and `pool0` the pool. -/
theorem Process.run_started (self : Executable) (pool : List Resource) (tasks : List Exec)
    (h : self.requiredResourcesNames.isEmpty = true ∨
      (self.requiredResourcesNames.isEmpty = false ∧ (self.canExecute pool).result = true ∧
        (self.assignResources pool).error = none)) :
    ∃ (base : Executable) (pool0 : List Resource),
      base.name = self.name ∧
      (self.requiredResourcesNames.isEmpty = true → base = self ∧ pool0 = pool) ∧
      (self.requiredResourcesNames.isEmpty = false →
        base = (self.assignResources pool).self ∧ pool0 = (self.assignResources pool).pool) ∧
      Process.run self pool tasks =
        ⟨.Process { base with assignedResources := [] }
            (Executable.releaseLoop base.name base.assignedResources
              (Process.executeTasks tasks pool0).pool).pool
            (Process.executeTasks tasks pool0).tasks,
          Event.executingProcess base.name base.description base.durationInUnits ::
            (if base.assignedResources.isEmpty = false then
              useAll base.assignedResources pool0 else []) ++
            (Process.executeTasks tasks pool0).log ++
            (Executable.releaseLoop base.name base.assignedResources
              (Process.executeTasks tasks pool0).pool).log ++
            [.processCompleted base.name],
          none⟩ := by
  rcases h with h | ⟨hne, hc, ha⟩
  · have hno : self.requiredResourcesNames.isEmpty = false →
        self = (self.assignResources pool).self ∧ pool = (self.assignResources pool).pool := by
      intro h'
      rw [h] at h'
      cases h'
    refine ⟨self, pool, rfl, fun _ => ⟨rfl, rfl⟩, hno, ?_⟩
    simp [Process.run, h, Exec.execute, Exec.base, Exec.resourcePool, Exec.tasks,
      Executable.releaseResources]
  · have hno : self.requiredResourcesNames.isEmpty = true →
        (self.assignResources pool).self = self ∧ (self.assignResources pool).pool = pool := by
      intro h'
      rw [hne] at h'
      cases h'
    refine ⟨(self.assignResources pool).self, (self.assignResources pool).pool,
      Executable.assignResources_name self pool, hno, fun _ => ⟨rfl, rfl⟩, ?_⟩
    obtain ⟨chosen, hself, hlen, _, hlog, _⟩ := Executable.assignResources_ok self pool ha
    have hlog0 : (self.canExecute pool).log = [] := by simp [Executable.canExecute, hne]
    have hreq := Executable.assignResources_required self pool
    have hlen' : (self.assignResources pool).self.assignedResources.length =
        self.requiredResourcesNames.length := by rw [hself]; exact hlen
    simp [Process.run, hne, hc, ha, Executable.canExecute_pool, Executable.canExecute_self,
      hlog0, hlog, Exec.execute, hreq, hlen', Exec.base, Exec.resourcePool, Exec.tasks,
      Executable.releaseResources]

theorem Process.run_topLevel_started (self : Executable) (pool : List Resource)
    (tasks : List Exec)
    (h : self.requiredResourcesNames.isEmpty = true ∨
      (self.requiredResourcesNames.isEmpty = false ∧ (self.canExecute pool).result = true ∧
        (self.assignResources pool).error = none)) :
    (Process.run self pool tasks).error = none ∧
    (Process.run self pool tasks).log.filter Event.isTopLevel =
      [.processCompleted self.name] := by
  obtain ⟨base, pool0, hname, _, _, hrun⟩ := Process.run_started self pool tasks h
  rw [hrun]
  refine ⟨rfl, ?_⟩
  have h1 : (if base.assignedResources.isEmpty = false then
      useAll base.assignedResources pool0 else []).filter Event.isTopLevel = [] := by
    apply filter_isTopLevel_eq_nil
    intro ev hev
    by_cases hne : base.assignedResources.isEmpty = false
    · rw [if_pos hne] at hev
      exact useAll_not_topLevel _ _ ev hev
    · rw [if_neg hne] at hev
      cases hev
  have h2 := filter_isTopLevel_eq_nil _
    (Process.executeTasks_log_not_topLevel tasks pool0)
  have h3 := filter_isTopLevel_eq_nil _
    (Executable.releaseLoop_log_not_topLevel base.name base.assignedResources
      (Process.executeTasks tasks pool0).pool)
  simp only [List.filter_append, List.filter_cons, h1, h2, h3]
  simp [Event.isTopLevel, Event.isCompletion, Event.isTopLevelFailure, hname]

theorem Process.run_topLevel_not_started (self : Executable) (pool : List Resource)
    (tasks : List Exec)
    (h : ¬ (self.requiredResourcesNames.isEmpty = true ∨
      (self.requiredResourcesNames.isEmpty = false ∧ (self.canExecute pool).result = true ∧
        (self.assignResources pool).error = none))) :
    (Process.run self pool tasks).error = none ∧
    ∃ e, (Process.run self pool tasks).log.filter Event.isTopLevel =
      [.errorInProcess self.name e] := by
  have hne : self.requiredResourcesNames.isEmpty = false := by
    cases hb : self.requiredResourcesNames.isEmpty with
    | true => exact absurd (Or.inl hb) h
    | false => rfl
  cases hc : (self.canExecute pool).result with
  | false =>
    rw [Process.run_rejected self pool tasks hne hc]
    exact ⟨rfl, .insufficientResources self.name, by
      simp [Event.isTopLevel, Event.isCompletion, Event.isTopLevelFailure]⟩
  | true =>
    cases ha : (self.assignResources pool).error with
    | none => exact absurd (Or.inr ⟨hne, hc, ha⟩) h
    | some e =>
      rw [Process.run_assign_failed self pool tasks e hne hc ha]
      refine ⟨rfl, e, ?_⟩
      have h1 := filter_isTopLevel_eq_nil _
        (Executable.assignResources_log_not_topLevel self pool)
      simp only [List.filter_append, h1]
      simp [Event.isTopLevel, Event.isCompletion, Event.isTopLevelFailure]

/-- C10. Process::run never lets an exception out, whatever the orchestrator, its pool
and its sub-units.  Of the two lines that only run itself writes, it writes exactly one:
the completion notice, when the required list is empty or canExecute on the own pool is
true and the following assignResources succeeds; a single failure notice otherwise. -/
theorem run_reports_completion_or_single_failure (self : Executable) (pool : List Resource)
    (tasks : List Exec) :
    (Process.run self pool tasks).error = none ∧
    (Event.processCompleted self.name ∈ (Process.run self pool tasks).log ↔
      (self.requiredResourcesNames = [] ∨
        ((self.canExecute pool).result = true ∧ (self.assignResources pool).error = none))) ∧
    ((self.requiredResourcesNames = [] ∨
        ((self.canExecute pool).result = true ∧ (self.assignResources pool).error = none)) →
      (Process.run self pool tasks).log.filter Event.isTopLevel =
        [.processCompleted self.name]) ∧
    (¬ (self.requiredResourcesNames = [] ∨
        ((self.canExecute pool).result = true ∧ (self.assignResources pool).error = none)) →
      ∃ e, (Process.run self pool tasks).log.filter Event.isTopLevel =
        [.errorInProcess self.name e]) := by
  have hcond : (self.requiredResourcesNames = [] ∨
        ((self.canExecute pool).result = true ∧ (self.assignResources pool).error = none)) ↔
      (self.requiredResourcesNames.isEmpty = true ∨
        (self.requiredResourcesNames.isEmpty = false ∧ (self.canExecute pool).result = true ∧
          (self.assignResources pool).error = none)) := by
    cases hreq : self.requiredResourcesNames with
    | nil => simp
    | cons n rest => simp
  have hyes := Process.run_topLevel_started self pool tasks
  have hno := Process.run_topLevel_not_started self pool tasks
  rw [hcond]
  refine ⟨?_, ?_, fun h => (hyes h).2, fun h => (hno h).2⟩
  · by_cases h : (self.requiredResourcesNames.isEmpty = true ∨
        (self.requiredResourcesNames.isEmpty = false ∧ (self.canExecute pool).result = true ∧
          (self.assignResources pool).error = none))
    · exact (hyes h).1
    · exact (hno h).1
  · constructor
    · intro hmem
      by_contra h
      obtain ⟨e, he⟩ := (hno h).2
      have : Event.processCompleted self.name ∈
          (Process.run self pool tasks).log.filter Event.isTopLevel :=
        List.mem_filter.2 ⟨hmem, rfl⟩
      rw [he] at this
      simp at this
    · intro h
      have : Event.processCompleted self.name ∈
          (Process.run self pool tasks).log.filter Event.isTopLevel := by
        rw [(hyes h).2]
        simp
      exact (List.mem_filter.1 this).1

/-! ## The loop of Process::execute -/

theorem Exec.execute_of_assigned (e : Exec) (self : Executable) (held : List Resource)
    (h : self.assignedResources.length = self.requiredResourcesNames.length) :
    (Exec.execute e self held).error = none ∧
    (Exec.execute e self held).log.head? = some (e.startNotice self) ∧
    (Exec.execute e self held).held = held ∧
    (Exec.execute e self held).self.base = self := by
  cases e with
  | Task b => simp [Exec.execute, Task.execute, h, Exec.startNotice, Exec.base]
  | Process b rp ts => simp [Exec.execute, h, Exec.startNotice, Exec.base]

theorem Process.visit_skipped (execute : Executable → List Resource → ExecuteOutcome)
    (task : Exec) (pool : List Resource)
    (h : (task.base.canExecute pool).result = false) :
    Process.visit execute task pool = ⟨task, pool, [.taskSkipped task.base.name]⟩ := by
  have hne : task.base.requiredResourcesNames.isEmpty = false := by
    cases hb : task.base.requiredResourcesNames.isEmpty with
    | true => simp [Executable.canExecute, hb] at h
    | false => rfl
  have hlog : (task.base.canExecute pool).log = [] := by simp [Executable.canExecute, hne]
  simp [Process.visit, h, Executable.canExecute_pool, Executable.canExecute_self, hlog,
    Exec.setBase_base]

theorem Process.visit_assign_failed (execute : Executable → List Resource → ExecuteOutcome)
    (task : Exec) (pool : List Resource) (e : Error)
    (hc : (task.base.canExecute pool).result = true)
    (ha : (task.base.assignResources pool).error = some e) :
    Process.visit execute task pool =
      ⟨task.setBase (task.base.assignResources pool).self,
        (task.base.assignResources pool).pool,
        (task.base.canExecute pool).log ++ (task.base.assignResources pool).log ++
          [.errorInTask task.base.name e]⟩ := by
  simp [Process.visit, hc, ha, Executable.canExecute_pool, Executable.canExecute_self,
    Executable.assignResources_name]

theorem Process.visit_executed (task : Exec) (pool : List Resource)
    (hc : (task.base.canExecute pool).result = true)
    (ha : (task.base.assignResources pool).error = none) :
    (Exec.execute task (task.base.assignResources pool).self
      (task.base.assignResources pool).pool).error = none ∧
    (Exec.execute task (task.base.assignResources pool).self
      (task.base.assignResources pool).pool).log.head? =
        some (task.startNotice (task.base.assignResources pool).self) ∧
    Process.visit (Exec.execute task) task pool =
      ⟨(Exec.execute task (task.base.assignResources pool).self
          (task.base.assignResources pool).pool).self.setBase
          { (task.base.assignResources pool).self with assignedResources := [] },
        (Executable.releaseLoop task.base.name
          (task.base.assignResources pool).self.assignedResources
          (task.base.assignResources pool).pool).pool,
        (task.base.canExecute pool).log ++ [.indent] ++
          (Exec.execute task (task.base.assignResources pool).self
            (task.base.assignResources pool).pool).log ++
          (Executable.releaseLoop task.base.name
            (task.base.assignResources pool).self.assignedResources
            (task.base.assignResources pool).pool).log⟩ := by
  obtain ⟨chosen, hself, hlen, _, hlog, _⟩ := Executable.assignResources_ok task.base pool ha
  have hlen' : (task.base.assignResources pool).self.assignedResources.length =
      (task.base.assignResources pool).self.requiredResourcesNames.length := by
    rw [hself]; exact hlen
  obtain ⟨hx, hhead, hheld, hbase⟩ := Exec.execute_of_assigned task
    (task.base.assignResources pool).self (task.base.assignResources pool).pool hlen'
  refine ⟨hx, hhead, ?_⟩
  simp [Process.visit, hc, ha, hx, hheld, hbase, hlog, Executable.canExecute_pool,
    Executable.canExecute_self, Executable.releaseResources, Executable.assignResources_name]

theorem Process.executeTasks_append (ts1 : List Exec) :
    ∀ (ts2 : List Exec) (pool : List Resource),
      Process.executeTasks (ts1 ++ ts2) pool =
        ⟨(Process.executeTasks ts1 pool).tasks ++
            (Process.executeTasks ts2 (Process.executeTasks ts1 pool).pool).tasks,
          (Process.executeTasks ts2 (Process.executeTasks ts1 pool).pool).pool,
          (Process.executeTasks ts1 pool).log ++
            (Process.executeTasks ts2 (Process.executeTasks ts1 pool).pool).log⟩ := by
  induction ts1 with
  | nil => intro ts2 pool; simp [Process.executeTasks]
  | cons t rest ih =>
    intro ts2 pool
    rw [List.cons_append]
    simp only [Process.executeTasks]
    rw [ih]
    simp

theorem Process.executeTasks_length (ts : List Exec) :
    ∀ pool : List Resource, (Process.executeTasks ts pool).tasks.length = ts.length := by
  induction ts with
  | nil => intro pool; simp [Process.executeTasks]
  | cons t rest ih => intro pool; simp [Process.executeTasks, ih]

theorem Executable.canExecute_false_of_missing (self : Executable) (pool : List Resource)
    (n : String) (hn : n ∈ self.requiredResourcesNames)
    (hmiss : ∀ r ∈ pool, r.getName ≠ n) : (self.canExecute pool).result = false := by
  cases hc : (self.canExecute pool).result with
  | false => rfl
  | true =>
    have hne : self.requiredResourcesNames.isEmpty = false := by
      cases hreq : self.requiredResourcesNames with
      | nil => rw [hreq] at hn; cases hn
      | cons a l => rfl
    simp only [Executable.canExecute, hne, Bool.false_eq_true, if_false] at hc
    obtain ⟨r, hr, hname, _⟩ := (canExecuteLoop_iff _ _).1 hc n hn
    exact absurd hname (hmiss r hr)

/-! ## Orchestrator resilience -/

/-- C8 (amended). Once Process::execute has passed its own assignment-count check it does
not throw, and its loop is the sequence of the visits of the sub-units in declared order,
each visited once in the pool the visits before it have left, whatever happened in them;
a sub-unit whose canExecute is false at its turn (for instance because it requires a name
no pool entry has) is skipped and leaves pool and sub-unit as they were.  For three
sub-units of which, at their turn, the 1st and the 3rd pass canExecute and then obtain
their resources from assignResources, and the 2nd fails canExecute: the virtual execute
of the 1st and of the 3rd runs and returns normally, the 2nd is reported as skipped, and
run ends with its completion notice.  Here `p0` is the pool as the loop finds it. -/
theorem orchestrator_runs_first_and_third_when_second_is_skipped
    (self : Executable) (pool p0 : List Resource) (t1 t2 t3 : Exec)
    (hstart : self.requiredResourcesNames.isEmpty = true ∨
      (self.requiredResourcesNames.isEmpty = false ∧ (self.canExecute pool).result = true ∧
        (self.assignResources pool).error = none))
    (hp0 : p0 = if self.requiredResourcesNames.isEmpty = true then pool
      else (self.assignResources pool).pool)
    (h1 : (t1.base.canExecute p0).result = true)
    (h1a : (t1.base.assignResources p0).error = none)
    (h2 : (t2.base.canExecute (Process.visit (Exec.execute t1) t1 p0).pool).result = false)
    (h3 : (t3.base.canExecute (Process.visit (Exec.execute t1) t1 p0).pool).result = true)
    (h3a : (t3.base.assignResources (Process.visit (Exec.execute t1) t1 p0).pool).error
      = none) :
    -- Process::execute does not throw once its own check has passed
    (∀ (b s : Executable) (rp held : List Resource) (tasks : List Exec),
      ¬ (s.requiredResourcesNames.isEmpty = false ∧
          s.assignedResources.length ≠ s.requiredResourcesNames.length) →
        (Exec.execute (.Process b rp tasks) s held).error = none) ∧
    -- the loop visits the sub-units one after the other, in declared order
    (∀ (t : Exec) (rest : List Exec) (p : List Resource),
      Process.executeTasks (t :: rest) p =
        ⟨(Process.visit (Exec.execute t) t p).task ::
            (Process.executeTasks rest (Process.visit (Exec.execute t) t p).pool).tasks,
          (Process.executeTasks rest (Process.visit (Exec.execute t) t p).pool).pool,
          (Process.visit (Exec.execute t) t p).log ++
            (Process.executeTasks rest (Process.visit (Exec.execute t) t p).pool).log⟩) ∧
    (∀ (ts1 ts2 : List Exec) (p : List Resource),
      Process.executeTasks (ts1 ++ ts2) p =
        ⟨(Process.executeTasks ts1 p).tasks ++
            (Process.executeTasks ts2 (Process.executeTasks ts1 p).pool).tasks,
          (Process.executeTasks ts2 (Process.executeTasks ts1 p).pool).pool,
          (Process.executeTasks ts1 p).log ++
            (Process.executeTasks ts2 (Process.executeTasks ts1 p).pool).log⟩) ∧
    (∀ (ts : List Exec) (p : List Resource),
      (Process.executeTasks ts p).tasks.length = ts.length) ∧
    -- a sub-unit that fails canExecute is skipped and nothing changes
    (∀ (t : Exec) (p : List Resource), (t.base.canExecute p).result = false →
      Process.visit (Exec.execute t) t p = ⟨t, p, [.taskSkipped t.base.name]⟩) ∧
    (∀ (t : Exec) (p : List Resource) (n : String), n ∈ t.base.requiredResourcesNames →
      (∀ r ∈ p, r.getName ≠ n) →
      Process.visit (Exec.execute t) t p = ⟨t, p, [.taskSkipped t.base.name]⟩) ∧
    -- the three sub-units
    Process.executeTasks [t1, t2, t3] p0 =
      ⟨[(Process.visit (Exec.execute t1) t1 p0).task, t2,
          (Process.visit (Exec.execute t3) t3 (Process.visit (Exec.execute t1) t1 p0).pool).task],
        (Process.visit (Exec.execute t3) t3 (Process.visit (Exec.execute t1) t1 p0).pool).pool,
        (Process.visit (Exec.execute t1) t1 p0).log ++ [.taskSkipped t2.base.name] ++
          (Process.visit (Exec.execute t3) t3
            (Process.visit (Exec.execute t1) t1 p0).pool).log⟩ ∧
    (Exec.execute t1 (t1.base.assignResources p0).self
      (t1.base.assignResources p0).pool).error = none ∧
    (Process.visit (Exec.execute t1) t1 p0).log =
      (t1.base.canExecute p0).log ++ [.indent] ++
        (Exec.execute t1 (t1.base.assignResources p0).self
          (t1.base.assignResources p0).pool).log ++
        (Executable.releaseLoop t1.base.name (t1.base.assignResources p0).self.assignedResources
          (t1.base.assignResources p0).pool).log ∧
    (Exec.execute t1 (t1.base.assignResources p0).self
      (t1.base.assignResources p0).pool).log.head? =
        some (t1.startNotice (t1.base.assignResources p0).self) ∧
    (Exec.execute t3
      (t3.base.assignResources (Process.visit (Exec.execute t1) t1 p0).pool).self
      (t3.base.assignResources (Process.visit (Exec.execute t1) t1 p0).pool).pool).error
        = none ∧
    (Process.visit (Exec.execute t3) t3 (Process.visit (Exec.execute t1) t1 p0).pool).log =
      (t3.base.canExecute (Process.visit (Exec.execute t1) t1 p0).pool).log ++ [.indent] ++
        (Exec.execute t3
          (t3.base.assignResources (Process.visit (Exec.execute t1) t1 p0).pool).self
          (t3.base.assignResources (Process.visit (Exec.execute t1) t1 p0).pool).pool).log ++
        (Executable.releaseLoop t3.base.name
          (t3.base.assignResources
            (Process.visit (Exec.execute t1) t1 p0).pool).self.assignedResources
          (t3.base.assignResources (Process.visit (Exec.execute t1) t1 p0).pool).pool).log ∧
    (Exec.execute t3
      (t3.base.assignResources (Process.visit (Exec.execute t1) t1 p0).pool).self
      (t3.base.assignResources (Process.visit (Exec.execute t1) t1 p0).pool).pool).log.head? =
        some (t3.startNotice
          (t3.base.assignResources (Process.visit (Exec.execute t1) t1 p0).pool).self) ∧
    -- the run as a whole
    (Process.run self pool [t1, t2, t3]).error = none ∧
    (Process.executeTasks [t1, t2, t3] p0).log <:+: (Process.run self pool [t1, t2, t3]).log ∧
    (Process.run self pool [t1, t2, t3]).log.getLast? = some (.processCompleted self.name) ∧
    (Process.run self pool [t1, t2, t3]).log.filter Event.isTopLevel =
      [.processCompleted self.name] := by
  have hskip : ∀ (t : Exec) (p : List Resource), (t.base.canExecute p).result = false →
      Process.visit (Exec.execute t) t p = ⟨t, p, [.taskSkipped t.base.name]⟩ :=
    fun t p h => Process.visit_skipped _ t p h
  obtain ⟨hx1, hhead1, hv1⟩ := Process.visit_executed t1 p0 h1 h1a
  obtain ⟨hx3, hhead3, hv3⟩ := Process.visit_executed t3 _ h3 h3a
  have hloop : Process.executeTasks [t1, t2, t3] p0 =
      ⟨[(Process.visit (Exec.execute t1) t1 p0).task, t2,
          (Process.visit (Exec.execute t3) t3 (Process.visit (Exec.execute t1) t1 p0).pool).task],
        (Process.visit (Exec.execute t3) t3 (Process.visit (Exec.execute t1) t1 p0).pool).pool,
        (Process.visit (Exec.execute t1) t1 p0).log ++ [.taskSkipped t2.base.name] ++
          (Process.visit (Exec.execute t3) t3
            (Process.visit (Exec.execute t1) t1 p0).pool).log⟩ := by
    simp only [Process.executeTasks, hskip t2 _ h2]
    simp
  refine ⟨?_, ?_, Process.executeTasks_append, Process.executeTasks_length, hskip, ?_, hloop,
    hx1, ?_, hhead1, hx3, ?_, hhead3, ?_⟩
  · intro b s rp held tasks hpre
    simp only [Exec.execute, if_neg hpre]
  · intro t rest p
    simp [Process.executeTasks]
  · intro t p n hn hmiss
    exact hskip t p (Executable.canExecute_false_of_missing t.base p n hn hmiss)
  · rw [hv1]
  · rw [hv3]
  · obtain ⟨base, pool0, hname, hA, hB, hrun⟩ := Process.run_started self pool [t1, t2, t3] hstart
    have hpool0 : pool0 = p0 := by
      rw [hp0]
      by_cases he : self.requiredResourcesNames.isEmpty = true
      · rw [if_pos he]; exact (hA he).2
      · rw [if_neg he]
        exact (hB (by simpa using he)).2
    subst hpool0
    refine ⟨(Process.run_topLevel_started self pool _ hstart).1, ?_, ?_,
      (Process.run_topLevel_started self pool _ hstart).2⟩
    · rw [hrun]
      exact ⟨Event.executingProcess base.name base.description base.durationInUnits ::
          (if base.assignedResources.isEmpty = false then
            useAll base.assignedResources pool0 else []),
        (Executable.releaseLoop base.name base.assignedResources
          (Process.executeTasks [t1, t2, t3] pool0).pool).log ++
          [.processCompleted base.name], by simp⟩
    · rw [hrun, hname]
      exact List.getLast?_concat _

/-- Witness for C8 (amended): one free UsableResource "CPU"; the 1st and 3rd Task require
"CPU", the 2nd requires "GPU", which no pool entry has. -/
theorem orchestrator_runs_first_and_third_when_second_is_skipped_witness :
    ((Exec.Task ⟨"t1", "", ["CPU"], 1, []⟩).base.canExecute
      [.UsableResource "CPU" true 3]).result = true ∧
    ((Exec.Task ⟨"t2", "", ["GPU"], 1, []⟩).base.canExecute
      (Process.visit (Exec.execute (.Task ⟨"t1", "", ["CPU"], 1, []⟩))
        (.Task ⟨"t1", "", ["CPU"], 1, []⟩) [.UsableResource "CPU" true 3]).pool).result
      = false ∧
    (Process.run ⟨"P", "", [], 1, []⟩ [.UsableResource "CPU" true 3]
      [.Task ⟨"t1", "", ["CPU"], 1, []⟩, .Task ⟨"t2", "", ["GPU"], 1, []⟩,
        .Task ⟨"t3", "", ["CPU"], 1, []⟩]).log =
      [.executingProcess "P" "" 1,
        .indent, .executingTask "t1" "" 1, .usingUsable "CPU" 3,
        .taskSkipped "t2",
        .indent, .executingTask "t3" "" 1, .usingUsable "CPU" 3,
        .processCompleted "P"] ∧
    (Process.run ⟨"P", "", [], 1, []⟩ [.UsableResource "CPU" true 3]
      [.Task ⟨"t1", "", ["CPU"], 1, []⟩, .Task ⟨"t2", "", ["GPU"], 1, []⟩,
        .Task ⟨"t3", "", ["CPU"], 1, []⟩]).log.getLast? = some (.processCompleted "P") ∧
    (Process.run ⟨"P", "", [], 1, []⟩ [.UsableResource "CPU" true 3]
      [.Task ⟨"t1", "", ["CPU"], 1, []⟩, .Task ⟨"t2", "", ["GPU"], 1, []⟩,
        .Task ⟨"t3", "", ["CPU"], 1, []⟩]).log.filter Event.isTopLevel =
      [.processCompleted "P"] := by
  obtain ⟨_, _, _, _, _, _, _, _, _, _, _, _, _, _, _, hlast, hfilter⟩ :=
    orchestrator_runs_first_and_third_when_second_is_skipped ⟨"P", "", [], 1, []⟩
      [.UsableResource "CPU" true 3] [.UsableResource "CPU" true 3]
      (.Task ⟨"t1", "", ["CPU"], 1, []⟩) (.Task ⟨"t2", "", ["GPU"], 1, []⟩)
      (.Task ⟨"t3", "", ["CPU"], 1, []⟩)
      (Or.inl rfl) rfl (by decide) (by decide) (by decide) (by decide) (by decide)
  exact ⟨by decide, by decide, by decide, hlast, hfilter⟩

/-- C8 as stated fails: the pool is one free UsableResource "CPU"; the 1st Task requires
["CPU", "CPU"], the 2nd requires "GPU", the 3rd requires "CPU".  At their turn the 1st and
the 3rd pass canExecute and the 2nd fails it, yet the 1st is not executed: its
assignResources fails on the second "CPU", and the loop reports the error. -/
theorem first_passes_canExecute_but_is_not_executed :
    ((Exec.Task ⟨"t1", "", ["CPU", "CPU"], 1, []⟩).base.canExecute
      [.UsableResource "CPU" true 3]).result = true ∧
    ((Exec.Task ⟨"t2", "", ["GPU"], 1, []⟩).base.canExecute
      (Process.visit (Exec.execute (.Task ⟨"t1", "", ["CPU", "CPU"], 1, []⟩))
        (.Task ⟨"t1", "", ["CPU", "CPU"], 1, []⟩) [.UsableResource "CPU" true 3]).pool).result
      = false ∧
    ((Exec.Task ⟨"t3", "", ["CPU"], 1, []⟩).base.canExecute
      (Process.visit (Exec.execute (.Task ⟨"t1", "", ["CPU", "CPU"], 1, []⟩))
        (.Task ⟨"t1", "", ["CPU", "CPU"], 1, []⟩) [.UsableResource "CPU" true 3]).pool).result
      = true ∧
    (Process.run ⟨"P", "", [], 1, []⟩ [.UsableResource "CPU" true 3]
      [.Task ⟨"t1", "", ["CPU", "CPU"], 1, []⟩, .Task ⟨"t2", "", ["GPU"], 1, []⟩,
        .Task ⟨"t3", "", ["CPU"], 1, []⟩]).log =
      [.executingProcess "P" "" 1,
        .errorInTask "t1" (.resourceNotAvailable "CPU" "t1"),
        .taskSkipped "t2",
        .indent, .executingTask "t3" "" 1, .usingUsable "CPU" 3,
        .processCompleted "P"] ∧
    Event.executingTask "t1" "" 1 ∉
      (Process.run ⟨"P", "", [], 1, []⟩ [.UsableResource "CPU" true 3]
        [.Task ⟨"t1", "", ["CPU", "CPU"], 1, []⟩, .Task ⟨"t2", "", ["GPU"], 1, []⟩,
          .Task ⟨"t3", "", ["CPU"], 1, []⟩]).log := by
  decide

/-! ## The limited-memory scenario -/

/-- One visit of a Task requiring ["CPU", "Memory"] while Memory has capacity left. -/
theorem Process.visit_cpu_memory_available (mf : Bool) (b : Executable) (c tot rem : Int)
    (f : Bool)
    (hreq : b.requiredResourcesNames = ["CPU", "Memory"]) (hrem : 0 < rem) :
    Process.visit (Exec.execute (.Task b)) (.Task b) (cpuMemoryPool mf c tot f rem) =
      ⟨.Task { b with assignedResources := [] },
        cpuMemoryPool mf c tot (decide (rem - 1 > 0)) (rem - 1),
        [.indent, .executingTask b.name b.description b.durationInUnits,
          .usingUsable "CPU" c, .usingConsumable "Memory" (rem - 1) tot] ++
          (if rem - 1 = 0 then [.depletedWarning "Memory"] else [])⟩ := by
  have h1 : ¬ rem ≤ 0 := by omega
  have hne : ("CPU" = "Memory") = False := by decide
  have hne2 : ("Memory" = "CPU") = False := by decide
  cases mf <;>
  simp [cpuMemoryPool, Process.visit, Exec.base, Executable.canExecute, hreq,
    Executable.canExecuteLoop, noneOf,
    Resource.matchesAvailable, Resource.getName, Resource.isAvailableForUse, hrem,
    Executable.assignResources, Executable.assignLoop, findAvailable, allocateAt,
    Resource.allocate, h1, Exec.execute, Task.execute, useAll, Resource.use,
    Executable.releaseResources, Executable.releaseLoop, releaseAt, Resource.release,
    Exec.setBase, Exec.getName] <;>
  · by_cases h0 : rem - 1 = 0
    · have h2 : rem ≤ 1 := by omega
      simp [h0, h2]
    · simp [h0]

/-- One visit of a Task requiring ["CPU", "Memory"] when Memory is depleted. -/
theorem Process.visit_cpu_memory_depleted (mf : Bool) (b : Executable) (c tot rem : Int)
    (f : Bool)
    (hreq : b.requiredResourcesNames = ["CPU", "Memory"]) (hrem : rem ≤ 0) :
    Process.visit (Exec.execute (.Task b)) (.Task b) (cpuMemoryPool mf c tot f rem) =
      ⟨.Task b, cpuMemoryPool mf c tot f rem, [.taskSkipped b.name]⟩ := by
  apply Process.visit_skipped
  have h1 : ¬ 0 < rem := by omega
  have hne : ("CPU" = "Memory") = False := by decide
  have hne2 : ("Memory" = "CPU") = False := by decide
  cases mf <;>
  simp [cpuMemoryPool, Exec.base, Executable.canExecute, hreq, Executable.canExecuteLoop, noneOf,
    Resource.matchesAvailable, Resource.getName, Resource.isAvailableForUse, h1]

theorem Process.executeTasks_cpu_memory (mf : Bool) (c tot : Int) :
    ∀ (bs : List Executable) (C : Nat) (f : Bool),
      (∀ b ∈ bs, b.requiredResourcesNames = ["CPU", "Memory"]) →
      (Process.executeTasks (bs.map Exec.Task)
        (cpuMemoryPool mf c tot f C)).tasks =
        (bs.take (min bs.length C)).map (fun b => Exec.Task { b with assignedResources := [] }) ++
          (bs.drop (min bs.length C)).map Exec.Task ∧
      (∃ f', (Process.executeTasks (bs.map Exec.Task)
        (cpuMemoryPool mf c tot f C)).pool =
        cpuMemoryPool mf c tot f' ((C : Int) - (min bs.length C : Nat))) ∧
      (Process.executeTasks (bs.map Exec.Task)
        (cpuMemoryPool mf c tot f C)).log.filter
          Event.isTaskNotice =
        (bs.take (min bs.length C)).map
            (fun b => Event.executingTask b.name b.description b.durationInUnits) ++
          (bs.drop (min bs.length C)).map (fun b => Event.taskSkipped b.name) := by
  intro bs
  induction bs with
  | nil =>
    intro C f _
    exact ⟨by simp [Process.executeTasks], ⟨f, by simp [Process.executeTasks]⟩,
      by simp [Process.executeTasks]⟩
  | cons b rest ih =>
    intro C f hall
    have hb : b.requiredResourcesNames = ["CPU", "Memory"] := hall b (by simp)
    have hrest : ∀ b' ∈ rest, b'.requiredResourcesNames = ["CPU", "Memory"] :=
      fun b' hb' => hall b' (by simp [hb'])
    cases C with
    | zero =>
      obtain ⟨ht, ⟨f', hp⟩, hl⟩ := ih 0 f hrest
      simp only [List.map_cons, Process.executeTasks,
        Process.visit_cpu_memory_depleted mf b c tot ((0 : Nat) : Int) f hb (by simp)]
      refine ⟨?_, ⟨f', ?_⟩, ?_⟩
      · rw [ht]; simp
      · rw [hp]; simp
      · rw [List.filter_append, hl]; simp [Event.isTaskNotice]
    | succ k =>
      have hpos : (0 : Int) < ((k + 1 : Nat) : Int) := by push_cast; omega
      have hk : (((k + 1 : Nat) : Int) - 1) = (k : Int) := by push_cast; ring
      obtain ⟨ht, ⟨f', hp⟩, hl⟩ := ih k (decide ((k : Int) > 0)) hrest
      simp only [List.map_cons, Process.executeTasks,
        Process.visit_cpu_memory_available mf b c tot ((k + 1 : Nat) : Int) f hb hpos, hk]
      have hmin : min (rest.length + 1) (k + 1) = min rest.length k + 1 := by omega
      refine ⟨?_, ⟨f', ?_⟩, ?_⟩
      · rw [ht]; simp [hmin]
      · rw [hp]; simp [hmin]
      · rw [List.filter_append, hl]
        by_cases h0 : (k : Int) = 0 <;> simp [Event.isTaskNotice, hmin, h0]

/-- C9. The limited-memory scenario.  The orchestrator requires nothing itself and holds
nothing; its pool is a free UsableResource "CPU" and a ConsumableResource "Memory" with
remaining capacity C, in either order; its sub-units are n Tasks that each require
["CPU", "Memory"].  Then run does not throw and reports completion; of the Tasks it
executes exactly the first min(n, C), in order, and reports each of the others as skipped,
with no error notice; afterwards "CPU" is available and "Memory" has remaining capacity
C - min(n, C); the executed Tasks end with an empty assigned list and the skipped ones are
untouched.  (The statement also covers C = 0, a Memory already depleted.) -/
theorem limited_memory_run_executes_first_min_tasks (self : Executable) (memoryFirst : Bool)
    (c tot : Int) (f : Bool) (C : Nat) (bs : List Executable)
    (hreq : self.requiredResourcesNames = [])
    (hassigned : self.assignedResources = [])
    (hall : ∀ b ∈ bs, b.requiredResourcesNames = ["CPU", "Memory"]) :
    (Process.run self (cpuMemoryPool memoryFirst c tot f C) (bs.map Exec.Task)).error = none ∧
    (Process.run self (cpuMemoryPool memoryFirst c tot f C)
      (bs.map Exec.Task)).log.filter Event.isTaskNotice =
        (bs.take (min bs.length C)).map
            (fun b => Event.executingTask b.name b.description b.durationInUnits) ++
          (bs.drop (min bs.length C)).map (fun b => Event.taskSkipped b.name) ∧
    (Process.run self (cpuMemoryPool memoryFirst c tot f C)
      (bs.map Exec.Task)).log.filter Event.isTopLevel = [.processCompleted self.name] ∧
    (Process.run self (cpuMemoryPool memoryFirst c tot f C) (bs.map Exec.Task)).self.tasks =
        (bs.take (min bs.length C)).map (fun b => Exec.Task { b with assignedResources := [] }) ++
          (bs.drop (min bs.length C)).map Exec.Task ∧
    (∃ f', (Process.run self (cpuMemoryPool memoryFirst c tot f C)
      (bs.map Exec.Task)).self.resourcePool =
        cpuMemoryPool memoryFirst c tot f' ((C : Int) - (min bs.length C : Nat))) ∧
    (∀ r ∈ (Process.run self (cpuMemoryPool memoryFirst c tot f C)
      (bs.map Exec.Task)).self.resourcePool,
        (r.getName = "CPU" → r.isAvailableForUse = true) ∧
        (r.getName = "Memory" →
          r.getRemainingCapacity = (C : Int) - (min bs.length C : Nat))) := by
  have hempty : self.requiredResourcesNames.isEmpty = true := by simp [hreq]
  obtain ⟨base, pool0, _, hA, _, hrun⟩ := Process.run_started self
    (cpuMemoryPool memoryFirst c tot f C) (bs.map Exec.Task) (Or.inl hempty)
  obtain ⟨hbase, hpool0⟩ := hA hempty
  subst hbase
  subst hpool0
  obtain ⟨ht, ⟨f', hp⟩, hl⟩ := Process.executeTasks_cpu_memory memoryFirst c tot bs C f hall
  have htop := Process.run_topLevel_started base
    (cpuMemoryPool memoryFirst c tot f C) (bs.map Exec.Task) (Or.inl hempty)
  refine ⟨htop.1, ?_, htop.2, ?_, ?_⟩
  · rw [hrun]
    simp only [hassigned, Executable.releaseLoop, List.filter_append, hl]
    simp [Event.isTaskNotice]
  · rw [hrun]
    simp only [Exec.tasks, ht]
  · have hpool : (Process.run base (cpuMemoryPool memoryFirst c tot f C)
        (bs.map Exec.Task)).self.resourcePool =
          cpuMemoryPool memoryFirst c tot f' ((C : Int) - (min bs.length C : Nat)) := by
      rw [hrun]
      simp only [hassigned, Executable.releaseLoop, Exec.resourcePool, hp]
    refine ⟨⟨f', hpool⟩, ?_⟩
    rw [hpool]
    have hne : ("CPU" = "Memory") = False := by decide
    have hne2 : ("Memory" = "CPU") = False := by decide
    cases memoryFirst <;>
      simp [cpuMemoryPool, Resource.getName, Resource.isAvailableForUse,
        Resource.getRemainingCapacity, hne, hne2]

/-- Witness for C9 at C = 2, n = 3: the first two Tasks are executed, the third is
skipped, "CPU" is available afterwards and "Memory" has nothing left. -/
theorem limited_memory_run_executes_first_min_tasks_witness :
    (Process.run ⟨"P", "", [], 15, []⟩
      [.UsableResource "CPU" true 3, .ConsumableResource "Memory" true 2 2]
      ([⟨"t1", "", ["CPU", "Memory"], 2, []⟩, ⟨"t2", "", ["CPU", "Memory"], 3, []⟩,
        ⟨"t3", "", ["CPU", "Memory"], 4, []⟩].map Exec.Task)).log.filter Event.isTaskNotice =
      [.executingTask "t1" "" 2, .executingTask "t2" "" 3, .taskSkipped "t3"] ∧
    (∀ r ∈ (Process.run ⟨"P", "", [], 15, []⟩
      [.UsableResource "CPU" true 3, .ConsumableResource "Memory" true 2 2]
      ([⟨"t1", "", ["CPU", "Memory"], 2, []⟩, ⟨"t2", "", ["CPU", "Memory"], 3, []⟩,
        ⟨"t3", "", ["CPU", "Memory"], 4, []⟩].map Exec.Task)).self.resourcePool,
        (r.getName = "CPU" → r.isAvailableForUse = true) ∧
        (r.getName = "Memory" → r.getRemainingCapacity = 0)) := by
  obtain ⟨_, hlog, _, _, _, hpool⟩ :=
    limited_memory_run_executes_first_min_tasks ⟨"P", "", [], 15, []⟩ false 3 2 true 2
      [⟨"t1", "", ["CPU", "Memory"], 2, []⟩, ⟨"t2", "", ["CPU", "Memory"], 3, []⟩,
        ⟨"t3", "", ["CPU", "Memory"], 4, []⟩] rfl rfl (by decide)
  exact ⟨by simpa [cpuMemoryPool] using hlog, by simpa [cpuMemoryPool] using hpool⟩

/-! ## Process::run as a sequence of calls on one pool -/

theorem System.step_at (pool : List Resource) (pre post : List Executable) (e : Executable)
    (call : Call) (h : call.unit = pre.length) :
    (System.mk pool (pre ++ e :: post)).step call =
      ⟨(call.effect e pool).2, pre ++ (call.effect e pool).1 :: post⟩ := by
  have hget : (pre ++ e :: post)[pre.length]? = some e := by
    rw [List.getElem?_append_right (Nat.le_refl _)]
    simp
  have hset : ∀ e', (pre ++ e :: post).set pre.length e' = pre ++ e' :: post := by
    intro e'
    simp
  unfold System.step
  rw [h, hget]
  simp only [hset]

theorem System.after_append (s : System) (a b : List Call) :
    s.after (a ++ b) = (s.after a).after b := by
  simp [System.after, List.foldl_append]

theorem Exec.execute_frame (t : Exec) (self : Executable) (held : List Resource) :
    (Exec.execute t self held).held = held ∧ (Exec.execute t self held).self.base = self := by
  cases t with
  | Task b =>
    simp only [Exec.execute, Task.execute]
    split <;> exact ⟨rfl, rfl⟩
  | Process b rp ts =>
    simp only [Exec.execute]
    split <;> exact ⟨rfl, rfl⟩

theorem Task.execute_leaves_state (self : Executable) (held : List Resource) :
    (Task.execute self held).self = self ∧ (Task.execute self held).pool = held := by
  simp only [Task.execute]
  split <;> exact ⟨rfl, rfl⟩

/-- One iteration of the loop of Process::execute acts on the pool and on the base-class
part of the sub-unit as a sequence of calls on that sub-unit. -/
theorem Process.visit_is_call_sequence (t : Exec) (pool : List Resource)
    (pre post : List Executable) :
    ∃ cs : List Call, (∀ c ∈ cs, c.unit = pre.length) ∧
      (System.mk pool (pre ++ t.base :: post)).after cs =
        ⟨(Process.visit (Exec.execute t) t pool).pool,
          pre ++ (Process.visit (Exec.execute t) t pool).task.base :: post⟩ := by
  cases hc : (t.base.canExecute pool).result with
  | false =>
    refine ⟨[.canExecute pre.length], by simp [Call.unit], ?_⟩
    rw [Process.visit_skipped _ t pool hc]
    simp [System.after, System.step_at _ _ _ _ _ (rfl : (Call.canExecute pre.length).unit = _),
      Call.effect, Executable.canExecute_pool, Executable.canExecute_self]
  | true =>
    cases ha : (t.base.assignResources pool).error with
    | some e =>
      refine ⟨[.canExecute pre.length, .assignResources pre.length], by simp [Call.unit], ?_⟩
      rw [Process.visit_assign_failed _ t pool e hc ha]
      simp [System.after,
        System.step_at _ _ _ _ _ (rfl : (Call.canExecute pre.length).unit = _),
        System.step_at _ _ _ _ _ (rfl : (Call.assignResources pre.length).unit = _),
        Call.effect, Executable.canExecute_pool, Executable.canExecute_self, Exec.base_setBase]
    | none =>
      refine ⟨[.canExecute pre.length, .assignResources pre.length, .execute pre.length,
        .releaseResources pre.length], by simp [Call.unit], ?_⟩
      obtain ⟨_, _, hv⟩ := Process.visit_executed t pool hc ha
      rw [hv]
      simp [System.after,
        System.step_at _ _ _ _ _ (rfl : (Call.canExecute pre.length).unit = _),
        System.step_at _ _ _ _ _ (rfl : (Call.assignResources pre.length).unit = _),
        System.step_at _ _ _ _ _ (rfl : (Call.execute pre.length).unit = _),
        System.step_at _ _ _ _ _ (rfl : (Call.releaseResources pre.length).unit = _),
        Call.effect, Executable.canExecute_pool, Executable.canExecute_self, Exec.base_setBase,
        Task.execute_leaves_state, Executable.releaseResources, Executable.assignResources_name]

/-- The loop of Process::execute acts on the pool and on the base-class parts of the
sub-units as a sequence of calls on those sub-units. -/
theorem Process.executeTasks_is_call_sequence (ts : List Exec) :
    ∀ (pool : List Resource) (pre post : List Executable),
      ∃ cs : List Call,
        (System.mk pool (pre ++ ts.map Exec.base ++ post)).after cs =
          ⟨(Process.executeTasks ts pool).pool,
            pre ++ (Process.executeTasks ts pool).tasks.map Exec.base ++ post⟩ := by
  induction ts with
  | nil =>
    intro pool pre post
    exact ⟨[], by simp [System.after, Process.executeTasks]⟩
  | cons t rest ih =>
    intro pool pre post
    obtain ⟨cs1, _, h1⟩ := Process.visit_is_call_sequence t pool pre (rest.map Exec.base ++ post)
    obtain ⟨cs2, h2⟩ := ih (Process.visit (Exec.execute t) t pool).pool
      (pre ++ [(Process.visit (Exec.execute t) t pool).task.base]) post
    refine ⟨cs1 ++ cs2, ?_⟩
    rw [System.after_append]
    have e1 : pre ++ List.map Exec.base (t :: rest) ++ post =
        pre ++ t.base :: (rest.map Exec.base ++ post) := by simp
    rw [e1, h1]
    have e2 : pre ++ (Process.visit (Exec.execute t) t pool).task.base ::
          (rest.map Exec.base ++ post) =
        pre ++ [(Process.visit (Exec.execute t) t pool).task.base] ++
          rest.map Exec.base ++ post := by simp
    rw [e2, h2]
    simp [Process.executeTasks]

/-- Process::run acts on its pool, on its own base-class part (unit 0) and on those of its
sub-units (units 1, 2, ...) as a sequence of calls of assignResources, execute and
releaseResources on these units; canExecute changes nothing. -/
theorem Process.run_is_call_sequence (self : Executable) (pool : List Resource)
    (tasks : List Exec) :
    ∃ cs : List Call,
      (System.mk pool (self :: tasks.map Exec.base)).after cs =
        ⟨(Process.run self pool tasks).self.resourcePool,
          (Process.run self pool tasks).self.base ::
            (Process.run self pool tasks).self.tasks.map Exec.base⟩ := by
  have hstep : ∀ (p : List Resource) (e : Executable) (post : List Executable) (call : Call),
      call.unit = 0 →
      (System.mk p (e :: post)).step call =
        ⟨(call.effect e p).2, (call.effect e p).1 :: post⟩ := by
    intro p e post call h
    exact System.step_at p [] post e call h
  by_cases hstart : self.requiredResourcesNames.isEmpty = true ∨
      (self.requiredResourcesNames.isEmpty = false ∧ (self.canExecute pool).result = true ∧
        (self.assignResources pool).error = none)
  · obtain ⟨base, pool0, _, hA, hB, hrun⟩ := Process.run_started self pool tasks hstart
    obtain ⟨cs, hcs⟩ := Process.executeTasks_is_call_sequence tasks pool0 [base] []
    have hfirst : ∃ cs0 : List Call,
        (System.mk pool (self :: tasks.map Exec.base)).after cs0 =
          ⟨pool0, [base] ++ tasks.map Exec.base ++ []⟩ := by
      by_cases he : self.requiredResourcesNames.isEmpty = true
      · obtain ⟨hb, hp⟩ := hA he
        subst hb; subst hp
        exact ⟨[], by simp [System.after]⟩
      · obtain ⟨hb, hp⟩ := hB (by simpa using he)
        subst hb; subst hp
        exact ⟨[.assignResources 0], by
          simp [System.after, hstep _ _ _ (.assignResources 0) rfl, Call.effect]⟩
    obtain ⟨cs0, hcs0⟩ := hfirst
    refine ⟨cs0 ++ cs ++ [.releaseResources 0], ?_⟩
    rw [System.after_append, System.after_append, hcs0, hcs, hrun]
    simp [System.after, hstep _ _ _ (.releaseResources 0) rfl, Call.effect, Exec.base,
      Exec.resourcePool, Exec.tasks, Executable.releaseResources]
  · have hne : self.requiredResourcesNames.isEmpty = false := by
      cases hb : self.requiredResourcesNames.isEmpty with
      | true => exact absurd (Or.inl hb) hstart
      | false => rfl
    cases hc : (self.canExecute pool).result with
    | false =>
      rw [Process.run_rejected self pool tasks hne hc]
      exact ⟨[], by simp [System.after, Exec.base, Exec.resourcePool, Exec.tasks]⟩
    | true =>
      cases ha : (self.assignResources pool).error with
      | none => exact absurd (Or.inr ⟨hne, hc, ha⟩) hstart
      | some e =>
        rw [Process.run_assign_failed self pool tasks e hne hc ha]
        exact ⟨[.assignResources 0], by
          simp [System.after, hstep _ _ _ (.assignResources 0) rfl, Call.effect, Exec.base,
            Exec.resourcePool, Exec.tasks]⟩

/-! ## Mutual exclusion on one pool -/

theorem Resource.releaseTimes_isUsable (n : Nat) :
    ∀ r : Resource, (Resource.releaseTimes n r).isUsable = r.isUsable := by
  induction n with
  | zero => intro r; rfl
  | succ n ih =>
    intro r
    rw [Resource.releaseTimes, ih]
    cases r <;> rfl

theorem releaseAt_getElem? (name : String) (i : Nat) (pool : List Resource) (j : Nat) :
    (releaseAt name i pool).pool[j]? =
      (pool[j]?).map (fun r => if j = i then r.release.resource else r) := by
  unfold releaseAt
  cases hi : pool[i]? with
  | none =>
    by_cases hji : j = i
    · subst hji; simp [hi]
    · simp [hji]
  | some r =>
    by_cases hji : j = i
    · subst hji
      have hlt : j < pool.length := by
        rcases Nat.lt_or_ge j pool.length with h | h
        · exact h
        · rw [List.getElem?_eq_none h] at hi; cases hi
      simp [hi, hlt]
    · have hij : i ≠ j := fun h => hji h.symm
      simp [hji, List.getElem?_set_ne hij]

theorem Executable.releaseLoop_getElem? (name : String) (assigned : List Nat) :
    ∀ (pool : List Resource) (j : Nat),
      (Executable.releaseLoop name assigned pool).pool[j]? =
        (pool[j]?).map (Resource.releaseTimes (assigned.count j)) := by
  induction assigned with
  | nil =>
    intro pool j
    cases h : pool[j]? <;> simp [Executable.releaseLoop, Resource.releaseTimes, h]
  | cons i rest ih =>
    intro pool j
    simp only [Executable.releaseLoop]
    rw [ih, releaseAt_getElem?]
    cases h : pool[j]? with
    | none => simp
    | some r =>
      by_cases hji : j = i
      · subst hji
        simp [Resource.releaseTimes]
      · have hij : i ≠ j := fun h => hji h.symm
        simp [hji, List.count_cons_of_ne hij]

theorem Good.clear {others : Nat → Nat} {assigned : List Nat} {pool : List Resource}
    (h : Good others assigned pool) : Good others [] pool := by
  intro j r hr hu
  have := h j r hr hu
  simp only [List.count_nil, Nat.add_zero]
  omega

theorem holdBound_le_one (r : Resource) : holdBound r ≤ 1 := by
  unfold holdBound
  split <;> omega

theorem Good.release {others : Nat → Nat} {assigned : List Nat} {pool : List Resource}
    (name : String) (h : Good others assigned pool) :
    Good others [] (Executable.releaseLoop name assigned pool).pool := by
  intro j r' hr' hu'
  rw [Executable.releaseLoop_getElem?] at hr'
  cases hr : pool[j]? with
  | none => rw [hr] at hr'; cases hr'
  | some r =>
    rw [hr] at hr'
    simp only [Option.map_some', Option.some.injEq] at hr'
    have hu : r.isUsable = true := by
      rw [← hr', Resource.releaseTimes_isUsable] at hu'
      exact hu'
    have hg := h j r hr hu
    have hb := holdBound_le_one r
    simp only [List.count_nil, Nat.add_zero]
    by_cases hc : assigned.count j = 0
    · rw [hc] at hr' hg
      simp only [Resource.releaseTimes] at hr'
      subst hr'
      simpa using hg
    · have : others j = 0 := by omega
      omega

theorem Good.allocate {others : Nat → Nat} {assigned : List Nat} {pool : List Resource}
    (n : String) (i : Nat) (hf : findAvailable n pool = some i)
    (h : Good others assigned pool) :
    Good others (assigned ++ [i]) (allocateAt i pool).pool := by
  obtain ⟨r0, hr0, _, ha0, _⟩ := allocateAt_of_found n pool i hf
  intro j r' hr' hu'
  rw [allocateAt_getElem?] at hr'
  cases hr : pool[j]? with
  | none => rw [hr] at hr'; cases hr'
  | some r =>
    rw [hr] at hr'
    simp only [Option.map_some', Option.some.injEq] at hr'
    by_cases hji : j = i
    · subst hji
      rw [hr] at hr0
      simp only [Option.some.injEq] at hr0
      subst hr0
      simp only [if_true] at hr'
      subst hr'
      cases r with
      | ConsumableResource nm f t rem =>
        by_cases hrem : rem ≤ 0 <;> simp [Resource.allocate, hrem, Resource.isUsable] at hu'
      | UsableResource nm f c =>
        simp only [Resource.isAvailableForUse] at ha0
        subst ha0
        have hg := h j _ hr rfl
        simp only [holdBound, Resource.isAvailableForUse, if_true] at hg
        simp only [Resource.allocate, holdBound, Resource.isAvailableForUse, List.count_append,
          List.count_singleton_self]
        simp
        omega
    · simp only [hji, if_false] at hr'
      subst hr'
      have hg := h j r hr hu'
      have hc : List.count j [i] = 0 := List.count_eq_zero.2 (by simp [hji])
      rw [List.count_append, hc]
      exact hg

theorem Good.assignLoop {others : Nat → Nat} (names : List String) :
    ∀ (self : Executable) (pool : List Resource),
      Good others self.assignedResources pool →
      Good others (Executable.assignLoop names self pool).self.assignedResources
        (Executable.assignLoop names self pool).pool := by
  induction names with
  | nil => intro self pool h; simpa [Executable.assignLoop] using h
  | cons n rest ih =>
    intro self pool h
    cases hf : findAvailable n pool with
    | none =>
      rw [Executable.assignLoop_cons_missing n rest self pool hf]
      exact Good.release self.name h
    | some i =>
      rw [Executable.assignLoop_cons_found n rest self pool i hf]
      exact ih _ _ (Good.allocate n i hf h)

theorem Good.assignResources {others : Nat → Nat} (self : Executable) (pool : List Resource)
    (h : Good others self.assignedResources pool) :
    Good others (self.assignResources pool).self.assignedResources
      (self.assignResources pool).pool := by
  by_cases hempty : self.requiredResourcesNames.isEmpty = true
  · simpa [Executable.assignResources, hempty] using h.clear
  · simp only [Executable.assignResources, hempty]
    exact Good.assignLoop _ _ _ h.clear

theorem Good.effect {others : Nat → Nat} (call : Call) (e : Executable) (pool : List Resource)
    (h : Good others e.assignedResources pool) :
    Good others (call.effect e pool).1.assignedResources (call.effect e pool).2 := by
  cases call with
  | canExecute u =>
    simpa [Call.effect, Executable.canExecute_pool, Executable.canExecute_self] using h
  | assignResources u => exact Good.assignResources e pool h
  | execute u =>
    simp only [Call.effect, Task.execute]
    split <;> exact h
  | releaseResources u =>
    simpa [Call.effect, Executable.releaseResources] using Good.release e.name h

theorem sum_map_set {α : Type} (f : α → Nat) :
    ∀ (l : List α) (u : Nat) (e e' : α), l[u]? = some e →
      ((l.set u e').map f).sum + f e = (l.map f).sum + f e' := by
  intro l
  induction l with
  | nil => intro u e e' h; simp at h
  | cons a rest ih =>
    intro u e e' h
    cases u with
    | zero =>
      simp only [List.getElem?_cons_zero, Option.some.injEq] at h
      subst h
      simp only [List.set_cons_zero, List.map_cons, List.sum_cons]
      omega
    | succ u =>
      simp only [List.getElem?_cons_succ] at h
      have := ih u e e' h
      simp only [List.set_cons_succ, List.map_cons, List.sum_cons]
      omega

theorem le_sum_map_of_getElem? {α : Type} (f : α → Nat) :
    ∀ (l : List α) (u : Nat) (e : α), l[u]? = some e → f e ≤ (l.map f).sum := by
  intro l
  induction l with
  | nil => intro u e h; simp at h
  | cons a rest ih =>
    intro u e h
    cases u with
    | zero =>
      simp only [List.getElem?_cons_zero, Option.some.injEq] at h
      subst h
      simp only [List.map_cons, List.sum_cons]
      omega
    | succ u =>
      simp only [List.getElem?_cons_succ] at h
      have := ih u e h
      simp only [List.map_cons, List.sum_cons]
      omega

theorem add_le_sum_map_of_getElem? {α : Type} (f : α → Nat) :
    ∀ (l : List α) (u v : Nat) (a b : α), u ≠ v → l[u]? = some a → l[v]? = some b →
      f a + f b ≤ (l.map f).sum := by
  intro l
  induction l with
  | nil => intro u v a b _ h; simp at h
  | cons x rest ih =>
    intro u v a b huv ha hb
    simp only [List.map_cons, List.sum_cons]
    cases u with
    | zero =>
      cases v with
      | zero => exact absurd rfl huv
      | succ v =>
        simp only [List.getElem?_cons_zero, Option.some.injEq] at ha
        simp only [List.getElem?_cons_succ] at hb
        subst ha
        have := le_sum_map_of_getElem? f rest v b hb
        omega
    | succ u =>
      simp only [List.getElem?_cons_succ] at ha
      cases v with
      | zero =>
        simp only [List.getElem?_cons_zero, Option.some.injEq] at hb
        subst hb
        have := le_sum_map_of_getElem? f rest u a ha
        omega
      | succ v =>
        simp only [List.getElem?_cons_succ] at hb
        have := ih u v a b (fun h => huv (by rw [h])) ha hb
        omega

theorem System.Exclusive.step {s : System} (call : Call) (h : s.Exclusive) :
    (s.step call).Exclusive := by
  unfold System.step
  cases hu : s.units[call.unit]? with
  | none => exact h
  | some e =>
    have hsplit : ∀ j, s.holders j =
        (s.holders j - e.assignedResources.count j) + e.assignedResources.count j := by
      intro j
      have hle : e.assignedResources.count j ≤
          (s.units.map (fun e : Executable => e.assignedResources.count j)).sum :=
        le_sum_map_of_getElem? (fun e : Executable => e.assignedResources.count j)
          s.units call.unit e hu
      simp only [System.holders]
      omega
    have hgood : Good (fun j => s.holders j - e.assignedResources.count j)
        e.assignedResources s.pool := by
      intro j r hr hus
      have := h j r hr hus
      rw [hsplit j] at this
      exact this
    have hgood' := Good.effect call e s.pool hgood
    intro j r hr hus
    have hnew := hgood' j r hr hus
    have hsum : ((s.units.set call.unit (call.effect e s.pool).1).map
          (fun e : Executable => e.assignedResources.count j)).sum +
          e.assignedResources.count j =
        (s.units.map (fun e : Executable => e.assignedResources.count j)).sum +
          (call.effect e s.pool).1.assignedResources.count j :=
      sum_map_set (fun e : Executable => e.assignedResources.count j)
        s.units call.unit e (call.effect e s.pool).1 hu
    have hs := hsplit j
    simp only [System.holders] at hs hnew ⊢
    omega

theorem System.Exclusive.after (calls : List Call) :
    ∀ s : System, s.Exclusive → (s.after calls).Exclusive := by
  induction calls with
  | nil => intro s h; exact h
  | cons call rest ih =>
    intro s h
    exact ih (s.step call) (h.step call)

theorem System.Exclusive.of_nothing_assigned (s : System)
    (h : ∀ e ∈ s.units, e.assignedResources = []) : s.Exclusive := by
  intro j r _ _
  have hz : s.holders j = 0 := by
    simp only [System.holders]
    apply List.sum_eq_zero
    intro x hx
    simp only [List.mem_map] at hx
    obtain ⟨e, he, rfl⟩ := hx
    simp [h e he]
  omega

/-- C7 (amended). Start from any pool and any Executables that hold nothing, and let them
call canExecute, assignResources, execute and releaseResources on that pool in any order
(Process::run and the loop of Process::execute are such sequences).  In every state
reached, a UsableResource of the pool is in the assigned list of at most one Executable,
at most once in it, and in none while it is free. -/
theorem usable_resource_held_by_at_most_one (s : System) (calls : List Call) (j : Nat)
    (r : Resource)
    (hinit : ∀ e ∈ s.units, e.assignedResources = [])
    (hr : (s.after calls).pool[j]? = some r)
    (hu : r.isUsable = true) :
    (∀ (u v : Nat) (e1 e2 : Executable),
      (s.after calls).units[u]? = some e1 → (s.after calls).units[v]? = some e2 →
      j ∈ e1.assignedResources → j ∈ e2.assignedResources → u = v) ∧
    (∀ (u : Nat) (e : Executable),
      (s.after calls).units[u]? = some e → e.assignedResources.count j ≤ 1) ∧
    (r.isAvailableForUse = true →
      ∀ (u : Nat) (e : Executable),
        (s.after calls).units[u]? = some e → j ∉ e.assignedResources) := by
  have hex := System.Exclusive.after calls s (System.Exclusive.of_nothing_assigned s hinit)
  have hb := hex j r hr hu
  have hb1 := holdBound_le_one r
  refine ⟨?_, ?_, ?_⟩
  · intro u v e1 e2 h1 h2 hj1 hj2
    by_contra huv
    have hsum : e1.assignedResources.count j + e2.assignedResources.count j ≤
        ((s.after calls).units.map (fun e : Executable => e.assignedResources.count j)).sum :=
      add_le_sum_map_of_getElem? (fun e : Executable => e.assignedResources.count j)
        (s.after calls).units u v e1 e2 huv h1 h2
    have c1 : 0 < e1.assignedResources.count j := List.count_pos_iff.2 hj1
    have c2 : 0 < e2.assignedResources.count j := List.count_pos_iff.2 hj2
    simp only [System.holders] at hb
    omega
  · intro u e h1
    have hle : e.assignedResources.count j ≤
        ((s.after calls).units.map (fun e : Executable => e.assignedResources.count j)).sum :=
      le_sum_map_of_getElem? (fun e : Executable => e.assignedResources.count j)
        (s.after calls).units u e h1
    simp only [System.holders] at hb
    omega
  · intro hav u e h1 hj
    have hle : e.assignedResources.count j ≤
        ((s.after calls).units.map (fun e : Executable => e.assignedResources.count j)).sum :=
      le_sum_map_of_getElem? (fun e : Executable => e.assignedResources.count j)
        (s.after calls).units u e h1
    have c1 : 0 < e.assignedResources.count j := List.count_pos_iff.2 hj
    simp only [System.holders, holdBound, hav, if_true] at hb
    omega

/-- Witness for C7 (amended): orchestrator and sub-unit both require the one UsableResource
"CPU"; after the calls that run makes up to the sub-unit's turn, and an assignResources of
the sub-unit on top, only the orchestrator holds it. -/
theorem usable_resource_held_by_at_most_one_witness :
    ((System.mk [.UsableResource "CPU" true 3]
        [⟨"P", "", ["CPU"], 1, []⟩, ⟨"T", "", ["CPU"], 1, []⟩]).after
      [.canExecute 0, .assignResources 0, .execute 0, .canExecute 1,
        .assignResources 1]).pool[0]? = some (.UsableResource "CPU" false 3) ∧
    ((System.mk [.UsableResource "CPU" true 3]
        [⟨"P", "", ["CPU"], 1, []⟩, ⟨"T", "", ["CPU"], 1, []⟩]).after
      [.canExecute 0, .assignResources 0, .execute 0, .canExecute 1,
        .assignResources 1]).units.map Executable.assignedResources = [[0], []] ∧
    (∀ (u v : Nat) (e1 e2 : Executable),
      ((System.mk [.UsableResource "CPU" true 3]
          [⟨"P", "", ["CPU"], 1, []⟩, ⟨"T", "", ["CPU"], 1, []⟩]).after
        [.canExecute 0, .assignResources 0, .execute 0, .canExecute 1,
          .assignResources 1]).units[u]? = some e1 →
      ((System.mk [.UsableResource "CPU" true 3]
          [⟨"P", "", ["CPU"], 1, []⟩, ⟨"T", "", ["CPU"], 1, []⟩]).after
        [.canExecute 0, .assignResources 0, .execute 0, .canExecute 1,
          .assignResources 1]).units[v]? = some e2 →
      0 ∈ e1.assignedResources → 0 ∈ e2.assignedResources → u = v) :=
  ⟨by decide, by decide,
    (usable_resource_held_by_at_most_one
      (System.mk [.UsableResource "CPU" true 3]
        [⟨"P", "", ["CPU"], 1, []⟩, ⟨"T", "", ["CPU"], 1, []⟩])
      [.canExecute 0, .assignResources 0, .execute 0, .canExecute 1, .assignResources 1]
      0 (.UsableResource "CPU" false 3) (by decide) (by decide) rfl).1⟩

/-- C7 as stated fails for a ConsumableResource: the pool is one "Memory" with remaining
capacity 2, which the orchestrator "P" and its sub-unit "T" both require.  After the calls
run makes up to the assignment of "T" (canExecute, assignResources and execute of "P",
then canExecute and assignResources of "T"), the one pool entry is in the assigned lists
of both.  The run itself shows the two allocations: "P" uses Memory at 1 of 2, then "T"
uses it at 0 of 2, before either has released. -/
theorem consumable_resource_held_by_two :
    ((System.mk [.ConsumableResource "Memory" true 2 2]
        [⟨"P", "", ["Memory"], 1, []⟩, ⟨"T", "", ["Memory"], 1, []⟩]).after
      [.canExecute 0, .assignResources 0, .execute 0, .canExecute 1,
        .assignResources 1]).units.map Executable.assignedResources = [[0], [0]] ∧
    ((System.mk [.ConsumableResource "Memory" true 2 2]
        [⟨"P", "", ["Memory"], 1, []⟩, ⟨"T", "", ["Memory"], 1, []⟩]).after
      [.canExecute 0, .assignResources 0, .execute 0, .canExecute 1,
        .assignResources 1]).pool = [.ConsumableResource "Memory" false 2 0] ∧
    (Process.run ⟨"P", "", ["Memory"], 1, []⟩ [.ConsumableResource "Memory" true 2 2]
      [.Task ⟨"T", "", ["Memory"], 1, []⟩]).log =
      [.executingProcess "P" "" 1, .usingConsumable "Memory" 1 2,
        .indent, .executingTask "T" "" 1, .usingConsumable "Memory" 0 2,
        .depletedWarning "Memory", .depletedWarning "Memory", .processCompleted "P"] ∧
    (Process.run ⟨"P", "", ["Memory"], 1, []⟩ [.ConsumableResource "Memory" true 2 2]
      [.Task ⟨"T", "", ["Memory"], 1, []⟩]).self.resourcePool =
      ((System.mk [.ConsumableResource "Memory" true 2 2]
          [⟨"P", "", ["Memory"], 1, []⟩, ⟨"T", "", ["Memory"], 1, []⟩]).after
        [.canExecute 0, .assignResources 0, .execute 0, .canExecute 1, .assignResources 1,
          .execute 1, .releaseResources 1, .releaseResources 0]).pool := by
  decide

/-! ## The protocol of one Executable: rejected run, release, execute, empty requirements -/

theorem Resource.releaseTimes_usable_available (n : Nat) (r : Resource)
    (hu : r.isUsable = true) (hn : 0 < n) :
    (Resource.releaseTimes n r).isAvailableForUse = true := by
  induction n generalizing r with
  | zero => omega
  | succ n ih =>
    cases r with
    | ConsumableResource nm f t rem => cases hu
    | UsableResource nm f c =>
      simp only [Resource.releaseTimes, Resource.release]
      cases n with
      | zero => rfl
      | succ m => exact ih _ rfl (by omega)

theorem Resource.releaseTimes_getName (n : Nat) :
    ∀ r : Resource, (Resource.releaseTimes n r).getName = r.getName := by
  induction n with
  | zero => intro r; rfl
  | succ n ih =>
    intro r
    rw [Resource.releaseTimes, ih, Resource.release_getName]

theorem Executable.releaseLoop_eq_foldl (name : String) (assigned : List Nat) :
    ∀ pool : List Resource,
      (Executable.releaseLoop name assigned pool).pool =
        assigned.foldl (fun p i => (releaseAt name i p).pool) pool := by
  induction assigned with
  | nil => intro pool; rfl
  | cons i rest ih =>
    intro pool
    simp only [Executable.releaseLoop, List.foldl_cons]
    exact ih _

theorem releaseAt_eq_of_get (name : String) (i : Nat) (pool : List Resource) (r : Resource)
    (h : pool[i]? = some r) :
    releaseAt name i pool = ⟨pool.set i r.release.resource, r.release.log, none⟩ := by
  unfold releaseAt
  rw [h]
  cases r <;> simp [Resource.release]

theorem Executable.releaseLoop_eq_foldl_log (name : String) (assigned : List Nat) :
    ∀ (pool : List Resource) (written : List Event),
      assigned.foldl
          (fun s i => ((releaseAt name i s.1).pool, s.2 ++ (releaseAt name i s.1).log))
          (pool, written) =
        ((Executable.releaseLoop name assigned pool).pool,
          written ++ (Executable.releaseLoop name assigned pool).log) := by
  induction assigned with
  | nil => intro pool written; simp [Executable.releaseLoop]
  | cons i rest ih =>
    intro pool written
    simp only [Executable.releaseLoop, List.foldl_cons]
    rw [ih, List.append_assoc]

theorem Executable.releaseLoop_log_nodup (name : String) (assigned : List Nat) :
    ∀ pool : List Resource, assigned.Nodup →
      (Executable.releaseLoop name assigned pool).log =
        (assigned.map (fun i => ((pool[i]?).map (fun r => r.release.log)).getD [])).flatten := by
  induction assigned with
  | nil => intro pool _; rfl
  | cons i rest ih =>
    intro pool hnd
    rw [List.nodup_cons] at hnd
    simp only [Executable.releaseLoop, List.map_cons, List.flatten_cons]
    rw [ih _ hnd.2]
    congr 1
    · unfold releaseAt
      cases hi : pool[i]? with
      | none => rfl
      | some r => cases r <;> simp [Resource.release]
    · congr 1
      apply List.map_congr_left
      intro j hj
      have hji : j ≠ i := fun h => hnd.1 (h ▸ hj)
      rw [releaseAt_getElem?]
      cases pool[j]? with
      | none => rfl
      | some r => simp [hji]

/-- C11. A rejected run does no work.  If the orchestrator requires something and
canExecute on its own pool is false, run returns the Process exactly as it was (the pool,
the orchestrator's base part with its assigned list, and every sub-unit) and writes one
line only, its own failure notice: no sub-unit was checked, assigned or executed. -/
theorem rejected_run_does_no_work (self : Executable) (pool : List Resource)
    (tasks : List Exec)
    (hne : self.requiredResourcesNames ≠ [])
    (hc : (self.canExecute pool).result = false) :
    (Process.run self pool tasks).self = .Process self pool tasks ∧
    (Process.run self pool tasks).self.resourcePool = pool ∧
    (Process.run self pool tasks).self.base.assignedResources = self.assignedResources ∧
    (Process.run self pool tasks).self.tasks = tasks ∧
    (Process.run self pool tasks).log =
      [.errorInProcess self.name (.insufficientResources self.name)] ∧
    (Process.run self pool tasks).log.filter Event.isTaskNotice = [] ∧
    (Process.run self pool tasks).error = none := by
  have hne' : self.requiredResourcesNames.isEmpty = false := by
    cases h : self.requiredResourcesNames with
    | nil => exact absurd h hne
    | cons a l => rfl
  rw [Process.run_rejected self pool tasks hne' hc]
  exact ⟨rfl, rfl, rfl, rfl, rfl, rfl, rfl⟩

/-- Witness for C11: the orchestrator requires "GPU", the pool has only a "CPU". -/
theorem rejected_run_does_no_work_witness :
    (Process.run ⟨"P", "", ["GPU"], 1, []⟩ [.UsableResource "CPU" true 3]
      [.Task ⟨"t1", "", ["CPU"], 1, []⟩]).self =
        .Process ⟨"P", "", ["GPU"], 1, []⟩ [.UsableResource "CPU" true 3]
          [.Task ⟨"t1", "", ["CPU"], 1, []⟩] ∧
    (Process.run ⟨"P", "", ["GPU"], 1, []⟩ [.UsableResource "CPU" true 3]
      [.Task ⟨"t1", "", ["CPU"], 1, []⟩]).log =
        [.errorInProcess "P" (.insufficientResources "P")] := by
  obtain ⟨hself, _, _, _, hlog, _, _⟩ :=
    rejected_run_does_no_work ⟨"P", "", ["GPU"], 1, []⟩ [.UsableResource "CPU" true 3]
      [.Task ⟨"t1", "", ["CPU"], 1, []⟩] (by decide) (by decide)
  exact ⟨hself, hlog⟩

/-- C12. releaseResources never throws and leaves the assigned list empty.  It calls
release exactly once for each entry of the assigned list, in list order: pool and output
are those obtained by going through the list from its head, each step replacing the entry
pointed to by its release and appending what that one release writes, nothing else.  So
each pool entry has been released as many times as it occurs in the list, and when no
entry occurs twice the output is what release writes for each listed entry in its initial
state, in list order.  Every UsableResource that was in the list is available afterwards.
On an empty assigned list the call changes nothing and writes nothing.  Example: with the
list [1, 0, 2] on the pool [A free, B free, C held] the output is the warning for B, then
the warning for A, and none for C. -/
theorem releaseResources_releases_each_entry_once (self : Executable)
    (pool : List Resource) :
    (self.releaseResources pool).error = none ∧
    (self.releaseResources pool).self = { self with assignedResources := [] } ∧
    (self.releaseResources pool).self.assignedResources = [] ∧
    (self.releaseResources pool).pool =
      self.assignedResources.foldl (fun p i => (releaseAt self.name i p).pool) pool ∧
    (∀ (i : Nat) (p : List Resource),
      (releaseAt self.name i p).error = none ∧
      ∀ j, (releaseAt self.name i p).pool[j]? =
        (p[j]?).map (fun r => if j = i then r.release.resource else r)) ∧
    (∀ j, (self.releaseResources pool).pool[j]? =
      (pool[j]?).map (Resource.releaseTimes (self.assignedResources.count j))) ∧
    (∀ j r, j ∈ self.assignedResources → pool[j]? = some r → r.isUsable = true →
      ∃ r', (self.releaseResources pool).pool[j]? = some r' ∧
        r'.isAvailableForUse = true ∧ r'.getName = r.getName) ∧
    (∀ (name description : String) (required : List String) (duration : Int),
      Executable.releaseResources ⟨name, description, required, duration, []⟩ pool =
        ⟨⟨name, description, required, duration, []⟩, pool, [], none⟩) ∧
    (∀ (i : Nat) (p : List Resource) (r : Resource), p[i]? = some r →
      releaseAt self.name i p = ⟨p.set i r.release.resource, r.release.log, none⟩) ∧
    ((self.releaseResources pool).pool, (self.releaseResources pool).log) =
      self.assignedResources.foldl
        (fun s i => ((releaseAt self.name i s.1).pool, s.2 ++ (releaseAt self.name i s.1).log))
        (pool, []) ∧
    (self.assignedResources.Nodup →
      (self.releaseResources pool).log =
        (self.assignedResources.map
          (fun i => ((pool[i]?).map (fun r => r.release.log)).getD [])).flatten) ∧
    Executable.releaseResources ⟨"E", "", ["B", "A", "C"], 1, [1, 0, 2]⟩
        [.UsableResource "A" true 1, .UsableResource "B" true 2, .UsableResource "C" false 3] =
      ⟨⟨"E", "", ["B", "A", "C"], 1, []⟩,
        [.UsableResource "A" true 1, .UsableResource "B" true 2, .UsableResource "C" true 3],
        [.alreadyFreeWarning "B", .alreadyFreeWarning "A"], none⟩ := by
  refine ⟨rfl, rfl, rfl, Executable.releaseLoop_eq_foldl _ _ _, ?_,
    Executable.releaseLoop_getElem? _ _ _, ?_, ?_,
    fun i p r h => releaseAt_eq_of_get self.name i p r h, ?_,
    fun hnd => Executable.releaseLoop_log_nodup self.name self.assignedResources pool hnd,
    rfl⟩
  · intro i p
    refine ⟨?_, releaseAt_getElem? _ i p⟩
    unfold releaseAt
    cases p[i]? <;> rfl
  · intro j r hj hr hu
    refine ⟨Resource.releaseTimes (self.assignedResources.count j) r, ?_, ?_, ?_⟩
    · simp only [Executable.releaseResources]
      rw [Executable.releaseLoop_getElem?, hr]
      rfl
    · exact Resource.releaseTimes_usable_available _ r hu (List.count_pos_iff.2 hj)
    · exact Resource.releaseTimes_getName _ r
  · intro name description required duration
    rfl
  · rw [Executable.releaseLoop_eq_foldl_log]
    rfl

/-- C13. Task::execute throws (resources not properly assigned) exactly when the number
of assigned resources differs from the number of required names; when it does not throw
it writes its header and then the line of use for each assigned resource, in assignment
order; either way the Executable, its assigned list and the pool are as before.
Process::execute makes the same check, except that it makes none when the Process
requires nothing. -/
theorem execute_checks_assignment_count (self : Executable) (held : List Resource) :
    ((Task.execute self held).error = some (.taskNotAssigned self.name) ↔
      self.assignedResources.length ≠ self.requiredResourcesNames.length) ∧
    ((Task.execute self held).error = none ↔
      self.assignedResources.length = self.requiredResourcesNames.length) ∧
    (self.assignedResources.length = self.requiredResourcesNames.length →
      (Task.execute self held).log =
        .executingTask self.name self.description self.durationInUnits ::
          self.assignedResources.filterMap (fun i => (held[i]?).map Resource.use)) ∧
    (Task.execute self held).self = self ∧
    (Task.execute self held).self.assignedResources = self.assignedResources ∧
    (Task.execute self held).pool = held ∧
    (∀ (b : Executable) (rp : List Resource) (ts : List Exec),
      ((Exec.execute (.Process b rp ts) self held).error =
          some (.processNotAssigned self.name) ↔
        (self.requiredResourcesNames ≠ [] ∧
          self.assignedResources.length ≠ self.requiredResourcesNames.length)) ∧
      ((Exec.execute (.Process b rp ts) self held).error = none ↔
        (self.requiredResourcesNames = [] ∨
          self.assignedResources.length = self.requiredResourcesNames.length)) ∧
      (Exec.execute (.Process b rp ts) self held).held = held ∧
      (Exec.execute (.Process b rp ts) self held).self.base = self) := by
  refine ⟨?_, ?_, ?_, (Task.execute_leaves_state self held).1, ?_,
    (Task.execute_leaves_state self held).2, ?_⟩
  · by_cases h : self.assignedResources.length = self.requiredResourcesNames.length <;>
      simp [Task.execute, h]
  · by_cases h : self.assignedResources.length = self.requiredResourcesNames.length <;>
      simp [Task.execute, h]
  · intro h
    simp [Task.execute, h, useAll]
  · rw [(Task.execute_leaves_state self held).1]
  · intro b rp ts
    have hframe := Exec.execute_frame (.Process b rp ts) self held
    refine ⟨?_, ?_, hframe.1, hframe.2⟩
    · cases hreq : self.requiredResourcesNames with
      | nil => simp [Exec.execute, hreq]
      | cons n rest =>
        by_cases h : self.assignedResources.length = rest.length + 1 <;>
          simp [Exec.execute, hreq, h]
    · cases hreq : self.requiredResourcesNames with
      | nil => simp [Exec.execute, hreq]
      | cons n rest =>
        by_cases h : self.assignedResources.length = rest.length + 1 <;>
          simp [Exec.execute, hreq, h]

/-- C14. The empty-requirement round trip.  For a Task that requires nothing, whatever
its assigned list holds beforehand and whatever the pool (the empty pool included):
canExecute returns true and changes nothing; assignResources does not throw, leaves the
pool as it was and the assigned list empty; and execute, called next, does not throw and
writes its header only, there being no assigned resource to use. -/
theorem empty_requirement_round_trip (name description : String) (duration : Int)
    (assigned : List Nat) (pool : List Resource) :
    (Executable.canExecute ⟨name, description, [], duration, assigned⟩ pool).result = true ∧
    (Executable.canExecute ⟨name, description, [], duration, assigned⟩ pool).pool = pool ∧
    (Executable.assignResources ⟨name, description, [], duration, assigned⟩ pool).error
      = none ∧
    (Executable.assignResources ⟨name, description, [], duration, assigned⟩ pool).pool
      = pool ∧
    (Executable.assignResources ⟨name, description, [], duration, assigned⟩ pool).self =
      ⟨name, description, [], duration, []⟩ ∧
    Exec.execute (.Task ⟨name, description, [], duration, assigned⟩)
        (Executable.assignResources ⟨name, description, [], duration, assigned⟩ pool).self
        (Executable.assignResources ⟨name, description, [], duration, assigned⟩ pool).pool =
      ⟨.Task ⟨name, description, [], duration, []⟩, pool,
        [.executingTask name description duration], none⟩ ∧
    (Executable.canExecute ⟨name, description, [], duration, assigned⟩ []).result = true ∧
    (Executable.assignResources ⟨name, description, [], duration, assigned⟩ []).error
      = none ∧
    Process.visit (Exec.execute (.Task ⟨name, description, [], duration, assigned⟩))
        (.Task ⟨name, description, [], duration, assigned⟩) pool =
      ⟨.Task ⟨name, description, [], duration, []⟩, pool,
        [.noResourcesRequired name, .indent, .executingTask name description duration]⟩ := by
  simp [Executable.canExecute, Executable.assignResources, Exec.execute, Task.execute, useAll,
    Process.visit, Exec.base, Exec.setBase, Executable.releaseResources,
    Executable.releaseLoop]

/-! ## Construction and the invariants of one resource and of one Executable -/

theorem Resource.afterCalls_snoc (r : Resource) (calls : List ResourceCall)
    (call : ResourceCall) :
    r.afterCalls (calls ++ [call]) = (r.afterCalls calls).call call := by
  simp [Resource.afterCalls, List.foldl_append]

theorem Resource.call_consumable (name : String) (flag : Bool) (total rem : Int)
    (call : ResourceCall) (h0 : 0 ≤ rem) :
    ∃ flag' rem', Resource.call (.ConsumableResource name flag total rem) call =
        .ConsumableResource name flag' total rem' ∧ 0 ≤ rem' ∧ rem' ≤ rem ∧
      (rem' = rem ∨ rem' = rem - 1) := by
  cases call with
  | allocate =>
    by_cases h : rem ≤ 0
    · exact ⟨flag, rem, by simp [Resource.call, Resource.allocate, h], h0, le_refl _, Or.inl rfl⟩
    · exact ⟨decide (rem - 1 > 0), rem - 1, by simp [Resource.call, Resource.allocate, h],
        by omega, by omega, Or.inr rfl⟩
  | release =>
    exact ⟨decide (rem > 0), rem, by simp [Resource.call, Resource.release], h0, le_refl _,
      Or.inl rfl⟩
  | use => exact ⟨flag, rem, rfl, h0, le_refl _, Or.inl rfl⟩

theorem Resource.afterCalls_consumable (name : String) (total : Int)
    (calls : List ResourceCall) :
    ∀ (flag : Bool) (rem : Int), 0 ≤ rem →
      ∃ flag' rem', Resource.afterCalls (.ConsumableResource name flag total rem) calls =
        .ConsumableResource name flag' total rem' ∧ 0 ≤ rem' ∧ rem' ≤ rem := by
  induction calls with
  | nil => intro flag rem h0; exact ⟨flag, rem, rfl, h0, le_refl _⟩
  | cons call rest ih =>
    intro flag rem h0
    obtain ⟨f1, r1, h1, h10, h1le, _⟩ := Resource.call_consumable name flag total rem call h0
    obtain ⟨f2, r2, h2, h20, h2le⟩ := ih f1 r1 h10
    refine ⟨f2, r2, ?_, h20, by omega⟩
    simp only [Resource.afterCalls, List.foldl_cons] at h2 ⊢
    rw [h1]
    exact h2

/-- C16. The invariant of a ConsumableResource.  Construct one with capacity C >= 1 and
make any sequence of calls of allocate (which may throw), release and use.  In the state
reached the remaining capacity is between 0 and C, isAvailableForUse is true exactly when
the remaining capacity is greater than 0, and whatever call comes next, the remaining
capacity after it is the same or one less, never more. -/
theorem consumable_capacity_stays_in_range (name : String) (flag : Bool) (C : Int)
    (r0 : Resource) (calls : List ResourceCall)
    (hC : 1 ≤ C)
    (hnew : ConsumableResource.new name C flag = .ok r0) :
    r0.getRemainingCapacity = C ∧
    0 ≤ (r0.afterCalls calls).getRemainingCapacity ∧
    (r0.afterCalls calls).getRemainingCapacity ≤ C ∧
    ((r0.afterCalls calls).isAvailableForUse = true ↔
      0 < (r0.afterCalls calls).getRemainingCapacity) ∧
    (r0.afterCalls calls).isUsable = false ∧
    (∀ call : ResourceCall,
      (r0.afterCalls (calls ++ [call])).getRemainingCapacity ≤
        (r0.afterCalls calls).getRemainingCapacity ∧
      ((r0.afterCalls (calls ++ [call])).getRemainingCapacity =
          (r0.afterCalls calls).getRemainingCapacity ∨
        (r0.afterCalls (calls ++ [call])).getRemainingCapacity =
          (r0.afterCalls calls).getRemainingCapacity - 1)) := by
  have hpos : ¬ C ≤ 0 := by omega
  simp only [ConsumableResource.new, hpos, if_false, Except.ok.injEq] at hnew
  subst hnew
  obtain ⟨f', rem', hr, h0, hle⟩ :=
    Resource.afterCalls_consumable name C calls flag C (by omega)
  refine ⟨rfl, ?_, ?_, ?_, ?_, ?_⟩
  · rw [hr]; exact h0
  · rw [hr]; exact hle
  · rw [hr]; simp [Resource.isAvailableForUse, Resource.getRemainingCapacity]
  · rw [hr]; rfl
  · intro call
    rw [Resource.afterCalls_snoc, hr]
    obtain ⟨f2, r2, h2, _, h2le, h2eq⟩ := Resource.call_consumable name f' C rem' call h0
    rw [h2]
    exact ⟨h2le, h2eq⟩

/-- Witness for C16: capacity 2 and the calls allocate, release, allocate, allocate. -/
theorem consumable_capacity_stays_in_range_witness :
    ConsumableResource.new "Memory" 2 true = .ok (.ConsumableResource "Memory" true 2 2) ∧
    (Resource.afterCalls (.ConsumableResource "Memory" true 2 2)
      [.allocate, .release, .allocate, .allocate]).getRemainingCapacity = 0 ∧
    0 ≤ (Resource.afterCalls (.ConsumableResource "Memory" true 2 2)
      [.allocate, .release, .allocate, .allocate]).getRemainingCapacity ∧
    (Resource.afterCalls (.ConsumableResource "Memory" true 2 2)
      [.allocate, .release, .allocate, .allocate]).getRemainingCapacity ≤ 2 :=
  ⟨rfl, by decide,
    (consumable_capacity_stays_in_range "Memory" true 2 (.ConsumableResource "Memory" true 2 2)
      [.allocate, .release, .allocate, .allocate] (by decide) rfl).2.1,
    (consumable_capacity_stays_in_range "Memory" true 2 (.ConsumableResource "Memory" true 2 2)
      [.allocate, .release, .allocate, .allocate] (by decide) rfl).2.2.1⟩

/-- C17. Construction validation.  Constructing an Executable, a Task or a Process throws
exactly when the name is empty or the duration is not positive, and otherwise gives the
object with the fields passed in and an empty assigned list (a Process also with an empty
pool and no sub-units).  Constructing a ConsumableResource or a UsableResource throws
exactly when the capacity is not positive; a ConsumableResource that is constructed has
remaining capacity equal to its capacity.  (`flag` is what the base constructor of
Resource gives to isAvailable; that constructor is taken not to throw.) -/
theorem construction_fails_iff_arguments_invalid (name description : String)
    (required : List String) (duration : Int) (capacity : Int) (flag : Bool) :
    ((∃ e, Executable.new name description required duration = .error e) ↔
      (name = "" ∨ duration ≤ 0)) ∧
    ((∃ e, Task.new name description required duration = .error e) ↔
      (name = "" ∨ duration ≤ 0)) ∧
    ((∃ e, Process.new name description required duration = .error e) ↔
      (name = "" ∨ duration ≤ 0)) ∧
    (¬ (name = "" ∨ duration ≤ 0) →
      Executable.new name description required duration =
        .ok ⟨name, description, required, duration, []⟩ ∧
      Task.new name description required duration =
        .ok (.Task ⟨name, description, required, duration, []⟩) ∧
      Process.new name description required duration =
        .ok (.Process ⟨name, description, required, duration, []⟩ [] [])) ∧
    (∀ b, Executable.new name description required duration = .ok b →
      b.assignedResources = []) ∧
    ((∃ e, ConsumableResource.new name capacity flag = .error e) ↔ capacity ≤ 0) ∧
    ((∃ e, UsableResource.new name capacity flag = .error e) ↔ capacity ≤ 0) ∧
    (¬ capacity ≤ 0 →
      ConsumableResource.new name capacity flag =
        .ok (.ConsumableResource name flag capacity capacity) ∧
      UsableResource.new name capacity flag = .ok (.UsableResource name flag capacity)) ∧
    (∀ r, ConsumableResource.new name capacity flag = .ok r →
      r.getRemainingCapacity = capacity ∧ r.getName = name) := by
  by_cases hn : name = ""
  · by_cases hc : capacity ≤ 0 <;>
      simp [Executable.new, Task.new, Process.new, ConsumableResource.new, UsableResource.new,
        hn, hc, Resource.getRemainingCapacity, Resource.getName]
  · by_cases hd : duration ≤ 0
    · by_cases hc : capacity ≤ 0 <;>
        simp [Executable.new, Task.new, Process.new, ConsumableResource.new,
          UsableResource.new, hn, hd, hc, Resource.getRemainingCapacity, Resource.getName]
    · by_cases hc : capacity ≤ 0 <;>
        simp [Executable.new, Task.new, Process.new, ConsumableResource.new,
          UsableResource.new, hn, hd, hc, Resource.getRemainingCapacity, Resource.getName]

theorem Process.run_base (self : Executable) (pool : List Resource) (tasks : List Exec) :
    ((self.requiredResourcesNames.isEmpty = false ∧ (self.canExecute pool).result = false) →
      (Process.run self pool tasks).self.base = self) ∧
    (¬ (self.requiredResourcesNames.isEmpty = false ∧ (self.canExecute pool).result = false) →
      (Process.run self pool tasks).self.base = { self with assignedResources := [] }) := by
  constructor
  · rintro ⟨hne, hc⟩
    rw [Process.run_rejected self pool tasks hne hc]
    rfl
  · intro hnot
    by_cases hstart : self.requiredResourcesNames.isEmpty = true ∨
        (self.requiredResourcesNames.isEmpty = false ∧ (self.canExecute pool).result = true ∧
          (self.assignResources pool).error = none)
    · obtain ⟨base, pool0, _, hA, hB, hrun⟩ := Process.run_started self pool tasks hstart
      rw [hrun]
      simp only [Exec.base]
      by_cases he : self.requiredResourcesNames.isEmpty = true
      · rw [(hA he).1]
      · rw [(hB (by simpa using he)).1, Executable.assignResources_self self pool]
    · have hne : self.requiredResourcesNames.isEmpty = false := by
        cases hb : self.requiredResourcesNames.isEmpty with
        | true => exact absurd (Or.inl hb) hstart
        | false => rfl
      cases hc : (self.canExecute pool).result with
      | false => exact absurd ⟨hne, hc⟩ hnot
      | true =>
        cases ha : (self.assignResources pool).error with
        | none => exact absurd (Or.inr ⟨hne, hc, ha⟩) hstart
        | some e =>
          rw [Process.run_assign_failed self pool tasks e hne hc ha]
          obtain ⟨_, _, _, _, _, _, _, _, hself, _, _⟩ :=
            Executable.assignResources_error self pool e ha
          simp only [Exec.base]
          rw [hself]

theorem Executable.afterCalls_append (e : Executable) (calls : List ExecCall) (c : ExecCall) :
    e.afterCalls (calls ++ [c]) = (e.afterCalls calls).call c := by
  simp [Executable.afterCalls, List.foldl_append]

theorem Executable.call_eq (e : Executable) (c : ExecCall) :
    e.call c = { e with assignedResources := (e.call c).assignedResources } := by
  cases c with
  | assignResources pool =>
    simp only [Executable.call]
    exact Executable.assignResources_self e pool
  | releaseResources pool => rfl
  | execute object held =>
    simp only [Executable.call, (Exec.execute_frame object e held).2]
  | run resourcePool tasks =>
    simp only [Executable.call]
    by_cases h : e.requiredResourcesNames.isEmpty = false ∧
        (e.canExecute resourcePool).result = false
    · rw [(Process.run_base e resourcePool tasks).1 h]
    · rw [(Process.run_base e resourcePool tasks).2 h]

theorem Executable.afterCalls_eq (e : Executable) (calls : List ExecCall) :
    e.afterCalls calls =
      { e with assignedResources := (e.afterCalls calls).assignedResources } := by
  induction calls using List.reverseRecOn with
  | nil => rfl
  | append_singleton l c ih =>
    rw [Executable.afterCalls_append, Executable.call_eq (e.afterCalls l) c]
    simp only
    rw [ih]

/-- The assigned list of an Executable that starts with nothing assigned, after any
sequence of calls: empty, or as long as the required names and then the product of a
successful assignResources after which only calls that keep the assignment were made. -/
theorem Executable.afterCalls_assigned (e : Executable) (he : e.assignedResources = [])
    (calls : List ExecCall) :
    (e.afterCalls calls).assignedResources = [] ∨
    ((e.afterCalls calls).assignedResources.length = e.requiredResourcesNames.length ∧
      ∃ (pre : List ExecCall) (pool : List Resource) (post : List ExecCall),
        calls = pre ++ .assignResources pool :: post ∧
        ((e.afterCalls pre).assignResources pool).error = none ∧
        e.afterCalls calls = ((e.afterCalls pre).assignResources pool).self ∧
        ∀ c ∈ post, c.keepsAssignment (e.afterCalls calls) = true) := by
  induction calls using List.reverseRecOn with
  | nil => exact Or.inl he
  | append_singleton l c ih =>
    have hreq : (e.afterCalls l).requiredResourcesNames = e.requiredResourcesNames := by
      rw [Executable.afterCalls_eq e l]
    have hkeep : e.afterCalls (l ++ [c]) = e.afterCalls l →
        c.keepsAssignment (e.afterCalls l) = true →
        ((e.afterCalls (l ++ [c])).assignedResources = [] ∨
        ((e.afterCalls (l ++ [c])).assignedResources.length =
            e.requiredResourcesNames.length ∧
          ∃ (pre : List ExecCall) (pool : List Resource) (post : List ExecCall),
            l ++ [c] = pre ++ .assignResources pool :: post ∧
            ((e.afterCalls pre).assignResources pool).error = none ∧
            e.afterCalls (l ++ [c]) = ((e.afterCalls pre).assignResources pool).self ∧
            ∀ c' ∈ post, c'.keepsAssignment (e.afterCalls (l ++ [c])) = true)) := by
      intro hsame hk
      rw [hsame]
      rcases ih with h | ⟨hlen, pre, pool, post, hl, herr, hst, hpost⟩
      · exact Or.inl h
      · refine Or.inr ⟨hlen, pre, pool, post ++ [c], by simp [hl], herr, hst, ?_⟩
        intro c' hc'
        rcases List.mem_append.1 hc' with h | h
        · exact hpost c' h
        · rw [List.mem_singleton] at h
          subst h
          exact hk
    cases c with
    | assignResources pool =>
      cases herr : ((e.afterCalls l).assignResources pool).error with
      | none =>
        obtain ⟨chosen, hself, hlen, _⟩ :=
          Executable.assignResources_ok (e.afterCalls l) pool herr
        by_cases hnil : chosen = []
        · left
          rw [Executable.afterCalls_append]
          simp only [Executable.call, hself, hnil]
        · right
          refine ⟨?_, l, pool, [], rfl, herr, ?_, by simp⟩
          · rw [Executable.afterCalls_append]
            simp only [Executable.call, hself]
            rw [hlen, hreq]
          · rw [Executable.afterCalls_append]
            rfl
      | some err =>
        left
        obtain ⟨_, _, _, _, _, _, _, _, hself, _, _⟩ :=
          Executable.assignResources_error (e.afterCalls l) pool err herr
        rw [Executable.afterCalls_append]
        simp only [Executable.call, hself]
    | releaseResources pool =>
      left
      rw [Executable.afterCalls_append]
      rfl
    | execute object held =>
      apply hkeep
      · rw [Executable.afterCalls_append]
        exact (Exec.execute_frame object (e.afterCalls l) held).2
      · rfl
    | run resourcePool tasks =>
      by_cases h : (e.afterCalls l).requiredResourcesNames.isEmpty = false ∧
          ((e.afterCalls l).canExecute resourcePool).result = false
      · apply hkeep
        · rw [Executable.afterCalls_append]
          exact (Process.run_base (e.afterCalls l) resourcePool tasks).1 h
        · simp [ExecCall.keepsAssignment, h.1, h.2]
      · left
        rw [Executable.afterCalls_append]
        simp only [Executable.call, (Process.run_base (e.afterCalls l) resourcePool tasks).2 h]

/-- C15. The assignment-length invariant.  Take a freshly constructed Executable and make
on it any sequence of calls of assignResources (which may fail), releaseResources, execute
and run, with whatever pools.  Its assigned list is then empty or exactly as long as its
list of required names.  When it is not empty, it is the list a successful
assignResources earlier in the sequence produced, and every call made after that one was
an execute or a rejected run, neither of which calls assignResources or
releaseResources. -/
theorem assigned_list_is_empty_or_matches_required (name description : String)
    (required : List String) (duration : Int) (e : Executable) (calls : List ExecCall)
    (hnew : Executable.new name description required duration = .ok e) :
    e.assignedResources = [] ∧
    (e.afterCalls calls).requiredResourcesNames = required ∧
    ((e.afterCalls calls).assignedResources = [] ∨
      (e.afterCalls calls).assignedResources.length = required.length) ∧
    ((e.afterCalls calls).assignedResources ≠ [] →
      ∃ (pre : List ExecCall) (pool : List Resource) (post : List ExecCall),
        calls = pre ++ .assignResources pool :: post ∧
        ((e.afterCalls pre).assignResources pool).error = none ∧
        e.afterCalls calls = ((e.afterCalls pre).assignResources pool).self ∧
        ∀ c ∈ post, c.keepsAssignment (e.afterCalls calls) = true) := by
  have he : e = ⟨name, description, required, duration, []⟩ := by
    unfold Executable.new at hnew
    split at hnew
    · cases hnew
    · split at hnew
      · cases hnew
      · simp only [Except.ok.injEq] at hnew
        exact hnew.symm
  have hfresh : e.assignedResources = [] := by rw [he]
  have hreq0 : e.requiredResourcesNames = required := by rw [he]
  have hreq : (e.afterCalls calls).requiredResourcesNames = required := by
    rw [Executable.afterCalls_eq e calls]
    exact hreq0
  refine ⟨hfresh, hreq, ?_, ?_⟩
  · rcases Executable.afterCalls_assigned e hfresh calls with h | ⟨hlen, _⟩
    · exact Or.inl h
    · exact Or.inr (by rw [hlen, hreq0])
  · intro hne
    rcases Executable.afterCalls_assigned e hfresh calls with h | ⟨_, hex⟩
    · exact absurd h hne
    · exact hex

/-- Witness for C15: a Process requiring "CPU" is assigned it, executed, run while its own
pool has no "CPU" (rejected), and still holds the one resource; after releaseResources it
holds none. -/
theorem assigned_list_is_empty_or_matches_required_witness :
    Executable.new "P" "" ["CPU"] 1 = .ok ⟨"P", "", ["CPU"], 1, []⟩ ∧
    (Executable.afterCalls ⟨"P", "", ["CPU"], 1, []⟩
      [.assignResources [.UsableResource "CPU" true 3],
        .execute (.Process ⟨"P", "", ["CPU"], 1, []⟩ [] []) [.UsableResource "CPU" false 3],
        .run [] []]).assignedResources = [0] ∧
    (Executable.afterCalls ⟨"P", "", ["CPU"], 1, []⟩
      [.assignResources [.UsableResource "CPU" true 3],
        .execute (.Process ⟨"P", "", ["CPU"], 1, []⟩ [] []) [.UsableResource "CPU" false 3],
        .run [] [],
        .releaseResources [.UsableResource "CPU" false 3]]).assignedResources = [] ∧
    ((Executable.afterCalls ⟨"P", "", ["CPU"], 1, []⟩
      [.assignResources [.UsableResource "CPU" true 3],
        .execute (.Process ⟨"P", "", ["CPU"], 1, []⟩ [] []) [.UsableResource "CPU" false 3],
        .run [] []]).assignedResources = [] ∨
      (Executable.afterCalls ⟨"P", "", ["CPU"], 1, []⟩
        [.assignResources [.UsableResource "CPU" true 3],
          .execute (.Process ⟨"P", "", ["CPU"], 1, []⟩ [] []) [.UsableResource "CPU" false 3],
          .run [] []]).assignedResources.length = (["CPU"] : List String).length) :=
  ⟨rfl, by decide, by decide,
    (assigned_list_is_empty_or_matches_required "P" "" ["CPU"] 1 ⟨"P", "", ["CPU"], 1, []⟩
      [.assignResources [.UsableResource "CPU" true 3],
        .execute (.Process ⟨"P", "", ["CPU"], 1, []⟩ [] []) [.UsableResource "CPU" false 3],
        .run [] []] rfl).2.2.1⟩

/-! ## Further properties of assignResources -/

theorem allocateAt_length (i : Nat) (pool : List Resource) :
    (allocateAt i pool).pool.length = pool.length := by
  unfold allocateAt
  cases pool[i]? <;> simp

theorem releaseAt_length (name : String) (i : Nat) (pool : List Resource) :
    (releaseAt name i pool).pool.length = pool.length := by
  unfold releaseAt
  cases pool[i]? <;> simp

theorem Executable.releaseLoop_length (name : String) (assigned : List Nat) :
    ∀ pool : List Resource,
      (Executable.releaseLoop name assigned pool).pool.length = pool.length := by
  induction assigned with
  | nil => intro pool; rfl
  | cons i rest ih =>
    intro pool
    simp only [Executable.releaseLoop]
    rw [ih, releaseAt_length]

theorem Executable.assignLoop_length (names : List String) :
    ∀ (self : Executable) (pool : List Resource),
      (Executable.assignLoop names self pool).pool.length = pool.length := by
  induction names with
  | nil => intro self pool; rfl
  | cons n rest ih =>
    intro self pool
    cases hf : findAvailable n pool with
    | none =>
      rw [Executable.assignLoop_cons_missing n rest self pool hf]
      exact Executable.releaseLoop_length _ _ _
    | some i =>
      rw [Executable.assignLoop_cons_found n rest self pool i hf, ih, allocateAt_length]

/-- The loop of assignResources leaves alone every pool entry whose name is not among the
names it serves, provided the Executable does not hold that entry already. -/
theorem Executable.assignLoop_frame (names : List String) :
    ∀ (self : Executable) (pool : List Resource) (j : Nat) (r : Resource),
      pool[j]? = some r → r.getName ∉ names → j ∉ self.assignedResources →
      (Executable.assignLoop names self pool).pool[j]? = some r := by
  induction names with
  | nil => intro self pool j r hr _ _; exact hr
  | cons n rest ih =>
    intro self pool j r hr hname hj
    cases hf : findAvailable n pool with
    | none =>
      rw [Executable.assignLoop_cons_missing n rest self pool hf]
      simp only
      rw [Executable.releaseLoop_getElem?, hr, List.count_eq_zero.2 hj]
      rfl
    | some i =>
      rw [Executable.assignLoop_cons_found n rest self pool i hf]
      obtain ⟨r0, hr0, hn0, _, _⟩ := allocateAt_of_found n pool i hf
      have hji : j ≠ i := by
        intro h
        subst h
        rw [hr] at hr0
        simp only [Option.some.injEq] at hr0
        subst hr0
        exact hname (by simp [hn0])
      apply ih
      · rw [allocateAt_getElem?, hr]
        simp [hji]
      · exact fun h => hname (List.mem_cons_of_mem _ h)
      · simp only [List.mem_append, List.mem_singleton]
        rintro (h | h)
        · exact hj h
        · exact hji h

/-- The loop of assignResources succeeds when the names it serves are pairwise distinct
and each has an available entry in the pool. -/
theorem Executable.assignLoop_ok_of_available (names : List String) :
    ∀ (self : Executable) (pool : List Resource), names.Nodup →
      (∀ n ∈ names, ∃ (k : Nat) (r : Resource),
        pool[k]? = some r ∧ r.getName = n ∧ r.isAvailableForUse = true) →
      (Executable.assignLoop names self pool).error = none := by
  induction names with
  | nil => intro self pool _ _; rfl
  | cons n rest ih =>
    intro self pool hnd hav
    cases hf : findAvailable n pool with
    | none =>
      obtain ⟨k, r, hr, hn, ha⟩ := hav n (by simp)
      have := (findAvailable_eq_none_iff n pool).1 hf r (List.getElem?_mem hr)
      rw [(Resource.matchesAvailable_iff n r).2 ⟨hn, ha⟩] at this
      cases this
    | some i =>
      rw [Executable.assignLoop_cons_found n rest self pool i hf]
      obtain ⟨r0, hr0, hn0, _, _⟩ := allocateAt_of_found n pool i hf
      apply ih _ _ (List.nodup_cons.1 hnd).2
      intro n' hn'
      obtain ⟨k, r, hr, hn, ha⟩ := hav n' (List.mem_cons_of_mem _ hn')
      have hki : k ≠ i := by
        intro h
        subst h
        rw [hr] at hr0
        simp only [Option.some.injEq] at hr0
        subst hr0
        rw [hn0] at hn
        subst hn
        exact (List.nodup_cons.1 hnd).1 hn'
      refine ⟨k, r, ?_, hn, ha⟩
      rw [allocateAt_getElem?, hr]
      simp [hki]

theorem Executable.assignResources_ok_of_canExecute (self : Executable)
    (pool : List Resource) (hnd : self.requiredResourcesNames.Nodup)
    (hc : (self.canExecute pool).result = true) :
    (self.assignResources pool).error = none := by
  by_cases hempty : self.requiredResourcesNames.isEmpty = true
  · simp [Executable.assignResources, hempty]
  · simp only [Executable.assignResources, hempty]
    simp only [Executable.canExecute, hempty, Bool.false_eq_true, if_false] at hc
    apply Executable.assignLoop_ok_of_available _ _ _ hnd
    intro n hn
    obtain ⟨r, hr, hname, ha⟩ := (canExecuteLoop_iff _ _).1 hc n hn
    obtain ⟨k, hk⟩ := List.getElem?_of_mem hr
    exact ⟨k, r, hk, hname, ha⟩

/-- C18 (amended). Check implies assign when no name is required twice: if the required
names of an Executable are pairwise distinct and canExecute on a pool returns true, then
assignResources on the same pool state does not throw, and it assigns as many resources
as names are required. -/
theorem canExecute_implies_assign_for_distinct_names (self : Executable)
    (pool : List Resource)
    (hdistinct : self.requiredResourcesNames.Nodup)
    (hc : (self.canExecute pool).result = true) :
    (self.assignResources pool).error = none ∧
    (self.assignResources pool).self.assignedResources.length =
      self.requiredResourcesNames.length := by
  have hok := Executable.assignResources_ok_of_canExecute self pool hdistinct hc
  obtain ⟨chosen, hself, hlen, _⟩ := Executable.assignResources_ok self pool hok
  exact ⟨hok, by rw [hself]; exact hlen⟩

/-- Witness for C18 (amended): required ["CPU", "Memory"] on a pool holding one of each. -/
theorem canExecute_implies_assign_for_distinct_names_witness :
    (Executable.canExecute ⟨"E", "", ["CPU", "Memory"], 1, []⟩
      [.UsableResource "CPU" true 3, .ConsumableResource "Memory" true 2 2]).result = true ∧
    (Executable.assignResources ⟨"E", "", ["CPU", "Memory"], 1, []⟩
      [.UsableResource "CPU" true 3, .ConsumableResource "Memory" true 2 2]).error = none ∧
    (Executable.assignResources ⟨"E", "", ["CPU", "Memory"], 1, []⟩
      [.UsableResource "CPU" true 3,
        .ConsumableResource "Memory" true 2 2]).self.assignedResources.length =
      (["CPU", "Memory"] : List String).length :=
  ⟨by decide,
    canExecute_implies_assign_for_distinct_names ⟨"E", "", ["CPU", "Memory"], 1, []⟩
      [.UsableResource "CPU" true 3, .ConsumableResource "Memory" true 2 2]
      (by decide) (by decide)⟩

/-- C18 as stated fails for a name required twice: with required names ["CPU", "CPU"] and
a pool of one free UsableResource "CPU", canExecute returns true and assignResources,
called on the same pool state, throws for want of a second "CPU"; the pool is left as it
was and nothing stays assigned. -/
theorem canExecute_true_but_assign_fails_on_repeated_name :
    (Executable.canExecute ⟨"E", "", ["CPU", "CPU"], 1, []⟩
      [.UsableResource "CPU" true 3]).result = true ∧
    (Executable.assignResources ⟨"E", "", ["CPU", "CPU"], 1, []⟩
      [.UsableResource "CPU" true 3]).error = some (.resourceNotAvailable "CPU" "E") ∧
    (Executable.assignResources ⟨"E", "", ["CPU", "CPU"], 1, []⟩
      [.UsableResource "CPU" true 3]).pool = [.UsableResource "CPU" true 3] ∧
    (Executable.assignResources ⟨"E", "", ["CPU", "CPU"], 1, []⟩
      [.UsableResource "CPU" true 3]).self.assignedResources = [] := by
  decide

/-- C19. Inside assignResources the error branch of allocate is never taken.  The entry
the inner loop stops at is one whose isAvailableForUse is true; allocate on a resource
whose isAvailableForUse is true does not throw, for both kinds; so the call of allocate
made by the loop does not throw.  The only exception assignResources can end with is
"resource not available", for one of the required names. -/
theorem assign_never_takes_allocate_error_branch (self : Executable) (pool : List Resource) :
    (∀ r : Resource, r.isAvailableForUse = true → r.allocate.error = none) ∧
    (∀ (name : String) (flag : Bool) (total remaining : Int),
      (Resource.ConsumableResource name flag total remaining).isAvailableForUse = true →
        (Resource.ConsumableResource name flag total remaining).allocate.error ≠
          some (.noRemainingCapacity name)) ∧
    (∀ (name : String) (flag : Bool) (capacity : Int),
      (Resource.UsableResource name flag capacity).isAvailableForUse = true →
        (Resource.UsableResource name flag capacity).allocate.error ≠
          some (.alreadyAllocated name)) ∧
    (∀ (n : String) (p : List Resource) (i : Nat), findAvailable n p = some i →
      ∃ r, p[i]? = some r ∧ r.isAvailableForUse = true ∧ r.allocate.error = none ∧
        (allocateAt i p).error = none) ∧
    (∀ e, (self.assignResources pool).error = some e →
      ∃ n, n ∈ self.requiredResourcesNames ∧ e = .resourceNotAvailable n self.name) ∧
    (∀ name, (self.assignResources pool).error ≠ some (.noRemainingCapacity name) ∧
      (self.assignResources pool).error ≠ some (.alreadyAllocated name)) := by
  have hany : ∀ e, (self.assignResources pool).error = some e →
      ∃ n, n ∈ self.requiredResourcesNames ∧ e = .resourceNotAvailable n self.name := by
    intro e he
    obtain ⟨k, n, _, hk, _, _, _, hn, _⟩ := Executable.assignResources_error self pool e he
    exact ⟨n, List.getElem?_mem hk, hn⟩
  refine ⟨fun r h => (Resource.allocate_of_available r h).1, ?_, ?_, ?_, hany, ?_⟩
  · intro name flag total remaining h
    rw [(Resource.allocate_of_available _ h).1]
    simp
  · intro name flag capacity h
    rw [(Resource.allocate_of_available _ h).1]
    simp
  · intro n p i hf
    obtain ⟨r, hr, _, ha, hal⟩ := allocateAt_of_found n p i hf
    exact ⟨r, hr, ha, (Resource.allocate_of_available r ha).1, by rw [hal]⟩
  · intro name
    constructor
    · intro h
      obtain ⟨n, _, hn⟩ := hany _ h
      cases hn
    · intro h
      obtain ⟨n, _, hn⟩ := hany _ h
      cases hn

/-- C20. The frame of assignResources.  Whether the call succeeds or fails, a pool entry
whose name is not among the required names of the Executable is afterwards exactly as it
was, and the pool has as many entries as before.  The call takes one pool and returns
that pool only; the object it was called on keeps its own members, so a Process that is
assigned resources by its parent keeps its own pool and its own sub-units. -/
theorem assignResources_changes_only_required_names (self : Executable)
    (pool : List Resource) (j : Nat) (r : Resource)
    (hr : pool[j]? = some r)
    (hname : r.getName ∉ self.requiredResourcesNames) :
    (self.assignResources pool).pool[j]? = some r ∧
    (self.assignResources pool).pool.length = pool.length ∧
    (∀ (b : Executable) (resourcePool : List Resource) (tasks : List Exec),
      (Exec.Process b resourcePool tasks).setBase (b.assignResources pool).self =
        .Process (b.assignResources pool).self resourcePool tasks) ∧
    (∀ (b : Executable) (resourcePool : List Resource) (tasks : List Exec) (e : Error),
      (b.canExecute pool).result = true → (b.assignResources pool).error = some e →
      (Process.visit (Exec.execute (.Process b resourcePool tasks))
        (.Process b resourcePool tasks) pool).task =
          .Process (b.assignResources pool).self resourcePool tasks) := by
  refine ⟨?_, ?_, fun _ _ _ => rfl, ?_⟩
  · by_cases hempty : self.requiredResourcesNames.isEmpty = true
    · simpa [Executable.assignResources, hempty] using hr
    · simp only [Executable.assignResources, hempty]
      exact Executable.assignLoop_frame _ _ pool j r hr hname (by simp)
  · by_cases hempty : self.requiredResourcesNames.isEmpty = true
    · simp [Executable.assignResources, hempty]
    · simp only [Executable.assignResources, hempty]
      exact Executable.assignLoop_length _ _ _
  · intro b resourcePool tasks e hc ha
    rw [Process.visit_assign_failed _ (.Process b resourcePool tasks) pool e hc ha]
    rfl

/-- Witness for C20: required ["CPU", "GPU"] fails after "CPU" was allocated and rolled
back; the entry "Memory" is untouched. -/
theorem assignResources_changes_only_required_names_witness :
    (Executable.assignResources ⟨"E", "", ["CPU", "GPU"], 1, []⟩
      [.UsableResource "CPU" true 3, .ConsumableResource "Memory" true 2 2]).error =
        some (.resourceNotAvailable "GPU" "E") ∧
    (Executable.assignResources ⟨"E", "", ["CPU", "GPU"], 1, []⟩
      [.UsableResource "CPU" true 3, .ConsumableResource "Memory" true 2 2]).pool[1]? =
        some (.ConsumableResource "Memory" true 2 2) :=
  ⟨by decide,
    (assignResources_changes_only_required_names ⟨"E", "", ["CPU", "GPU"], 1, []⟩
      [.UsableResource "CPU" true 3, .ConsumableResource "Memory" true 2 2] 1
      (.ConsumableResource "Memory" true 2 2) rfl (by decide)).1⟩

/-! ## What a run leaves of the pool it started with -/

theorem Resource.usableView_release_allocate (r : Resource) (h : r.isAvailableForUse = true) :
    r.allocate.resource.release.resource.usableView = r.release.resource.usableView ∧
    r.allocate.resource.release.resource.usableView = r.usableView := by
  cases r with
  | ConsumableResource n f t rem =>
    by_cases hrem : rem ≤ 0 <;>
      simp [Resource.allocate, hrem, Resource.release, Resource.usableView]
  | UsableResource n f c =>
    simp only [Resource.isAvailableForUse] at h
    subst h
    simp [Resource.allocate, Resource.release, Resource.usableView]

theorem Resource.usableView_releaseTimes_succ (k : Nat) :
    ∀ r : Resource,
      (Resource.releaseTimes (k + 1) r).usableView = r.release.resource.usableView := by
  induction k with
  | zero => intro r; rfl
  | succ k ih =>
    intro r
    rw [Resource.releaseTimes, ih]
    cases r <;> simp [Resource.release, Resource.usableView]

theorem Resource.usableView_release_congr (r r' : Resource)
    (h : r'.usableView = r.usableView) :
    r'.release.resource.usableView = r.release.resource.usableView := by
  cases r <;> cases r' <;> simp_all [Resource.usableView, Resource.release]

theorem HeldFrom.refl (pool : List Resource) : HeldFrom pool pool [] := by
  intro j
  simp

theorem HeldFrom.sameView {before now : List Resource} (h : HeldFrom before now []) :
    SameView Resource.usableView before now := by
  intro j
  simpa using h j

theorem SameView.heldFrom {before now : List Resource}
    (h : SameView Resource.usableView before now) : HeldFrom before now [] := by
  intro j
  simpa using h j

theorem SameView.trans {α : Type} {view : Resource → α} {a b c : List Resource}
    (hab : SameView view a b) (hbc : SameView view b c) : SameView view a c := by
  intro j
  rw [hbc j, hab j]

theorem SameView.same_length {α : Type} {view : Resource → α} {a b : List Resource}
    (h : SameView view a b) : b.length = a.length := by
  by_contra hne
  rcases Nat.lt_or_gt_of_ne hne with hlt | hgt
  · have := h b.length
    rw [List.getElem?_eq_none (Nat.le_refl _), List.getElem?_eq_getElem hlt] at this
    simp at this
  · have := h a.length
    rw [List.getElem?_eq_none (Nat.le_refl _), List.getElem?_eq_getElem hgt] at this
    simp at this

/-- Allocating the entry that the inner loop of assignResources has found keeps the pool
in the relation, with that entry added to the held positions. -/
theorem HeldFrom.after_allocate {before now : List Resource} {held : List Nat} (n : String)
    (i : Nat) (hf : findAvailable n now = some i) (h : HeldFrom before now held) :
    HeldFrom before (allocateAt i now).pool (held ++ [i]) := by
  obtain ⟨r0, hr0, _, ha0, _⟩ := allocateAt_of_found n now i hf
  intro j
  rw [allocateAt_getElem?, ← h j]
  by_cases hji : j = i
  · subst hji
    rw [hr0]
    obtain ⟨h1, h2⟩ := Resource.usableView_release_allocate r0 ha0
    by_cases hmem : j ∈ held
    · simp [hmem, h1]
    · simp [hmem, h2]
  · cases hr : now[j]? with
    | none => rfl
    | some r =>
      have hiff : (j ∈ held ++ [i]) = (j ∈ held) := by simp [hji]
      simp only [Option.map_some', hji, if_false, hiff]

/-- The loop of releaseResources over the held positions gives back the UsableResources
of the pool the relation starts from. -/
theorem HeldFrom.after_release {before now : List Resource} {held : List Nat} (name : String)
    (h : HeldFrom before now held) :
    HeldFrom before (Executable.releaseLoop name held now).pool [] := by
  intro j
  rw [Executable.releaseLoop_getElem?, ← h j]
  cases hr : now[j]? with
  | none => rfl
  | some r =>
    by_cases hmem : j ∈ held
    · obtain ⟨k, hk⟩ : ∃ k, held.count j = k + 1 :=
        ⟨held.count j - 1, by have := List.count_pos_iff.2 hmem; omega⟩
      simp [hmem, hk, Resource.usableView_releaseTimes_succ]
    · simp [hmem, List.count_eq_zero.2 hmem, Resource.releaseTimes]

theorem HeldFrom.after_assignLoop {before : List Resource} (names : List String) :
    ∀ (self : Executable) (now : List Resource),
      HeldFrom before now self.assignedResources →
      HeldFrom before (Executable.assignLoop names self now).pool
        (Executable.assignLoop names self now).self.assignedResources := by
  induction names with
  | nil => intro self now h; exact h
  | cons n rest ih =>
    intro self now h
    cases hf : findAvailable n now with
    | none =>
      rw [Executable.assignLoop_cons_missing n rest self now hf]
      exact HeldFrom.after_release self.name h
    | some i =>
      rw [Executable.assignLoop_cons_found n rest self now i hf]
      exact ih _ _ (HeldFrom.after_allocate n i hf h)

theorem HeldFrom.after_assignResources {before now : List Resource} (self : Executable)
    (h : HeldFrom before now []) :
    HeldFrom before (self.assignResources now).pool
      (self.assignResources now).self.assignedResources := by
  by_cases hempty : self.requiredResourcesNames.isEmpty = true
  · simpa [Executable.assignResources, hempty] using h
  · simp only [Executable.assignResources, hempty]
    exact HeldFrom.after_assignLoop _ _ _ h

/-- A pool that differs from `now` in no UsableResource is in the same relation. -/
theorem HeldFrom.of_sameView {before now later : List Resource} {held : List Nat}
    (h : HeldFrom before now held) (hs : SameView Resource.usableView now later) :
    HeldFrom before later held := by
  intro j
  rw [← h j]
  have := hs j
  cases hl : later[j]? with
  | none =>
    rw [hl] at this
    cases hn : now[j]? with
    | none => rfl
    | some r => rw [hn] at this; simp at this
  | some r' =>
    rw [hl] at this
    cases hn : now[j]? with
    | none => rw [hn] at this; simp at this
    | some r =>
      rw [hn] at this
      simp only [Option.map_some', Option.some.injEq] at this ⊢
      by_cases hmem : j ∈ held
      · simp only [hmem, if_true]
        exact Resource.usableView_release_congr r r' this
      · simp only [hmem, if_false]
        exact this

/-- One iteration of the loop of Process::execute leaves every UsableResource of the pool
as it found it. -/
theorem Process.visit_sameUsable (task : Exec) (pool : List Resource) :
    SameView Resource.usableView pool (Process.visit (Exec.execute task) task pool).pool := by
  apply HeldFrom.sameView
  cases hc : (task.base.canExecute pool).result with
  | false =>
    rw [Process.visit_skipped _ task pool hc]
    exact HeldFrom.refl pool
  | true =>
    have hassign := HeldFrom.after_assignResources task.base (HeldFrom.refl pool)
    cases ha : (task.base.assignResources pool).error with
    | some e =>
      rw [Process.visit_assign_failed _ task pool e hc ha]
      obtain ⟨_, _, _, _, _, _, _, _, hself, _, _⟩ :=
        Executable.assignResources_error task.base pool e ha
      rw [hself] at hassign
      exact hassign
    | none =>
      obtain ⟨_, _, hv⟩ := Process.visit_executed task pool hc ha
      rw [hv]
      exact HeldFrom.after_release task.base.name hassign

theorem Process.executeTasks_sameUsable (tasks : List Exec) :
    ∀ pool : List Resource,
      SameView Resource.usableView pool (Process.executeTasks tasks pool).pool := by
  induction tasks with
  | nil => intro pool j; rfl
  | cons t rest ih =>
    intro pool
    simp only [Process.executeTasks]
    exact (Process.visit_sameUsable t pool).trans (ih _)

/-- Process::run leaves every UsableResource of the pool as it found it, when the
orchestrator holds nothing at the start. -/
theorem Process.run_sameUsable (self : Executable) (pool : List Resource) (tasks : List Exec)
    (hself : self.assignedResources = []) :
    SameView Resource.usableView pool (Process.run self pool tasks).self.resourcePool := by
  apply HeldFrom.sameView
  by_cases hstart : self.requiredResourcesNames.isEmpty = true ∨
      (self.requiredResourcesNames.isEmpty = false ∧ (self.canExecute pool).result = true ∧
        (self.assignResources pool).error = none)
  · obtain ⟨base, pool0, _, hA, hB, hrun⟩ := Process.run_started self pool tasks hstart
    rw [hrun]
    simp only [Exec.resourcePool]
    have hheld : HeldFrom pool pool0 base.assignedResources := by
      by_cases he : self.requiredResourcesNames.isEmpty = true
      · obtain ⟨hb, hp⟩ := hA he
        rw [hb, hp, hself]
        exact HeldFrom.refl pool
      · obtain ⟨hb, hp⟩ := hB (by simpa using he)
        rw [hb, hp]
        exact HeldFrom.after_assignResources self (HeldFrom.refl pool)
    exact HeldFrom.after_release base.name
      (hheld.of_sameView (Process.executeTasks_sameUsable tasks pool0))
  · have hne : self.requiredResourcesNames.isEmpty = false := by
      cases hb : self.requiredResourcesNames.isEmpty with
      | true => exact absurd (Or.inl hb) hstart
      | false => rfl
    cases hc : (self.canExecute pool).result with
    | false =>
      rw [Process.run_rejected self pool tasks hne hc]
      exact HeldFrom.refl pool
    | true =>
      cases ha : (self.assignResources pool).error with
      | none => exact absurd (Or.inr ⟨hne, hc, ha⟩) hstart
      | some e =>
        rw [Process.run_assign_failed self pool tasks e hne hc ha]
        have hassign := HeldFrom.after_assignResources self (HeldFrom.refl pool)
        obtain ⟨_, _, _, _, _, _, _, _, hs, _, _⟩ :=
          Executable.assignResources_error self pool e ha
        rw [hs] at hassign
        exact hassign

/-! ### Views that neither allocate nor release changes -/

theorem SameView.of_allocateAt {α : Type} {view : Resource → α}
    (hal : ∀ r : Resource, view r.allocate.resource = view r) (i : Nat)
    (pool : List Resource) : SameView view pool (allocateAt i pool).pool := by
  intro j
  rw [allocateAt_getElem?]
  cases pool[j]? with
  | none => rfl
  | some r => by_cases h : j = i <;> simp [h, hal]

theorem SameView.of_releaseLoop {α : Type} {view : Resource → α}
    (hrel : ∀ r : Resource, view r.release.resource = view r) (name : String)
    (assigned : List Nat) (pool : List Resource) :
    SameView view pool (Executable.releaseLoop name assigned pool).pool := by
  have htimes : ∀ (k : Nat) (r : Resource), view (Resource.releaseTimes k r) = view r := by
    intro k
    induction k with
    | zero => intro r; rfl
    | succ k ih => intro r; rw [Resource.releaseTimes, ih, hrel]
  intro j
  rw [Executable.releaseLoop_getElem?]
  cases pool[j]? with
  | none => rfl
  | some r => simp [htimes]

theorem SameView.of_assignLoop {α : Type} {view : Resource → α}
    (hal : ∀ r : Resource, view r.allocate.resource = view r)
    (hrel : ∀ r : Resource, view r.release.resource = view r) (names : List String) :
    ∀ (self : Executable) (pool : List Resource),
      SameView view pool (Executable.assignLoop names self pool).pool := by
  induction names with
  | nil => intro self pool j; rfl
  | cons n rest ih =>
    intro self pool
    cases hf : findAvailable n pool with
    | none =>
      rw [Executable.assignLoop_cons_missing n rest self pool hf]
      exact SameView.of_releaseLoop hrel _ _ _
    | some i =>
      rw [Executable.assignLoop_cons_found n rest self pool i hf]
      exact (SameView.of_allocateAt hal i pool).trans (ih _ _)

theorem SameView.of_assignResources {α : Type} {view : Resource → α}
    (hal : ∀ r : Resource, view r.allocate.resource = view r)
    (hrel : ∀ r : Resource, view r.release.resource = view r) (self : Executable)
    (pool : List Resource) : SameView view pool (self.assignResources pool).pool := by
  by_cases hempty : self.requiredResourcesNames.isEmpty = true
  · intro j
    simp [Executable.assignResources, hempty]
  · simp only [Executable.assignResources, hempty]
    exact SameView.of_assignLoop hal hrel _ _ _

theorem SameView.of_visit {α : Type} {view : Resource → α}
    (hal : ∀ r : Resource, view r.allocate.resource = view r)
    (hrel : ∀ r : Resource, view r.release.resource = view r) (task : Exec)
    (pool : List Resource) :
    SameView view pool (Process.visit (Exec.execute task) task pool).pool := by
  cases hc : (task.base.canExecute pool).result with
  | false =>
    rw [Process.visit_skipped _ task pool hc]
    intro j
    rfl
  | true =>
    cases ha : (task.base.assignResources pool).error with
    | some e =>
      rw [Process.visit_assign_failed _ task pool e hc ha]
      exact SameView.of_assignResources hal hrel _ _
    | none =>
      obtain ⟨_, _, hv⟩ := Process.visit_executed task pool hc ha
      rw [hv]
      exact (SameView.of_assignResources hal hrel task.base pool).trans
        (SameView.of_releaseLoop hrel _ _ _)

theorem SameView.of_executeTasks {α : Type} {view : Resource → α}
    (hal : ∀ r : Resource, view r.allocate.resource = view r)
    (hrel : ∀ r : Resource, view r.release.resource = view r) (tasks : List Exec) :
    ∀ pool : List Resource, SameView view pool (Process.executeTasks tasks pool).pool := by
  induction tasks with
  | nil => intro pool j; rfl
  | cons t rest ih =>
    intro pool
    simp only [Process.executeTasks]
    exact (SameView.of_visit hal hrel t pool).trans (ih _)

/-! ## Rollback, release across a run, and check against assign -/

theorem Resource.eq_of_usableView_eq_some (r r' : Resource)
    (h : r'.usableView = some r) : r' = r := by
  cases r' with
  | ConsumableResource n f t rem => simp [Resource.usableView] at h
  | UsableResource n f c => simpa [Resource.usableView] using h

theorem Resource.usableView_of_isUsable (r : Resource) (h : r.isUsable = true) :
    r.usableView = some r := by
  cases r with
  | ConsumableResource n f t rem => cases h
  | UsableResource n f c => rfl

theorem Resource.isUsable_of_usableView_eq (r r' : Resource)
    (h : r'.usableView = r.usableView) : r'.isUsable = r.isUsable := by
  cases r <;> cases r' <;> simp_all [Resource.usableView, Resource.isUsable]

/-- Two pools with the same UsableResources, position by position, agree on every entry
that is a UsableResource in either of them. -/
theorem SameView.usable_entries {before after : List Resource}
    (h : SameView Resource.usableView before after) (j : Nat) (r : Resource)
    (hu : r.isUsable = true) :
    (before[j]? = some r ↔ after[j]? = some r) := by
  have hj := h j
  constructor
  · intro hb
    rw [hb] at hj
    cases ha : after[j]? with
    | none => rw [ha] at hj; simp at hj
    | some r' =>
      rw [ha] at hj
      simp only [Option.map_some', Option.some.injEq] at hj
      rw [Resource.usableView_of_isUsable r hu] at hj
      rw [Resource.eq_of_usableView_eq_some r r' hj]
  · intro ha
    rw [ha] at hj
    cases hb : before[j]? with
    | none => rw [hb] at hj; simp at hj
    | some r' =>
      rw [hb] at hj
      simp only [Option.map_some', Option.some.injEq] at hj
      rw [Resource.usableView_of_isUsable r hu] at hj
      rw [Resource.eq_of_usableView_eq_some r r' hj.symm]

/-- C24. Exact rollback on a pool of UsableResources only.  If every entry of the pool is
a UsableResource and the Executable holds nothing, a failed assignResources leaves the
pool exactly as it was, entry by entry, and the Executable as it was, with an empty
assigned list. -/
theorem failed_assign_restores_usable_pool (self : Executable) (pool : List Resource)
    (e : Error)
    (husable : ∀ r ∈ pool, r.isUsable = true)
    (hassigned : self.assignedResources = [])
    (hfail : (self.assignResources pool).error = some e) :
    (self.assignResources pool).pool = pool ∧
    (self.assignResources pool).self.assignedResources = [] ∧
    (self.assignResources pool).self = self := by
  obtain ⟨_, _, _, _, _, _, _, _, hself, _, _⟩ :=
    Executable.assignResources_error self pool e hfail
  have hheld := HeldFrom.after_assignResources self (HeldFrom.refl pool)
  rw [hself] at hheld
  have hsame := hheld.sameView
  refine ⟨?_, by rw [hself], by rw [hself, ← hassigned]⟩
  apply List.ext_getElem?
  intro j
  cases hb : pool[j]? with
  | none =>
    have hj := hsame j
    rw [hb] at hj
    cases ha : (self.assignResources pool).pool[j]? with
    | none => rfl
    | some r' => rw [ha] at hj; simp at hj
  | some r =>
    exact (hsame.usable_entries j r (husable r (List.getElem?_mem hb))).1 hb

/-- Witness for C24: required ["CPU", "GPU"] on a pool of two UsableResources "CPU"; the
first is allocated, "GPU" is missing, and the rollback restores the pool. -/
theorem failed_assign_restores_usable_pool_witness :
    (Executable.assignResources ⟨"E", "", ["CPU", "GPU"], 1, []⟩
      [.UsableResource "CPU" true 3, .UsableResource "CPU" false 2]).error =
        some (.resourceNotAvailable "GPU" "E") ∧
    (Executable.assignResources ⟨"E", "", ["CPU", "GPU"], 1, []⟩
      [.UsableResource "CPU" true 3, .UsableResource "CPU" false 2]).pool =
        [.UsableResource "CPU" true 3, .UsableResource "CPU" false 2] :=
  ⟨by decide,
    (failed_assign_restores_usable_pool ⟨"E", "", ["CPU", "GPU"], 1, []⟩
      [.UsableResource "CPU" true 3, .UsableResource "CPU" false 2]
      (.resourceNotAvailable "GPU" "E") (by decide) rfl (by decide)).1⟩

theorem Exec.holdsNothing_iff (e : Exec) :
    e.holdsNothing = true ↔
      e.base.assignedResources = [] ∧ Exec.allHoldNothing e.tasks = true := by
  cases e with
  | Task b => simp [Exec.holdsNothing, Exec.base, Exec.tasks, Exec.allHoldNothing]
  | Process b rp ts => simp [Exec.holdsNothing, Exec.base, Exec.tasks]

theorem Exec.tasks_setBase (e : Exec) (b : Executable) : (e.setBase b).tasks = e.tasks := by
  cases e <;> rfl

theorem Exec.allHoldNothing_iff (ts : List Exec) :
    Exec.allHoldNothing ts = true ↔ ∀ t ∈ ts, t.holdsNothing = true := by
  induction ts with
  | nil => simp [Exec.allHoldNothing]
  | cons t rest ih => simp [Exec.allHoldNothing, ih]

/-- One iteration of the loop of Process::execute leaves the sub-unit holding nothing, if
it held nothing before and its own execute leaves the sub-units below it holding
nothing. -/
theorem Process.visit_holdsNothing (task : Exec) (pool : List Resource)
    (h : task.holdsNothing = true)
    (hexec : ∀ self held,
      Exec.allHoldNothing (Exec.execute task self held).self.tasks = true) :
    (Process.visit (Exec.execute task) task pool).task.holdsNothing = true := by
  obtain ⟨_, htasks⟩ := (Exec.holdsNothing_iff task).1 h
  cases hc : (task.base.canExecute pool).result with
  | false =>
    rw [Process.visit_skipped _ task pool hc]
    exact h
  | true =>
    cases ha : (task.base.assignResources pool).error with
    | some e =>
      rw [Process.visit_assign_failed _ task pool e hc ha]
      obtain ⟨_, _, _, _, _, _, _, _, hself, _, _⟩ :=
        Executable.assignResources_error task.base pool e ha
      rw [Exec.holdsNothing_iff, Exec.base_setBase, Exec.tasks_setBase, hself]
      exact ⟨rfl, htasks⟩
    | none =>
      obtain ⟨_, _, hv⟩ := Process.visit_executed task pool hc ha
      rw [hv, Exec.holdsNothing_iff, Exec.base_setBase, Exec.tasks_setBase]
      exact ⟨rfl, hexec _ _⟩

mutual
theorem Exec.execute_allHoldNothing :
    ∀ (e : Exec) (self : Executable) (held : List Resource),
      Exec.allHoldNothing e.tasks = true →
      Exec.allHoldNothing (Exec.execute e self held).self.tasks = true
  | .Task _, self, held => by
    intro _
    simp only [Exec.execute, Exec.tasks, Exec.allHoldNothing]
  | .Process _ resourcePool tasks, self, held => by
    intro h
    by_cases hpre : self.requiredResourcesNames.isEmpty = false ∧
        self.assignedResources.length ≠ self.requiredResourcesNames.length
    · simp only [Exec.execute, if_pos hpre, Exec.tasks]
      exact h
    · simp only [Exec.execute, if_neg hpre, Exec.tasks]
      exact Process.executeTasks_allHoldNothing tasks resourcePool h
theorem Process.executeTasks_allHoldNothing :
    ∀ (tasks : List Exec) (pool : List Resource),
      Exec.allHoldNothing tasks = true →
      Exec.allHoldNothing (Process.executeTasks tasks pool).tasks = true
  | [], pool => by
    intro _
    simp [Process.executeTasks, Exec.allHoldNothing]
  | task :: rest, pool => by
    intro h
    simp only [Exec.allHoldNothing, Bool.and_eq_true] at h
    simp only [Process.executeTasks, Exec.allHoldNothing, Bool.and_eq_true]
    refine ⟨Process.visit_holdsNothing task pool h.1 ?_,
      Process.executeTasks_allHoldNothing rest _ h.2⟩
    intro self held
    exact Exec.execute_allHoldNothing task self held
      ((Exec.holdsNothing_iff task).1 h.1).2
end

theorem Process.run_allHoldNothing (self : Executable) (pool : List Resource)
    (tasks : List Exec) (h : Exec.allHoldNothing tasks = true) :
    Exec.allHoldNothing (Process.run self pool tasks).self.tasks = true := by
  by_cases hstart : self.requiredResourcesNames.isEmpty = true ∨
      (self.requiredResourcesNames.isEmpty = false ∧ (self.canExecute pool).result = true ∧
        (self.assignResources pool).error = none)
  · obtain ⟨base, pool0, _, _, _, hrun⟩ := Process.run_started self pool tasks hstart
    rw [hrun]
    exact Process.executeTasks_allHoldNothing tasks pool0 h
  · have hne : self.requiredResourcesNames.isEmpty = false := by
      cases hb : self.requiredResourcesNames.isEmpty with
      | true => exact absurd (Or.inl hb) hstart
      | false => rfl
    cases hc : (self.canExecute pool).result with
    | false =>
      rw [Process.run_rejected self pool tasks hne hc]
      exact h
    | true =>
      cases ha : (self.assignResources pool).error with
      | none => exact absurd (Or.inr ⟨hne, hc, ha⟩) hstart
      | some e =>
        rw [Process.run_assign_failed self pool tasks e hne hc ha]
        exact h

/-- C22. Guaranteed release across a run.  Let the orchestrator and all its sub-units,
Tasks or nested Processes, at every depth, hold nothing when run is called, and let the
pool be in any state.  When run returns, the pool has the same entries in the same places
as far as UsableResources go: each UsableResource is exactly as it was, so as available or
as unavailable as before; the orchestrator's assigned list is empty; and the assigned list
of every sub-unit, at every depth, is empty. -/
theorem run_restores_every_usable_resource (self : Executable) (pool : List Resource)
    (tasks : List Exec)
    (hself : self.assignedResources = [])
    (htasks : Exec.allHoldNothing tasks = true) :
    (∀ (j : Nat) (r : Resource), r.isUsable = true →
      (pool[j]? = some r ↔ (Process.run self pool tasks).self.resourcePool[j]? = some r)) ∧
    (∀ (j : Nat) (r r' : Resource), pool[j]? = some r →
      (Process.run self pool tasks).self.resourcePool[j]? = some r' →
      r'.isUsable = r.isUsable ∧
      (r.isUsable = true → r'.isAvailableForUse = r.isAvailableForUse)) ∧
    (Process.run self pool tasks).self.resourcePool.length = pool.length ∧
    (Process.run self pool tasks).self.base.assignedResources = [] ∧
    Exec.allHoldNothing (Process.run self pool tasks).self.tasks = true ∧
    (∀ t ∈ (Process.run self pool tasks).self.tasks, t.base.assignedResources = []) ∧
    (Process.run self pool tasks).error = none := by
  have hsame := Process.run_sameUsable self pool tasks hself
  have hall := Process.run_allHoldNothing self pool tasks htasks
  refine ⟨fun j r hu => hsame.usable_entries j r hu, ?_, hsame.same_length, ?_, hall, ?_, ?_⟩
  · intro j r r' hb ha
    have hj := hsame j
    rw [hb, ha] at hj
    simp only [Option.map_some', Option.some.injEq] at hj
    refine ⟨Resource.isUsable_of_usableView_eq r r' hj, ?_⟩
    intro hu
    rw [Resource.usableView_of_isUsable r hu] at hj
    rw [Resource.eq_of_usableView_eq_some r r' hj]
  · by_cases h : self.requiredResourcesNames.isEmpty = false ∧
        (self.canExecute pool).result = false
    · rw [(Process.run_base self pool tasks).1 h]
      exact hself
    · rw [(Process.run_base self pool tasks).2 h]
  · intro t ht
    exact ((Exec.holdsNothing_iff t).1 ((Exec.allHoldNothing_iff _).1 hall t ht)).1
  · by_cases hstart : self.requiredResourcesNames.isEmpty = true ∨
        (self.requiredResourcesNames.isEmpty = false ∧ (self.canExecute pool).result = true ∧
          (self.assignResources pool).error = none)
    · exact (Process.run_topLevel_started self pool tasks hstart).1
    · exact (Process.run_topLevel_not_started self pool tasks hstart).1

/-- Witness for C22: the orchestrator requires "CPU"; the pool has a free "CPU", a "GPU"
that is held already and a "Memory"; the sub-units are a Task requiring "Memory" and a
nested Process requiring "CPU" with a pool and a Task of its own.  After run the "CPU" is
free, the "GPU" is still held, and nothing is assigned anywhere. -/
theorem run_restores_every_usable_resource_witness :
    (Process.run ⟨"P", "", ["CPU"], 1, []⟩
      [.UsableResource "CPU" true 3, .UsableResource "GPU" false 1,
        .ConsumableResource "Memory" true 2 2]
      [.Task ⟨"t1", "", ["Memory"], 1, []⟩,
        .Process ⟨"Q", "", ["CPU"], 1, []⟩ [.UsableResource "Disk" true 1]
          [.Task ⟨"q1", "", ["Disk"], 1, []⟩]]).self =
      .Process ⟨"P", "", ["CPU"], 1, []⟩
        [.UsableResource "CPU" true 3, .UsableResource "GPU" false 1,
          .ConsumableResource "Memory" true 2 1]
        [.Task ⟨"t1", "", ["Memory"], 1, []⟩,
          .Process ⟨"Q", "", ["CPU"], 1, []⟩ [.UsableResource "Disk" true 1]
            [.Task ⟨"q1", "", ["Disk"], 1, []⟩]] ∧
    (Process.run ⟨"P", "", ["CPU"], 1, []⟩
      [.UsableResource "CPU" true 3, .UsableResource "GPU" false 1,
        .ConsumableResource "Memory" true 2 2]
      [.Task ⟨"t1", "", ["Memory"], 1, []⟩,
        .Process ⟨"Q", "", ["CPU"], 1, []⟩ [.UsableResource "Disk" true 1]
          [.Task ⟨"q1", "", ["Disk"], 1, []⟩]]).self.base.assignedResources = [] ∧
    Exec.allHoldNothing (Process.run ⟨"P", "", ["CPU"], 1, []⟩
      [.UsableResource "CPU" true 3, .UsableResource "GPU" false 1,
        .ConsumableResource "Memory" true 2 2]
      [.Task ⟨"t1", "", ["Memory"], 1, []⟩,
        .Process ⟨"Q", "", ["CPU"], 1, []⟩ [.UsableResource "Disk" true 1]
          [.Task ⟨"q1", "", ["Disk"], 1, []⟩]]).self.tasks = true := by
  obtain ⟨_, _, _, hbase, hall, _, _⟩ :=
    run_restores_every_usable_resource ⟨"P", "", ["CPU"], 1, []⟩
      [.UsableResource "CPU" true 3, .UsableResource "GPU" false 1,
        .ConsumableResource "Memory" true 2 2]
      [.Task ⟨"t1", "", ["Memory"], 1, []⟩,
        .Process ⟨"Q", "", ["CPU"], 1, []⟩ [.UsableResource "Disk" true 1]
          [.Task ⟨"q1", "", ["Disk"], 1, []⟩]] rfl (by decide)
  exact ⟨by rfl, hbase, hall⟩

theorem Resource.available_of_allocate_available (r : Resource)
    (h : r.allocate.resource.isAvailableForUse = true) : r.isAvailableForUse = true := by
  cases r with
  | ConsumableResource n f t rem =>
    by_cases hrem : rem ≤ 0
    · simpa [Resource.allocate, hrem, Resource.isAvailableForUse] using h
    · simp only [Resource.allocate, hrem, if_false, Resource.isAvailableForUse,
        decide_eq_true_eq] at h ⊢
      omega
  | UsableResource n f c =>
    cases f <;> simp [Resource.allocate, Resource.isAvailableForUse] at h ⊢

/-- An entry that is available after an allocation in the pool was there, under the same
name and available, before it. -/
theorem allocateAt_available_before (i : Nat) (pool : List Resource) (k : Nat) (r' : Resource)
    (hr' : (allocateAt i pool).pool[k]? = some r') (ha : r'.isAvailableForUse = true) :
    ∃ r, pool[k]? = some r ∧ r.getName = r'.getName ∧ r.isAvailableForUse = true := by
  rw [allocateAt_getElem?] at hr'
  cases hr : pool[k]? with
  | none => rw [hr] at hr'; cases hr'
  | some r =>
    rw [hr] at hr'
    simp only [Option.map_some', Option.some.injEq] at hr'
    by_cases hki : k = i
    · simp only [hki, if_true] at hr'
      subst hr'
      exact ⟨r, rfl, (Resource.allocate_getName r).symm,
        Resource.available_of_allocate_available r ha⟩
    · simp only [hki, if_false] at hr'
      subst hr'
      exact ⟨r, rfl, rfl, ha⟩

/-- When the loop of assignResources succeeds, every name it served had an available entry
in the pool it started from. -/
theorem Executable.assignLoop_available_of_ok (names : List String) :
    ∀ (self : Executable) (pool : List Resource),
      (Executable.assignLoop names self pool).error = none →
      ∀ n ∈ names, ∃ r ∈ pool, r.getName = n ∧ r.isAvailableForUse = true := by
  induction names with
  | nil => intro self pool _ n hn; cases hn
  | cons m rest ih =>
    intro self pool herr n hn
    cases hf : findAvailable m pool with
    | none =>
      rw [Executable.assignLoop_cons_missing m rest self pool hf] at herr
      cases herr
    | some i =>
      rw [Executable.assignLoop_cons_found m rest self pool i hf] at herr
      rcases List.mem_cons.1 hn with h | h
      · subst h
        obtain ⟨r, hr, hname, ha, _⟩ := allocateAt_of_found n pool i hf
        exact ⟨r, List.getElem?_mem hr, hname, ha⟩
      · obtain ⟨r', hmem, hname, ha⟩ := ih _ _ herr n h
        obtain ⟨k, hk⟩ := List.getElem?_of_mem hmem
        obtain ⟨r, hr, hn', ha'⟩ := allocateAt_available_before i pool k r' hk ha
        exact ⟨r, List.getElem?_mem hr, by rw [hn', hname], ha'⟩

theorem Executable.canExecute_of_assignResources_ok (self : Executable)
    (pool : List Resource) (h : (self.assignResources pool).error = none) :
    (self.canExecute pool).result = true := by
  by_cases hempty : self.requiredResourcesNames.isEmpty = true
  · simp [Executable.canExecute, hempty]
  · simp only [Executable.assignResources, hempty] at h
    simp only [Executable.canExecute, hempty, Bool.false_eq_true, if_false]
    exact (canExecuteLoop_iff _ _).2 (Executable.assignLoop_available_of_ok _ _ pool h)

/-- C23. For an Executable whose required names are pairwise distinct and any pool:
canExecute returns true exactly when assignResources, called on the same pool state, does
not throw. -/
theorem canExecute_iff_assign_succeeds_for_distinct_names (self : Executable)
    (pool : List Resource) (hdistinct : self.requiredResourcesNames.Nodup) :
    ((self.canExecute pool).result = true ↔ (self.assignResources pool).error = none) ∧
    ((self.canExecute pool).result = false ↔
      ∃ n, n ∈ self.requiredResourcesNames ∧
        (self.assignResources pool).error = some (.resourceNotAvailable n self.name)) := by
  have hiff : (self.canExecute pool).result = true ↔
      (self.assignResources pool).error = none :=
    ⟨Executable.assignResources_ok_of_canExecute self pool hdistinct,
      Executable.canExecute_of_assignResources_ok self pool⟩
  refine ⟨hiff, ?_⟩
  constructor
  · intro hc
    cases ha : (self.assignResources pool).error with
    | none =>
      rw [hiff.2 ha] at hc
      cases hc
    | some e =>
      obtain ⟨k, n, _, hk, _, _, _, hn, _⟩ := Executable.assignResources_error self pool e ha
      exact ⟨n, List.getElem?_mem hk, by rw [hn]⟩
  · rintro ⟨n, _, he⟩
    cases hc : (self.canExecute pool).result with
    | false => rfl
    | true =>
      rw [hiff.1 hc] at he
      cases he

/-- Witness for C23: required ["CPU", "Memory"], pool with a held "CPU" and a "Memory":
canExecute is false and assignResources fails; with the "CPU" free both succeed. -/
theorem canExecute_iff_assign_succeeds_for_distinct_names_witness :
    (Executable.canExecute ⟨"E", "", ["CPU", "Memory"], 1, []⟩
      [.UsableResource "CPU" false 3, .ConsumableResource "Memory" true 2 2]).result = false ∧
    (Executable.assignResources ⟨"E", "", ["CPU", "Memory"], 1, []⟩
      [.UsableResource "CPU" false 3, .ConsumableResource "Memory" true 2 2]).error ≠ none ∧
    ((Executable.canExecute ⟨"E", "", ["CPU", "Memory"], 1, []⟩
      [.UsableResource "CPU" true 3, .ConsumableResource "Memory" true 2 2]).result = true ↔
      (Executable.assignResources ⟨"E", "", ["CPU", "Memory"], 1, []⟩
        [.UsableResource "CPU" true 3, .ConsumableResource "Memory" true 2 2]).error = none) :=
  ⟨by decide, by decide,
    (canExecute_iff_assign_succeeds_for_distinct_names ⟨"E", "", ["CPU", "Memory"], 1, []⟩
      [.UsableResource "CPU" true 3, .ConsumableResource "Memory" true 2 2] (by decide)).1⟩

/-! ## The orchestrator's own allocation and its sub-units -/

theorem Resource.allocateTimes_getName (m : Nat) :
    ∀ r : Resource, (Resource.allocateTimes m r).getName = r.getName := by
  induction m with
  | zero => intro r; rfl
  | succ m ih => intro r; rw [Resource.allocateTimes, ih, Resource.allocate_getName]

theorem Resource.allocateTimes_usable_held (name : String) (capacity : Int) (m : Nat) :
    ∀ flag : Bool, Resource.allocateTimes (m + 1) (.UsableResource name flag capacity) =
      .UsableResource name false capacity := by
  induction m with
  | zero => intro flag; cases flag <;> simp [Resource.allocateTimes, Resource.allocate]
  | succ m ih =>
    intro flag
    rw [Resource.allocateTimes]
    cases flag
    · simpa [Resource.allocate] using ih false
    · simpa [Resource.allocate] using ih false

/-- The pool holds at position `k` a UsableResource named `N` that is held, and no other
entry of the pool is named `N`. -/
theorem starved_pool_after_visit (N : String) (k : Nat) (c : Int) (task : Exec)
    (pool : List Resource)
    (hk : pool[k]? = some (.UsableResource N false c))
    (honly : ∀ (j : Nat) (r : Resource), pool[j]? = some r → r.getName = N → j = k) :
    (Process.visit (Exec.execute task) task pool).pool[k]? =
      some (.UsableResource N false c) ∧
    ∀ (j : Nat) (r : Resource),
      (Process.visit (Exec.execute task) task pool).pool[j]? = some r → r.getName = N →
        j = k := by
  refine ⟨((Process.visit_sameUsable task pool).usable_entries k
    (.UsableResource N false c) rfl).1 hk, ?_⟩
  intro j r hr hname
  have hj := SameView.of_visit Resource.allocate_getName Resource.release_getName task pool j
  rw [hr] at hj
  cases hb : pool[j]? with
  | none => rw [hb] at hj; simp at hj
  | some r0 =>
    rw [hb] at hj
    simp only [Option.map_some', Option.some.injEq] at hj
    exact honly j r0 hb (by rw [← hj, hname])

theorem starved_pool_after_executeTasks (N : String) (k : Nat) (c : Int) (tasks : List Exec) :
    ∀ pool : List Resource,
      pool[k]? = some (.UsableResource N false c) →
      (∀ (j : Nat) (r : Resource), pool[j]? = some r → r.getName = N → j = k) →
      (Process.executeTasks tasks pool).pool[k]? = some (.UsableResource N false c) ∧
      ∀ (j : Nat) (r : Resource),
        (Process.executeTasks tasks pool).pool[j]? = some r → r.getName = N → j = k := by
  induction tasks with
  | nil => intro pool hk honly; exact ⟨hk, honly⟩
  | cons t rest ih =>
    intro pool hk honly
    obtain ⟨hk', honly'⟩ := starved_pool_after_visit N k c t pool hk honly
    simp only [Process.executeTasks]
    exact ih _ hk' honly'

theorem canExecute_false_of_starved (N : String) (k : Nat) (c : Int) (e : Executable)
    (pool : List Resource)
    (hk : pool[k]? = some (.UsableResource N false c))
    (honly : ∀ (j : Nat) (r : Resource), pool[j]? = some r → r.getName = N → j = k)
    (hN : N ∈ e.requiredResourcesNames) : (e.canExecute pool).result = false := by
  cases hc : (e.canExecute pool).result with
  | false => rfl
  | true =>
    have hne : e.requiredResourcesNames.isEmpty = false := by
      cases hreq : e.requiredResourcesNames with
      | nil => rw [hreq] at hN; cases hN
      | cons a l => rfl
    simp only [Executable.canExecute, hne, Bool.false_eq_true, if_false] at hc
    obtain ⟨r, hr, hname, ha⟩ := (canExecuteLoop_iff _ _).1 hc N hN
    obtain ⟨j, hj⟩ := List.getElem?_of_mem hr
    have := honly j r hj hname
    subst this
    rw [hk] at hj
    simp only [Option.some.injEq] at hj
    subst hj
    simp [Resource.isAvailableForUse] at ha

/-- After a successful assignResources for a required name `N` whose only pool entry is
the UsableResource at position `k`, that entry is held and still the only one named `N`. -/
theorem starved_pool_after_assign (N : String) (k : Nat) (c : Int) (flag : Bool)
    (self : Executable) (pool : List Resource)
    (hN : N ∈ self.requiredResourcesNames)
    (hk : pool[k]? = some (.UsableResource N flag c))
    (honly : ∀ (j : Nat) (r : Resource), pool[j]? = some r → r.getName = N → j = k)
    (ha : (self.assignResources pool).error = none) :
    k ∈ (self.assignResources pool).self.assignedResources ∧
    (self.assignResources pool).pool[k]? = some (.UsableResource N false c) ∧
    ∀ (j : Nat) (r : Resource),
      (self.assignResources pool).pool[j]? = some r → r.getName = N → j = k := by
  obtain ⟨chosen, hself, _, hpool, _, hserved⟩ := Executable.assignResources_ok self pool ha
  have hmem : k ∈ chosen := by
    obtain ⟨i, hi⟩ := List.getElem?_of_mem hN
    obtain ⟨j, hj, ⟨r, hr, hname, _⟩, _⟩ := hserved i N hi
    rw [allocateAll_getElem?] at hr
    cases hb : pool[j]? with
    | none => rw [hb] at hr; cases hr
    | some r0 =>
      rw [hb] at hr
      simp only [Option.map_some', Option.some.injEq] at hr
      have hn0 : r0.getName = N := by
        rw [← hname, ← hr, Resource.allocateTimes_getName]
      have := honly j r0 hb hn0
      subst this
      exact List.getElem?_mem hj
  refine ⟨by rw [hself]; exact hmem, ?_, ?_⟩
  · rw [hpool, allocateAll_getElem?, hk]
    obtain ⟨m, hm⟩ : ∃ m, chosen.count k = m + 1 :=
      ⟨chosen.count k - 1, by have := List.count_pos_iff.2 hmem; omega⟩
    simp [hm, Resource.allocateTimes_usable_held]
  · intro j r hr hname
    have hj := SameView.of_assignResources Resource.allocate_getName Resource.release_getName
      self pool j
    rw [hr] at hj
    cases hb : pool[j]? with
    | none => rw [hb] at hj; simp at hj
    | some r0 =>
      rw [hb] at hj
      simp only [Option.map_some', Option.some.injEq] at hj
      exact honly j r0 hb (by rw [← hj, hname])

/-- C21. The orchestrator's own allocation starves its sub-units.  Let run proceed
(canExecute true, assignResources successful) for an orchestrator that requires a name N,
in a pool whose only entry named N is a UsableResource, at position k.  Then after the
orchestrator's assignment that entry is held, by the orchestrator; it is still held when
any sub-unit takes its turn and after the last one; every sub-unit that requires N fails
canExecute at its turn and is skipped, leaving pool and sub-unit as they were; and run
reports completion.  For the first process of main, all five Tasks are skipped and run
reports completion. -/
theorem orchestrator_starves_sub_units_of_its_own_resource (self : Executable)
    (pool : List Resource) (tasks : List Exec) (N : String) (k : Nat) (c : Int) (flag : Bool)
    (hN : N ∈ self.requiredResourcesNames)
    (hk : pool[k]? = some (.UsableResource N flag c))
    (honly : ∀ (j : Nat) (r : Resource), pool[j]? = some r → r.getName = N → j = k)
    (hc : (self.canExecute pool).result = true)
    (ha : (self.assignResources pool).error = none) :
    k ∈ (self.assignResources pool).self.assignedResources ∧
    (self.assignResources pool).pool[k]? = some (.UsableResource N false c) ∧
    (∀ ts1 ts2 : List Exec, tasks = ts1 ++ ts2 →
      (Process.executeTasks ts1 (self.assignResources pool).pool).pool[k]? =
        some (.UsableResource N false c)) ∧
    (∀ (ts1 : List Exec) (t : Exec) (ts2 : List Exec), tasks = ts1 ++ t :: ts2 →
      N ∈ t.base.requiredResourcesNames →
      (t.base.canExecute
        (Process.executeTasks ts1 (self.assignResources pool).pool).pool).result = false ∧
      Process.visit (Exec.execute t) t
          (Process.executeTasks ts1 (self.assignResources pool).pool).pool =
        ⟨t, (Process.executeTasks ts1 (self.assignResources pool).pool).pool,
          [.taskSkipped t.base.name]⟩) ∧
    (∀ t ∈ tasks, N ∈ t.base.requiredResourcesNames →
      Event.taskSkipped t.base.name ∈ (Process.run self pool tasks).log) ∧
    (Process.run self pool tasks).error = none ∧
    (Process.run self pool tasks).log.filter Event.isTopLevel =
      [.processCompleted self.name] ∧
    main.compilationLog = .ok
      [.executingProcess "CompileMain" "Compile main.c to main.exe" 15,
        .usingUsable "CentralProcessingUnit" 3, .usingConsumable "Memory" 4095 4096,
        .taskSkipped "ScanSourceCode", .taskSkipped "ParseSyntax",
        .taskSkipped "PerformStaticAnalysis", .taskSkipped "GenerateCode",
        .taskSkipped "LinkBinary", .processCompleted "CompileMain"] := by
  obtain ⟨hmem, hk0, honly0⟩ := starved_pool_after_assign N k c flag self pool hN hk honly ha
  have hne : self.requiredResourcesNames.isEmpty = false := by
    cases hreq : self.requiredResourcesNames with
    | nil => rw [hreq] at hN; cases hN
    | cons a l => rfl
  have hstart : self.requiredResourcesNames.isEmpty = true ∨
      (self.requiredResourcesNames.isEmpty = false ∧ (self.canExecute pool).result = true ∧
        (self.assignResources pool).error = none) := Or.inr ⟨hne, hc, ha⟩
  have hturn : ∀ (ts1 : List Exec) (t : Exec), N ∈ t.base.requiredResourcesNames →
      (t.base.canExecute
        (Process.executeTasks ts1 (self.assignResources pool).pool).pool).result = false := by
    intro ts1 t ht
    obtain ⟨h1, h2⟩ := starved_pool_after_executeTasks N k c ts1 _ hk0 honly0
    exact canExecute_false_of_starved N k c t.base _ h1 h2 ht
  refine ⟨hmem, hk0, ?_, ?_, ?_, (Process.run_topLevel_started self pool tasks hstart).1,
    (Process.run_topLevel_started self pool tasks hstart).2, rfl⟩
  · intro ts1 ts2 _
    exact (starved_pool_after_executeTasks N k c ts1 _ hk0 honly0).1
  · intro ts1 t ts2 _ ht
    exact ⟨hturn ts1 t ht, Process.visit_skipped _ t _ (hturn ts1 t ht)⟩
  · intro t htmem ht
    obtain ⟨ts1, ts2, hsplit⟩ := List.append_of_mem htmem
    obtain ⟨base, pool0, _, _, hB, hrun⟩ := Process.run_started self pool tasks hstart
    obtain ⟨_, hp0⟩ := hB hne
    subst hp0
    rw [hrun, hsplit, Process.executeTasks_append]
    simp only [Process.executeTasks, Process.visit_skipped _ t _ (hturn ts1 t ht)]
    simp

/-- Witness for C21: the first process of main.  Its pool has one "CentralProcessingUnit",
a UsableResource, which the orchestrator and all five Tasks require. -/
theorem orchestrator_starves_sub_units_of_its_own_resource_witness :
    main.compilationProcess = .ok
      (.Process ⟨"CompileMain", "Compile main.c to main.exe",
          ["CentralProcessingUnit", "Memory"], 15, []⟩
        [.UsableResource "CentralProcessingUnit" true 3,
          .ConsumableResource "Memory" true 4096 4096]
        [.Task ⟨"ScanSourceCode", "Tokenize main.c", ["CentralProcessingUnit", "Memory"], 2, []⟩,
          .Task ⟨"ParseSyntax", "Build syntax tree from tokens",
            ["CentralProcessingUnit", "Memory"], 3, []⟩,
          .Task ⟨"PerformStaticAnalysis", "Check syntax tree for errors",
            ["CentralProcessingUnit", "Memory"], 4, []⟩,
          .Task ⟨"GenerateCode", "Generate machine code",
            ["CentralProcessingUnit", "Memory"], 3, []⟩,
          .Task ⟨"LinkBinary", "Link object files into main.exe",
            ["CentralProcessingUnit", "Memory"], 2, []⟩]) ∧
    (Executable.assignResources
      ⟨"CompileMain", "Compile main.c to main.exe", ["CentralProcessingUnit", "Memory"], 15, []⟩
      [.UsableResource "CentralProcessingUnit" true 3,
        .ConsumableResource "Memory" true 4096 4096]).pool[0]? =
      some (.UsableResource "CentralProcessingUnit" false 3) ∧
    (Process.run
      ⟨"CompileMain", "Compile main.c to main.exe", ["CentralProcessingUnit", "Memory"], 15, []⟩
      [.UsableResource "CentralProcessingUnit" true 3,
        .ConsumableResource "Memory" true 4096 4096]
      [.Task ⟨"ScanSourceCode", "Tokenize main.c", ["CentralProcessingUnit", "Memory"], 2, []⟩,
        .Task ⟨"ParseSyntax", "Build syntax tree from tokens",
          ["CentralProcessingUnit", "Memory"], 3, []⟩,
        .Task ⟨"PerformStaticAnalysis", "Check syntax tree for errors",
          ["CentralProcessingUnit", "Memory"], 4, []⟩,
        .Task ⟨"GenerateCode", "Generate machine code",
          ["CentralProcessingUnit", "Memory"], 3, []⟩,
        .Task ⟨"LinkBinary", "Link object files into main.exe",
          ["CentralProcessingUnit", "Memory"], 2, []⟩]).log.filter
        Event.isTopLevel = [.processCompleted "CompileMain"] := by
  have honly : ∀ (j : Nat) (r : Resource),
      [Resource.UsableResource "CentralProcessingUnit" true 3,
        Resource.ConsumableResource "Memory" true 4096 4096][j]? = some r →
      r.getName = "CentralProcessingUnit" → j = 0 := by
    intro j r hr hname
    match j, hr with
    | 0, _ => rfl
    | 1, hr =>
      simp only [List.getElem?_cons_succ, List.getElem?_cons_zero, Option.some.injEq] at hr
      subst hr
      simp [Resource.getName] at hname
    | j + 2, hr => simp at hr
  have h := orchestrator_starves_sub_units_of_its_own_resource
    ⟨"CompileMain", "Compile main.c to main.exe", ["CentralProcessingUnit", "Memory"], 15, []⟩
    [.UsableResource "CentralProcessingUnit" true 3,
      .ConsumableResource "Memory" true 4096 4096]
    [.Task ⟨"ScanSourceCode", "Tokenize main.c", ["CentralProcessingUnit", "Memory"], 2, []⟩,
      .Task ⟨"ParseSyntax", "Build syntax tree from tokens",
        ["CentralProcessingUnit", "Memory"], 3, []⟩,
      .Task ⟨"PerformStaticAnalysis", "Check syntax tree for errors",
        ["CentralProcessingUnit", "Memory"], 4, []⟩,
      .Task ⟨"GenerateCode", "Generate machine code",
        ["CentralProcessingUnit", "Memory"], 3, []⟩,
      .Task ⟨"LinkBinary", "Link object files into main.exe",
        ["CentralProcessingUnit", "Memory"], 2, []⟩]
    "CentralProcessingUnit" 0 3 true (by decide) rfl honly (by decide) (by decide)
  exact ⟨rfl, h.2.1, h.2.2.2.2.2.2.1⟩
end CppOopReview
